import Mathlib

/-!
# n_ominos.cpp : a shallow embedding

The program enumerates n-ominoes for n in 1..7 on an 8x8 wrap-around bit grid.

Modelling conventions.

* `int` is `Int` (the claims below never come near the 32-bit limits), `uint8`
  and `uint64` are `Nat` with an explicit `% 256` / `% 2 ^ 64` wherever the C++
  value is truncated.
* The union `BITS { uint64 ui64; uint8 ui8[8]; }` is one number `ui64`; byte `i`
  of it is `ui64 / 256 ^ i % 256`, the little-endian layout of the x86 target the
  source is written for (`unsigned __int64` is the Microsoft compiler's type).
  It is also the only layout under which `Grid8x8::Translate` moves the value of
  a point `P` to `P + V` as its header comment says: rotating `ui64` left by
  `8 * dy` bits moves byte `i` to byte `i + dy`.
* Operations the C++ language leaves undefined (an array index outside `0..7`, a
  shift by a count outside the range the function documents) return
  `Fault.undefinedBehaviour`; a recursion that runs out of fuel returns
  `Fault.outOfFuel`.
* `printf` output is collected in a `String`.
-/

namespace NOminos

deriving instance DecidableEq for Except

/-- Reasons for which a run of the model yields no value. -/
inductive Fault where
  | undefinedBehaviour
  | outOfFuel
  deriving DecidableEq

/-- Source `struct DIR_COMB`: a combination of directions and the number of squares it uses. -/
structure DIR_COMB where
  combo : Nat
  squares : Int
  deriving DecidableEq

/-- Source `DIR_N = 1 << 0`. -/
def DIR_N : Nat := 1 <<< 0

/-- Source `DIR_E = 1 << 1`. -/
def DIR_E : Nat := 1 <<< 1

/-- Source `DIR_S = 1 << 2`. -/
def DIR_S : Nat := 1 <<< 2

/-- Source `DIR_W = 1 << 3`. -/
def DIR_W : Nat := 1 <<< 3

/-- Source `struct VECT`. -/
structure VECT where
  dx : Int
  dy : Int
  deriving DecidableEq

/-- Source `struct POINT`. -/
structure POINT where
  x : Int
  y : Int
  deriving DecidableEq

/-- Source `const kLimit = 7`. -/
def kLimit : Int := 7

/-- The table `kDirComb`, entry by entry as in the source. -/
def kDirComb : List DIR_COMB :=
  [ ⟨DIR_N, 1⟩,
    ⟨DIR_E, 1⟩,
    ⟨DIR_E ||| DIR_N, 2⟩,
    ⟨DIR_S, 1⟩,
    ⟨DIR_S ||| DIR_N, 2⟩,
    ⟨DIR_S ||| DIR_E, 2⟩,
    ⟨DIR_S ||| DIR_E ||| DIR_N, 3⟩,
    ⟨DIR_W ||| DIR_N, 2⟩,
    ⟨DIR_W ||| DIR_E, 2⟩,
    ⟨DIR_W ||| DIR_E ||| DIR_N, 3⟩,
    ⟨DIR_W ||| DIR_S, 2⟩,
    ⟨DIR_W ||| DIR_S ||| DIR_N, 3⟩,
    ⟨DIR_W ||| DIR_S ||| DIR_E, 3⟩,
    ⟨DIR_W ||| DIR_S ||| DIR_E ||| DIR_N, 4⟩ ]

/-- Source `kNumDirComb = ARRAY_LENGTH(kDirComb)`. -/
def kNumDirComb : Nat := kDirComb.length

/-- Source `kVecNorth = { 0, -1 }`. -/
def kVecNorth : VECT := ⟨0, -1⟩

/-- Source `kVecEast = { 1, 0 }`. -/
def kVecEast : VECT := ⟨1, 0⟩

/-- Source `kVecSouth = { 0, 1 }`. -/
def kVecSouth : VECT := ⟨0, 1⟩

/-- Source `kVecWest = { -1, 0 }`. -/
def kVecWest : VECT := ⟨-1, 0⟩

/-- Source `operator+(const POINT&, const VECT&)`. -/
def POINT.add (p : POINT) (v : VECT) : POINT := ⟨p.x + v.dx, p.y + v.dy⟩

/-- Source `RightRotate8(val, rot)`: `(uint8)(val >> rot) | (uint8)(val << (8 - rot))`.
The model keeps to the documented range `0 - 7` of `rot`. Below it, and from 9 on, a shift
count is negative, which C++ leaves undefined; at `rot = 8` the source still returns `val`,
and the model, stricter than the source there, reports a fault as well. -/
def RightRotate8 (val : Nat) (rot : Int) : Except Fault Nat :=
  if 0 ≤ rot ∧ rot ≤ 7 then
    let tmp1 := (val >>> rot.toNat) % 256
    let tmp2 := (val <<< (8 - rot).toNat) % 256
    .ok (tmp1 ||| tmp2)
  else
    .error .undefinedBehaviour

/-- Source `LeftRotate64(val, rot)`: `(val << rot) | (val >> (64 - rot))` on 64 bits.
Outside the documented range `0 - 63` of `rot` a shift count is negative or too
large, which C++ leaves undefined. For `rot = 0` the right shift is by 64 bits
and contributes nothing the left shift does not already hold. -/
def LeftRotate64 (val : Nat) (rot : Int) : Except Fault Nat :=
  if 0 ≤ rot ∧ rot ≤ 63 then
    let tmp1 := (val <<< rot.toNat) % 2 ^ 64
    let tmp2 := val >>> (64 - rot).toNat
    .ok (tmp1 ||| tmp2)
  else
    .error .undefinedBehaviour

/-- Source `class Grid8x8`: the union `_bits`, held as its `ui64` member. -/
structure Grid8x8 where
  ui64 : Nat
  deriving DecidableEq

/-- Read `_bits.ui8[i]`. -/
def Grid8x8.ui8 (g : Grid8x8) (i : Nat) : Nat := g.ui64 / 256 ^ i % 256

/-- Write `_bits.ui8[i] = v` (`v` truncated to a byte): the bytes below `i`, the
new byte `i`, and the bytes above `i` of `ui64`. -/
def Grid8x8.setUi8 (g : Grid8x8) (i : Nat) (v : Nat) : Grid8x8 :=
  ⟨g.ui64 % 256 ^ i + v % 256 * 256 ^ i + g.ui64 / 256 ^ (i + 1) * 256 ^ (i + 1)⟩

/-- Source `Grid8x8::Grid8x8()`, the constructor. -/
def Grid8x8.init : Grid8x8 := ⟨0⟩

/-- Source `Grid8x8::Normalize(int i)`: `(8 + i) % 8`, where `%` truncates towards zero. The
sum is taken in the integers: it is the source's `int` sum as long as `i <= 2^31 - 9`; beyond
that the source overflows. -/
def Grid8x8.Normalize (i : Int) : Int := Int.tmod (8 + i) 8

/-- Source `Grid8x8::Normalize(POINT&)`. -/
def Grid8x8.NormalizePt (pt : POINT) : POINT :=
  ⟨Grid8x8.Normalize pt.x, Grid8x8.Normalize pt.y⟩

/-- Source `Grid8x8::Set(pt)`: `_bits.ui8[pt.y] |= (0x80 >> pt.x)` after `Normalize(pt)`.
Undefined when the normalized index is not in `0..7` or the shift count is
negative. -/
def Grid8x8.Set (g : Grid8x8) (pt : POINT) : Except Fault Grid8x8 :=
  let pt := Grid8x8.NormalizePt pt
  if 0 ≤ pt.y ∧ pt.y < 8 ∧ 0 ≤ pt.x ∧ pt.x < 32 then
    .ok (g.setUi8 pt.y.toNat (g.ui8 pt.y.toNat ||| (0x80 >>> pt.x.toNat)))
  else
    .error .undefinedBehaviour

/-- Source `Grid8x8::Get(pt)`: `(_bits.ui8[pt.y] & (0x80 >> pt.x)) ? true : false` after
`Normalize(pt)`. -/
def Grid8x8.Get (g : Grid8x8) (pt : POINT) : Except Fault Bool :=
  let pt := Grid8x8.NormalizePt pt
  if 0 ≤ pt.y ∧ pt.y < 8 ∧ 0 ≤ pt.x ∧ pt.x < 32 then
    .ok (g.ui8 pt.y.toNat &&& (0x80 >>> pt.x.toNat) != 0)
  else
    .error .undefinedBehaviour

/-- The first loop of `Grid8x8::Translate`, over the row indices still to do:
`_bits.ui8[i] = RightRotate8(_bits.ui8[i], vec.dx)`. -/
def Grid8x8.TranslateRows (vec : VECT) : List Nat → Grid8x8 → Except Fault Grid8x8
  | [], g => .ok g
  | i :: rest, g =>
    match RightRotate8 (g.ui8 i) vec.dx with
    | .ok r => Grid8x8.TranslateRows vec rest (g.setUi8 i r)
    | .error e => .error e

/-- Source `Grid8x8::Translate(vec)`. -/
def Grid8x8.Translate (g : Grid8x8) (vec : VECT) : Except Fault Grid8x8 :=
  match Grid8x8.TranslateRows vec [0, 1, 2, 3, 4, 5, 6, 7] g with
  | .ok g1 =>
    match LeftRotate64 g1.ui64 (8 * vec.dy) with
    | .ok v => .ok ⟨v⟩
    | .error e => .error e
  | .error e => .error e

/-- Source `Grid8x8::Comp(a)`. -/
def Grid8x8.Comp (g a : Grid8x8) : Int :=
  if g.ui64 < a.ui64 then -1
  else if g.ui64 > a.ui64 then 1
  else 0

/-- Source `class N_Omino`. -/
structure N_Omino where
  _grid : Grid8x8
  _pos : POINT
  _extent1 : POINT
  _extent2 : POINT
  _squaresLeft : Int
  deriving DecidableEq

/-- Source `N_Omino::N_Omino(int N)`, the constructor. -/
def N_Omino.init (N : Int) : Except Fault N_Omino :=
  let pos : POINT := ⟨0, 0⟩
  match Grid8x8.init.Set pos with
  | .ok g => .ok ⟨g, pos, pos, pos, N - 1⟩
  | .error e => .error e

/-- Source `N_Omino::Add(kVec)`: the returned flag and the object afterwards. -/
def N_Omino.Add (s : N_Omino) (kVec : VECT) : Except Fault (Bool × N_Omino) :=
  let pos := s._pos.add kVec
  match s._grid.Get pos with
  | .error e => .error e
  | .ok occupied =>
    if occupied || decide (s._squaresLeft < 1) then
      .ok (false, s)
    else
      match s._grid.Set pos with
      | .error e => .error e
      | .ok g =>
        .ok (true,
          { s with
            _grid := g
            _extent1 := ⟨min pos.x s._extent1.x, min pos.y s._extent1.y⟩
            _extent2 := ⟨max pos.x s._extent2.x, max pos.y s._extent2.y⟩
            _squaresLeft := s._squaresLeft - 1 })

/-- Source `N_Omino::AddNorth()`. -/
def N_Omino.AddNorth (s : N_Omino) := s.Add kVecNorth

/-- Source `N_Omino::AddEast()`. -/
def N_Omino.AddEast (s : N_Omino) := s.Add kVecEast

/-- Source `N_Omino::AddSouth()`. -/
def N_Omino.AddSouth (s : N_Omino) := s.Add kVecSouth

/-- Source `N_Omino::AddWest()`. -/
def N_Omino.AddWest (s : N_Omino) := s.Add kVecWest

/-- Source `N_Omino::Follow(kVec)`. -/
def N_Omino.Follow (s : N_Omino) (kVec : VECT) : N_Omino :=
  { s with _pos := s._pos.add kVec }

/-- Source `N_Omino::FollowNorth()`. -/
def N_Omino.FollowNorth (s : N_Omino) := s.Follow kVecNorth

/-- Source `N_Omino::FollowEast()`. -/
def N_Omino.FollowEast (s : N_Omino) := s.Follow kVecEast

/-- Source `N_Omino::FollowSouth()`. -/
def N_Omino.FollowSouth (s : N_Omino) := s.Follow kVecSouth

/-- Source `N_Omino::FollowWest()`. -/
def N_Omino.FollowWest (s : N_Omino) := s.Follow kVecWest

/-- The loop of `N_Omino::Draw(int row)` from column `i` on, `n` columns to go. -/
def N_Omino.DrawRowFrom (s : N_Omino) (row : Int) : Nat → Int → Except Fault String
  | 0, _ => .ok ""
  | n + 1, i =>
    match s._grid.Get ⟨i, row⟩ with
    | .error e => .error e
    | .ok b =>
      match N_Omino.DrawRowFrom s row n (i + 1) with
      | .error e => .error e
      | .ok rest => .ok ((if b then "[]" else "  ") ++ rest)

/-- Source `N_Omino::Draw(int row)`: columns `_extent1.x .. _extent2.x`. -/
def N_Omino.DrawRow (s : N_Omino) (row : Int) : Except Fault String :=
  s.DrawRowFrom row (s._extent2.x + 1 - s._extent1.x).toNat s._extent1.x

/-- The loop of `N_Omino::Draw()` from row `i` on, `n` rows to go. -/
def N_Omino.DrawFrom (s : N_Omino) : Nat → Int → Except Fault String
  | 0, _ => .ok ""
  | n + 1, i =>
    match s.DrawRow i with
    | .error e => .error e
    | .ok line =>
      match N_Omino.DrawFrom s n (i + 1) with
      | .error e => .error e
      | .ok rest => .ok (line ++ "\n" ++ rest)

/-- Source `N_Omino::Draw()`: two newlines, then rows `_extent1.y .. _extent2.y`. -/
def N_Omino.Draw (s : N_Omino) : Except Fault String :=
  match s.DrawFrom (s._extent2.y + 1 - s._extent1.y).toNat s._extent1.y with
  | .error e => .error e
  | .ok rows => .ok ("\n\n" ++ rows)

/-- Source `N_Omino::Normalize()`. -/
def N_Omino.Normalize (s : N_Omino) : Except Fault N_Omino :=
  let trans : VECT := ⟨-s._extent1.x, -s._extent1.y⟩
  match s._grid.Translate trans with
  | .error e => .error e
  | .ok g =>
    .ok { s with
          _grid := g
          _extent2 := ⟨s._extent2.x - s._extent1.x, s._extent2.y - s._extent1.y⟩
          _extent1 := ⟨0, 0⟩ }

/-- Source `N_Omino::Comp(a)`. -/
def N_Omino.Comp (s a : N_Omino) : Int := s._grid.Comp a._grid

/-- Source `N_Omino::operator<`. -/
def N_Omino.lt (s a : N_Omino) : Bool := decide (s.Comp a < 0)

/-- Source `N_Omino::operator==`. -/
def N_Omino.eq (s a : N_Omino) : Bool := decide (s.Comp a = 0)

/-- Source `N_Omino::SquaresLeft()`. -/
def N_Omino.SquaresLeft (s : N_Omino) : Int := s._squaresLeft

/-- Source `N_OminosDraw(n_ominos)`: the drawings of all entries, in order. -/
def N_OminosDraw : List N_Omino → Except Fault String
  | [] => .ok ""
  | s :: rest =>
    match s.Draw with
    | .error e => .error e
    | .ok d =>
      match N_OminosDraw rest with
      | .error e => .error e
      | .ok ds => .ok (d ++ ds)

/-- One guarded `Add` of `N_OminosGenerateImp`:
`if (kDirComb[i].combo & dir) { if (!newNOmino.Add(kVec)) continue; }`.
`cur` is the working copy so far; `none` stands for `continue` (a collision). -/
def AddIf (combo dir : Nat) (kVec : VECT) (cur : Except Fault (Option N_Omino)) :
    Except Fault (Option N_Omino) :=
  match cur with
  | .error e => .error e
  | .ok none => .ok none
  | .ok (some s) =>
    if combo &&& dir != 0 then
      match s.Add kVec with
      | .error e => .error e
      | .ok (true, s1) => .ok (some s1)
      | .ok (false, _) => .ok none
    else .ok (some s)

/-- The four guarded `Add` calls of one table entry in `N_OminosGenerateImp`
(`AddNorth`, `AddEast`, `AddSouth`, `AddWest`, in this order) on the copy
`newNOmino` of `n_omino`. -/
def AddCombo (combo : Nat) (n_omino : N_Omino) : Except Fault (Option N_Omino) :=
  AddIf combo DIR_W kVecWest
    (AddIf combo DIR_S kVecSouth
      (AddIf combo DIR_E kVecEast
        (AddIf combo DIR_N kVecNorth (.ok (some n_omino)))))

/-- One guarded recursion of `N_OminosGenerateImp`:
`if (kDirComb[i].combo & dir) { anotherNOmino = newNOmino; anotherNOmino.Follow(kVec);
N_OminosGenerateImp(n_ominos, anotherNOmino); }`, where `recurse` is the recursive
call and `acc` the collection so far. -/
def FollowIf (recurse : List N_Omino → N_Omino → Except Fault (List N_Omino))
    (combo dir : Nat) (kVec : VECT) (newNOmino : N_Omino)
    (acc : Except Fault (List N_Omino)) : Except Fault (List N_Omino) :=
  match acc with
  | .error e => .error e
  | .ok n_ominos =>
    if combo &&& dir != 0 then recurse n_ominos (newNOmino.Follow kVec)
    else .ok n_ominos

/-- The four guarded recursions of one table entry (North, East, South, West). -/
def FollowCombo (recurse : List N_Omino → N_Omino → Except Fault (List N_Omino))
    (combo : Nat) (newNOmino : N_Omino) (n_ominos : List N_Omino) :
    Except Fault (List N_Omino) :=
  FollowIf recurse combo DIR_W kVecWest newNOmino
    (FollowIf recurse combo DIR_S kVecSouth newNOmino
      (FollowIf recurse combo DIR_E kVecEast newNOmino
        (FollowIf recurse combo DIR_N kVecNorth newNOmino (.ok n_ominos))))

/-- The loop `for (i = 0; i < kNumDirComb; ++i)` of `N_OminosGenerateImp` over the
table entries still to do. -/
def GenerateLoop (recurse : List N_Omino → N_Omino → Except Fault (List N_Omino))
    (n_omino : N_Omino) : List DIR_COMB → List N_Omino → Except Fault (List N_Omino)
  | [], n_ominos => .ok n_ominos
  | dc :: rest, n_ominos =>
    match AddCombo dc.combo n_omino with
    | .error e => .error e
    | .ok none => GenerateLoop recurse n_omino rest n_ominos
    | .ok (some newNOmino) =>
      match FollowCombo recurse dc.combo newNOmino n_ominos with
      | .error e => .error e
      | .ok n_ominos1 => GenerateLoop recurse n_omino rest n_ominos1

/-- Source `N_OminosGenerateImp(n_ominos, n_omino)`: the collection afterwards. `fuel`
bounds the depth of the recursion. -/
def N_OminosGenerateImp : Nat → List N_Omino → N_Omino → Except Fault (List N_Omino)
  | 0, _, _ => .error .outOfFuel
  | fuel + 1, n_ominos, n_omino =>
    if n_omino.SquaresLeft = 0 then
      match n_omino.Normalize with
      | .error e => .error e
      | .ok n => .ok (n_ominos ++ [n])
    else
      GenerateLoop (N_OminosGenerateImp fuel) n_omino kDirComb n_ominos

/-- Source `std::list::merge` by `operator<`: an element of the second list is taken
only when it is smaller than the head of the first, so equal elements keep their
order. `fuel` bounds the number of steps (the two lengths together suffice). -/
def mergeLists : Nat → List N_Omino → List N_Omino → List N_Omino
  | 0, xs, ys => xs ++ ys
  | _ + 1, [], ys => ys
  | _ + 1, xs, [] => xs
  | fuel + 1, x :: xs, y :: ys =>
    if y.lt x then y :: mergeLists fuel (x :: xs) ys
    else x :: mergeLists fuel xs (y :: ys)

/-- Source `std::list::sort()`: a stable merge sort by `operator<`. `fuel` bounds the
depth of the halving (the length suffices). -/
def sortLists : Nat → List N_Omino → List N_Omino
  | 0, l => l
  | fuel + 1, l =>
    if l.length < 2 then l
    else
      mergeLists l.length
        (sortLists fuel (l.take (l.length / 2)))
        (sortLists fuel (l.drop (l.length / 2)))

/-- Source `n_ominos.sort()`. -/
def sort (l : List N_Omino) : List N_Omino := sortLists l.length l

/-- The loop of `std::list::unique()`: `prev` is the last element kept; an
element equal to it by `operator==` is erased. -/
def uniqueFrom (prev : N_Omino) : List N_Omino → List N_Omino
  | [] => [prev]
  | b :: rest => if prev.eq b then uniqueFrom prev rest else prev :: uniqueFrom b rest

/-- Source `n_ominos.unique()`. -/
def unique : List N_Omino → List N_Omino
  | [] => []
  | a :: rest => uniqueFrom a rest

/-- The collection `n_ominos` of `N_OminosGenerate(N)` after `sort()` and
`unique()`, for `N` in range: the seed `N_Omino n_omino(N)`, the search, the sort
and the removal of duplicates. The recursion is given `N` levels of fuel. -/
def N_OminosCollection (N : Int) : Except Fault (List N_Omino) :=
  match N_Omino.init N with
  | .error e => .error e
  | .ok n_omino =>
    match N_OminosGenerateImp N.toNat [] n_omino with
    | .error e => .error e
    | .ok n_ominos => .ok (unique (sort n_ominos))

/-- Source `N_OminosGenerate(N)`: the returned value and what is printed. -/
def N_OminosGenerate (N : Int) : Except Fault (Int × String) :=
  if 1 ≤ N ∧ N ≤ kLimit then
    match N_OminosCollection N with
    | .error e => .error e
    | .ok n_ominos =>
      match N_OminosDraw n_ominos with
      | .error e => .error e
      | .ok drawn =>
        .ok (1, "n_ominoes = " ++ toString n_ominos.length ++ "\n" ++ drawn)
  else
    .ok (0, "")

/-- The cell `(x, y)` of a grid, for `x, y` in `0..7`: bit `7 - x` of byte `y`. -/
def Grid8x8.bit (g : Grid8x8) (x y : Nat) : Bool := g.ui64.testBit (8 * y + (7 - x))

/-- The residue of a coordinate, as a natural number. -/
def wrap (i : Int) : Nat := (i % 8).toNat

/-- The sort key of a shape: its grid as a 64-bit number. -/
def N_Omino.key (s : N_Omino) : Nat := s._grid.ui64

/-- Sorted by key, non-strictly. -/
def KeySorted (l : List N_Omino) : Prop := l.Pairwise (fun a b => a.key ≤ b.key)

/-- The shape after a successful `Add` towards `kVec`. -/
def N_Omino.added (s : N_Omino) (kVec : VECT) : N_Omino :=
  { s with
    _grid := ⟨s._grid.ui64 ||| 2 ^ (8 * wrap (s._pos.add kVec).y + (7 - wrap (s._pos.add kVec).x))⟩
    _extent1 := ⟨min (s._pos.add kVec).x s._extent1.x, min (s._pos.add kVec).y s._extent1.y⟩
    _extent2 := ⟨max (s._pos.add kVec).x s._extent2.x, max (s._pos.add kVec).y s._extent2.y⟩
    _squaresLeft := s._squaresLeft - 1 }

/-- A point lies in the bounding box of a shape. -/
def N_Omino.inBox (s : N_Omino) (p : POINT) : Prop :=
  s._extent1.x ≤ p.x ∧ p.x ≤ s._extent2.x ∧ s._extent1.y ≤ p.y ∧ p.y ≤ s._extent2.y

/-- A point of the bounding box whose (wrapped) grid cell is set. -/
def N_Omino.Occ (s : N_Omino) (p : POINT) : Prop :=
  s.inBox p ∧ s._grid.bit (wrap p.x) (wrap p.y) = true

/-- Two points one unit step (north, east, south or west) apart. -/
def Adjacent (p q : POINT) : Prop :=
  (q.x = p.x ∧ (q.y = p.y + 1 ∨ q.y = p.y - 1)) ∨ (q.y = p.y ∧ (q.x = p.x + 1 ∨ q.x = p.x - 1))

/-- Reachability by unit steps that stay on points satisfying `occ`. -/
def Reach (occ : POINT → Prop) : POINT → POINT → Prop :=
  Relation.ReflTransGen (fun a b => occ a ∧ occ b ∧ Adjacent a b)

/-- The set of occupied cells of a grid. -/
def Grid8x8.occSet (g : Grid8x8) : Finset (Fin 8 × Fin 8) :=
  Finset.univ.filter (fun p => g.bit p.1.val p.2.val = true)

/-- The invariant of the search started by `N_OminosGenerate(N)`. -/
structure Inv (N : Int) (s : N_Omino) : Prop where
  left_nonneg : 0 ≤ s._squaresLeft
  grid_lt : s._grid.ui64 < 2 ^ 64
  origin : s._extent1.x ≤ 0 ∧ 0 ≤ s._extent2.x ∧ s._extent1.y ≤ 0 ∧ 0 ≤ s._extent2.y
  size : (s._extent2.x - s._extent1.x) + (s._extent2.y - s._extent1.y) + s._squaresLeft ≤ N - 1
  cursor : s.Occ s._pos
  allInBox : ∀ x y, x < 8 → y < 8 → s._grid.bit x y = true →
    ∃ p, s.inBox p ∧ wrap p.x = x ∧ wrap p.y = y
  conn : ∀ p q, s.Occ p → s.Occ q → Reach s.Occ p q
  count : (s._grid.occSet.card : Int) + s._squaresLeft = N

/-- The four unit vectors. -/
def IsUnit (v : VECT) : Prop := v = kVecNorth ∨ v = kVecEast ∨ v = kVecSouth ∨ v = kVecWest

/-- What holds of the working copy after some of the guarded `Add` calls of a table entry:
there was a collision, or the copy still satisfies the invariant, has the cursor of `s`, and
holds every cell asked for so far. -/
def Mid (N : Int) (s : N_Omino) (combo : Nat) (dirs : List (Nat × VECT))
    (cur : Except Fault (Option N_Omino)) : Prop :=
  cur = .ok none ∨
  ∃ s', cur = .ok (some s') ∧ Inv N s' ∧ s'._pos = s._pos ∧
    s'._squaresLeft ≤ s._squaresLeft ∧
    ∀ d ∈ dirs, (combo &&& d.1 != 0) = true →
      s'.Occ (s._pos.add d.2) ∧ s'._squaresLeft < s._squaresLeft

/-- The four directions with their vectors, last one first. -/
def allDirs : List (Nat × VECT) :=
  [(DIR_W, kVecWest), (DIR_S, kVecSouth), (DIR_E, kVecEast), (DIR_N, kVecNorth)]

/-- What the recursive call is assumed to do on shapes with fewer squares left than `L`. -/
def RecOk (N : Int) (Q : N_Omino → Prop) (L : Int)
    (recurse : List N_Omino → N_Omino → Except Fault (List N_Omino)) : Prop :=
  ∀ acc t, Inv N t → t._squaresLeft < L →
    ∃ out, recurse acc t = .ok (acc ++ out) ∧ ∀ u ∈ out, Q u

/-- The collection after some steps: `base` followed by shapes satisfying `Q`. -/
def Grown (Q : N_Omino → Prop) (base : List N_Omino) (r : Except Fault (List N_Omino)) : Prop :=
  ∃ out, r = .ok (base ++ out) ∧ ∀ u ∈ out, Q u

/-- The point `p` is a cell of the 8x8 grid (no wrap-around) and `Get(p)` is true. -/
def Grid8x8.Occupied (g : Grid8x8) (p : POINT) : Prop :=
  0 ≤ p.x ∧ p.x ≤ 7 ∧ 0 ≤ p.y ∧ p.y ≤ 7 ∧ g.Get p = .ok true

instance (g : Grid8x8) (p : POINT) : Decidable (g.Occupied p) := by
  unfold Grid8x8.Occupied; infer_instance

/-- The number of cells `(x, y)`, `0 <= x, y <= 7`, for which `Get` is true. -/
def Grid8x8.CellCount (g : Grid8x8) : Nat :=
  (Finset.univ.filter (fun p : Fin 8 × Fin 8 => g.Get ⟨p.1.val, p.2.val⟩ = .ok true)).card

/-- Any occupied cell can be reached from any other by unit steps on occupied cells. -/
def Grid8x8.Connected (g : Grid8x8) : Prop :=
  ∀ p q, g.Occupied p → g.Occupied q → Reach g.Occupied p q

/-- What holds of every shape the search stores in its collection. -/
structure Final (N : Int) (t : N_Omino) : Prop where
  extent1 : t._extent1 = ⟨0, 0⟩
  extent2 : 0 ≤ t._extent2.x ∧ t._extent2.x ≤ 6 ∧ 0 ≤ t._extent2.y ∧ t._extent2.y ≤ 6
  left : t._squaresLeft = 0
  grid_lt : t._grid.ui64 < 2 ^ 64
  count : (t._grid.CellCount : Int) = N
  inBox : ∀ p, t._grid.Occupied p → p.x ≤ t._extent2.x ∧ p.y ≤ t._extent2.y
  conn : t._grid.Connected

/-- The cell shift of `Translate` by `(dx, dy)`. -/
def shiftCell (dx dy : Nat) (p : Fin 8 × Fin 8) : Fin 8 × Fin 8 :=
  (⟨(p.1.val + dx) % 8, Nat.mod_lt _ (by norm_num)⟩, ⟨(p.2.val + dy) % 8, Nat.mod_lt _ (by norm_num)⟩)

/-- The sort keys (grids as numbers) of the collection of `N_OminosGenerate(5)`. -/
def keys5 : List Nat :=
  [248, 4336, 8432, 12512, 16624, 24800, 28864, 33008, 41184, 49264, 49376, 57392, 57440,
   57504, 57536, 61456, 61472, 61504, 61568, 2105568, 2121920, 2154528, 2154560, 2154624,
   4210912, 4219072, 4243552, 4243648, 4251680, 4251712, 4251776, 6308032, 6340672, 6340736,
   8421600, 8437856, 8437952, 8445984, 8446016, 8446080, 12599392, 12607520, 12607552,
   12615872, 12632128, 12632192, 14688288, 14696512, 14712960, 1077952704, 1077985344,
   1077985408, 1086341184, 1086357632, 2155905216, 2155921472, 2155921536, 2160083008,
   2160099456, 3225436224, 3229646976, 551911719040]

/-- The cells of the U-shaped pentomino that opens to the west. -/
def uPentomino : List POINT := [⟨0, 0⟩, ⟨1, 0⟩, ⟨1, 1⟩, ⟨1, 2⟩, ⟨0, 2⟩]

/-- One successful `Add` towards one of the four directions: `b` is `a` afterwards. -/
def AddStep (a b : N_Omino) : Prop := ∃ v, IsUnit v ∧ a.Add v = .ok (true, b)

/-- The call relation of `N_OminosGenerateImp`: run on `s` (with squares left), it calls itself
on `t`, the copy `s'` left by the guarded `Add`s of some table entry, moved by `Follow` towards
one of the directions of that entry. -/
def Calls (s t : N_Omino) : Prop :=
  s.SquaresLeft ≠ 0 ∧ ∃ dc ∈ kDirComb, ∃ s', AddCombo dc.combo s = .ok (some s') ∧
    ∃ d ∈ allDirs, (dc.combo &&& d.1 != 0) = true ∧ t = s'.Follow d.2

/-- The shapes passed to `N_OminosGenerateImp` during `N_OminosGenerate(N)`: the seed
`N_Omino(N)` and what is reached from it along the call relation. -/
def Passed (N : Int) (t : N_Omino) : Prop :=
  ∃ seed, N_Omino.init N = .ok seed ∧ Relation.ReflTransGen Calls seed t

/-- One `Add` towards one of the four directions, successful or not: `b` is `a` afterwards. -/
def AddAny (a b : N_Omino) : Prop := ∃ v, IsUnit v ∧ ∃ flag, a.Add v = .ok (flag, b)

/-- The shapes the search of `N_OminosGenerate(N)` creates before canonicalization: every shape
passed to `N_OminosGenerateImp` and every state a working copy of it takes under `Add`. -/
def Work (N : Int) (w : N_Omino) : Prop :=
  ∃ s, Passed N s ∧ Relation.ReflTransGen AddAny s w

/-- A chain of `k` nested calls of `N_OminosGenerateImp` from `s` down to `t`. -/
def CallDepth : Nat → N_Omino → N_Omino → Prop
  | 0, s, t => s = t
  | k + 1, s, t => ∃ m, CallDepth k s m ∧ Calls m t

/-- The result is not the exhaustion of the fuel. -/
def NoFuelFault {α : Type} (r : Except Fault α) : Prop := r ≠ .error .outOfFuel

/-- The shapes appended by a run: each is the canonical form of a complete shape reached from
`s` along the call relation. -/
def Leaves (s : N_Omino) (acc out : List N_Omino) : Prop :=
  ∃ new, out = acc ++ new ∧
    ∀ u ∈ new, ∃ t, Relation.ReflTransGen Calls s t ∧ t.SquaresLeft = 0 ∧ t.Normalize = .ok u

/-- The collection `n_ominos` of `N_OminosGenerate(N)` as the search leaves it, before `sort()`
and `unique()`. -/
def N_OminosSearch (N : Int) : Except Fault (List N_Omino) :=
  match N_Omino.init N with
  | .error e => .error e
  | .ok n_omino => N_OminosGenerateImp N.toNat [] n_omino

/-- The bounding box touches the shape on all four sides. -/
def N_Omino.Tight (s : N_Omino) : Prop :=
  (∃ p, s.Occ p ∧ p.x = s._extent1.x) ∧ (∃ p, s.Occ p ∧ p.x = s._extent2.x) ∧
  (∃ p, s.Occ p ∧ p.y = s._extent1.y) ∧ (∃ p, s.Occ p ∧ p.y = s._extent2.y)

/-- The invariant of the search together with the tightness of the bounding box. -/
def InvT (N : Int) (s : N_Omino) : Prop := Inv N s ∧ s.Tight

/-- The glyph of a cell: `[]` when occupied, two spaces otherwise. -/
def glyph (b : Bool) : String := if b then "[]" else "  "

/-- The strings of a list one after the other. -/
def concat (l : List String) : String := l.foldr (· ++ ·) ""

/-- Row `y` of the drawing of a shape as the claim describes it: one glyph for each column
`0 .. _extent2.x`. -/
def N_Omino.GlyphRow (s : N_Omino) (y : Nat) : List String :=
  (List.range (s._extent2.x + 1).toNat).map
    fun (x : Nat) => glyph (decide (s._grid.Get ⟨(x : Int), (y : Int)⟩ = .ok true))

/-- The glyphs of the drawing of a shape as the claim describes it: one row for each
`0 .. _extent2.y`. -/
def N_Omino.Glyphs (s : N_Omino) : List (List String) :=
  (List.range (s._extent2.y + 1).toNat).map s.GlyphRow

/-- The drawing of a shape as the claim describes it: two newlines, then each row of glyphs
followed by a newline. -/
def N_Omino.Drawing (s : N_Omino) : String :=
  "\n\n" ++ concat (s.Glyphs.map fun row => concat row ++ "\n")

/-- A shape of the search on an unbounded grid, as the claim describes it: the occupied cells
kept as a set of integer points, the cursor and the number of squares left. -/
structure SetShape where
  cells : List POINT
  pos : POINT
  left : Int
  deriving DecidableEq

/-- The seed on the unbounded grid: the single cell `(0,0)` with the cursor on it. -/
def SetShape.init (N : Int) : SetShape := ⟨[⟨0, 0⟩], ⟨0, 0⟩, N - 1⟩

/-- The step `Add` on the unbounded grid: a collision means that the exact point is already in
the set (or that no square is left); otherwise the point joins the set. -/
def SetShape.Add (s : SetShape) (kVec : VECT) : Bool × SetShape :=
  let pos := s.pos.add kVec
  if decide (pos ∈ s.cells) || decide (s.left < 1) then (false, s)
  else (true, { s with cells := pos :: s.cells, left := s.left - 1 })

/-- The step `Follow` on the unbounded grid: the cursor moves. -/
def SetShape.Follow (s : SetShape) (kVec : VECT) : SetShape := { s with pos := s.pos.add kVec }

/-- One guarded `Add` of the search on the unbounded grid; `none` stands for `continue`. -/
def SetAddIf (combo dir : Nat) (kVec : VECT) (cur : Option SetShape) : Option SetShape :=
  match cur with
  | none => none
  | some s =>
    if combo &&& dir != 0 then
      match s.Add kVec with
      | (true, s1) => some s1
      | (false, _) => none
    else some s

/-- The four guarded `Add`s of one table entry on the unbounded grid, in the order North, East,
South, West. -/
def SetAddCombo (combo : Nat) (s : SetShape) : Option SetShape :=
  SetAddIf combo DIR_W kVecWest
    (SetAddIf combo DIR_S kVecSouth
      (SetAddIf combo DIR_E kVecEast
        (SetAddIf combo DIR_N kVecNorth (some s))))

/-- One guarded recursion of the search on the unbounded grid. -/
def SetFollowIf (recurse : List (List POINT) → SetShape → Except Fault (List (List POINT)))
    (combo dir : Nat) (kVec : VECT) (newShape : SetShape)
    (acc : Except Fault (List (List POINT))) : Except Fault (List (List POINT)) :=
  match acc with
  | .error e => .error e
  | .ok shapes =>
    if combo &&& dir != 0 then recurse shapes (newShape.Follow kVec)
    else .ok shapes

/-- The four guarded recursions of one table entry on the unbounded grid (North, East, South,
West). -/
def SetFollowCombo (recurse : List (List POINT) → SetShape → Except Fault (List (List POINT)))
    (combo : Nat) (newShape : SetShape) (shapes : List (List POINT)) :
    Except Fault (List (List POINT)) :=
  SetFollowIf recurse combo DIR_W kVecWest newShape
    (SetFollowIf recurse combo DIR_S kVecSouth newShape
      (SetFollowIf recurse combo DIR_E kVecEast newShape
        (SetFollowIf recurse combo DIR_N kVecNorth newShape (.ok shapes))))

/-- The loop over the table entries still to do, on the unbounded grid. -/
def SetLoop (recurse : List (List POINT) → SetShape → Except Fault (List (List POINT)))
    (s : SetShape) : List DIR_COMB → List (List POINT) → Except Fault (List (List POINT))
  | [], shapes => .ok shapes
  | dc :: rest, shapes =>
    match SetAddCombo dc.combo s with
    | none => SetLoop recurse s rest shapes
    | some newShape =>
      match SetFollowCombo recurse dc.combo newShape shapes with
      | .error e => .error e
      | .ok shapes1 => SetLoop recurse s rest shapes1

/-- The least `x` of a list of points (`0` for the empty list). -/
def minX : List POINT → Int
  | [] => 0
  | p :: rest => rest.foldr (fun q m => min q.x m) p.x

/-- The least `y` of a list of points (`0` for the empty list). -/
def minY : List POINT → Int
  | [] => 0
  | p :: rest => rest.foldr (fun q m => min q.y m) p.y

/-- A set of points translated so that its minimum corner is `(0,0)`. -/
def Canonical (cells : List POINT) : List POINT :=
  cells.map fun p => ⟨p.x - minX cells, p.y - minY cells⟩

/-- The search of `N_OminosGenerateImp` on the unbounded grid: same table, same order of `Add`
and `Follow`; a complete set is stored translated to its minimum corner. `fuel` bounds the depth
of the recursion. -/
def SetImp : Nat → List (List POINT) → SetShape → Except Fault (List (List POINT))
  | 0, _, _ => .error .outOfFuel
  | fuel + 1, shapes, s =>
    if s.left = 0 then .ok (shapes ++ [Canonical s.cells])
    else SetLoop (SetImp fuel) s kDirComb shapes

/-- The search on the unbounded grid from the seed, with `N` levels of fuel. -/
def SetSearch (N : Int) : Except Fault (List (List POINT)) :=
  SetImp N.toNat [] (SetShape.init N)

/-- The stored shape `u` and the set of points `C` are the same shape: a cell of the grid is
occupied iff it is a point of the set. -/
def Same (u : N_Omino) (C : List POINT) : Prop := ∀ p, u._grid.Occupied p ↔ p ∈ C

/-- A shape of the code and a shape on the unbounded grid that agree: same cursor, same squares
left, and the points of the set are the occupied points of the bounding box. -/
def Rel (s : N_Omino) (σ : SetShape) : Prop :=
  σ.pos = s._pos ∧ σ.left = s._squaresLeft ∧ ∀ p, p ∈ σ.cells ↔ s.Occ p

/-- The working copies of the two searches agree after some guarded `Add`s: both collided, or
both go on with shapes that agree. -/
def SimCur (N : Int) (cur : Except Fault (Option N_Omino)) (κ : Option SetShape) : Prop :=
  (cur = .ok none ∧ κ = none) ∨
  ∃ s σ, cur = .ok (some s) ∧ κ = some σ ∧ InvT N s ∧ Rel s σ

/-- The collections of the two searches agree: both are results, of the same shapes in the same
order. -/
def SimRes (r : Except Fault (List N_Omino)) (ρ : Except Fault (List (List POINT))) : Prop :=
  ∃ l L, r = .ok l ∧ ρ = .ok L ∧ List.Forall₂ Same l L

/-- A call the program makes to `Grid8x8::Get`, `Grid8x8::Set`, `Grid8x8::Translate`,
`RightRotate8` or `LeftRotate64`, with the point, vector or rotation count passed. -/
inductive GridCall where
  | get (pt : POINT)
  | set (pt : POINT)
  | translate (vec : VECT)
  | rightRotate8 (rot : Int)
  | leftRotate64 (rot : Int)
  deriving DecidableEq

/-- The calls of the first loop of `Grid8x8::Translate` over the row indices still to do: one
`RightRotate8(_bits.ui8[i], vec.dx)` for each row, up to a fault. -/
def Grid8x8.TranslateRowsTrace (vec : VECT) : List Nat → Grid8x8 → List GridCall
  | [], _ => []
  | i :: rest, g =>
    .rightRotate8 vec.dx ::
      match RightRotate8 (g.ui8 i) vec.dx with
      | .ok r => Grid8x8.TranslateRowsTrace vec rest (g.setUi8 i r)
      | .error _ => []

/-- The calls of `Grid8x8::Translate(vec)`: the call itself, `RightRotate8` for each of the
eight rows, then `LeftRotate64(_bits.ui64, 8*vec.dy)`. -/
def Grid8x8.TranslateTrace (g : Grid8x8) (vec : VECT) : List GridCall :=
  .translate vec ::
    (Grid8x8.TranslateRowsTrace vec [0, 1, 2, 3, 4, 5, 6, 7] g ++
      match Grid8x8.TranslateRows vec [0, 1, 2, 3, 4, 5, 6, 7] g with
      | .ok _ => [.leftRotate64 (8 * vec.dy)]
      | .error _ => [])

/-- The calls of the constructor `N_Omino::N_Omino(int N)`: `_grid.Set(_pos)` with `_pos` the
origin. -/
def N_Omino.initTrace : List GridCall := [.set ⟨0, 0⟩]

/-- The calls of `N_Omino::Add(kVec)`: `_grid.Get(pos)` always, and `_grid.Set(pos)` when there
is no collision. -/
def N_Omino.AddTrace (s : N_Omino) (kVec : VECT) : List GridCall :=
  let pos := s._pos.add kVec
  match s._grid.Get pos with
  | .error _ => [.get pos]
  | .ok occupied =>
    if occupied || decide (s._squaresLeft < 1) then [.get pos]
    else [.get pos, .set pos]

/-- The calls of `N_Omino::Normalize()`: `_grid.Translate(trans)` with
`trans = { -_extent1.x, -_extent1.y }`. -/
def N_Omino.NormalizeTrace (s : N_Omino) : List GridCall :=
  s._grid.TranslateTrace ⟨-s._extent1.x, -s._extent1.y⟩

/-- The calls of the loop of `N_Omino::Draw(int row)` from column `i` on, `n` columns to go:
one `_grid.Get(pt)` for each column. -/
def N_Omino.DrawRowFromTrace (s : N_Omino) (row : Int) : Nat → Int → List GridCall
  | 0, _ => []
  | n + 1, i =>
    .get ⟨i, row⟩ ::
      match s._grid.Get ⟨i, row⟩ with
      | .error _ => []
      | .ok _ => N_Omino.DrawRowFromTrace s row n (i + 1)

/-- The calls of `N_Omino::Draw(int row)`. -/
def N_Omino.DrawRowTrace (s : N_Omino) (row : Int) : List GridCall :=
  s.DrawRowFromTrace row (s._extent2.x + 1 - s._extent1.x).toNat s._extent1.x

/-- The calls of the loop of `N_Omino::Draw()` from row `i` on, `n` rows to go. -/
def N_Omino.DrawFromTrace (s : N_Omino) : Nat → Int → List GridCall
  | 0, _ => []
  | n + 1, i =>
    s.DrawRowTrace i ++
      match s.DrawRow i with
      | .error _ => []
      | .ok _ => N_Omino.DrawFromTrace s n (i + 1)

/-- The calls of `N_Omino::Draw()`. -/
def N_Omino.DrawTrace (s : N_Omino) : List GridCall :=
  s.DrawFromTrace (s._extent2.y + 1 - s._extent1.y).toNat s._extent1.y

/-- The calls of `N_OminosDraw(n_ominos)`. -/
def N_OminosDrawTrace : List N_Omino → List GridCall
  | [] => []
  | s :: rest =>
    s.DrawTrace ++
      match s.Draw with
      | .error _ => []
      | .ok _ => N_OminosDrawTrace rest

/-- The calls of one guarded `Add` of `N_OminosGenerateImp`, given the working copy so far:
none after a collision (`continue`) or when the direction is not in the entry. -/
def AddIfTrace (combo dir : Nat) (kVec : VECT) (cur : Except Fault (Option N_Omino)) :
    List GridCall :=
  match cur with
  | .error _ => []
  | .ok none => []
  | .ok (some s) => if combo &&& dir != 0 then s.AddTrace kVec else []

/-- The calls of the four guarded `Add`s of one table entry (North, East, South, West), each
on the working copy the earlier ones have left. -/
def AddComboTrace (combo : Nat) (n_omino : N_Omino) : List GridCall :=
  AddIfTrace combo DIR_N kVecNorth (.ok (some n_omino)) ++
  (AddIfTrace combo DIR_E kVecEast
    (AddIf combo DIR_N kVecNorth (.ok (some n_omino))) ++
  (AddIfTrace combo DIR_S kVecSouth
    (AddIf combo DIR_E kVecEast
      (AddIf combo DIR_N kVecNorth (.ok (some n_omino)))) ++
  AddIfTrace combo DIR_W kVecWest
    (AddIf combo DIR_S kVecSouth
      (AddIf combo DIR_E kVecEast
        (AddIf combo DIR_N kVecNorth (.ok (some n_omino)))))))

/-- The calls of one guarded recursion of `N_OminosGenerateImp`, where `recurseTrace` gives the
calls of the recursive call and `acc` is the collection so far. -/
def FollowIfTrace (recurseTrace : List N_Omino → N_Omino → List GridCall)
    (combo dir : Nat) (kVec : VECT) (newNOmino : N_Omino)
    (acc : Except Fault (List N_Omino)) : List GridCall :=
  match acc with
  | .error _ => []
  | .ok n_ominos =>
    if combo &&& dir != 0 then recurseTrace n_ominos (newNOmino.Follow kVec)
    else []

/-- The calls of the four guarded recursions of one table entry (North, East, South, West). -/
def FollowComboTrace (recurse : List N_Omino → N_Omino → Except Fault (List N_Omino))
    (recurseTrace : List N_Omino → N_Omino → List GridCall)
    (combo : Nat) (newNOmino : N_Omino) (n_ominos : List N_Omino) : List GridCall :=
  FollowIfTrace recurseTrace combo DIR_N kVecNorth newNOmino (.ok n_ominos) ++
  (FollowIfTrace recurseTrace combo DIR_E kVecEast newNOmino
    (FollowIf recurse combo DIR_N kVecNorth newNOmino (.ok n_ominos)) ++
  (FollowIfTrace recurseTrace combo DIR_S kVecSouth newNOmino
    (FollowIf recurse combo DIR_E kVecEast newNOmino
      (FollowIf recurse combo DIR_N kVecNorth newNOmino (.ok n_ominos))) ++
  FollowIfTrace recurseTrace combo DIR_W kVecWest newNOmino
    (FollowIf recurse combo DIR_S kVecSouth newNOmino
      (FollowIf recurse combo DIR_E kVecEast newNOmino
        (FollowIf recurse combo DIR_N kVecNorth newNOmino (.ok n_ominos))))))

/-- The calls of the loop `for (i = 0; i < kNumDirComb; ++i)` of `N_OminosGenerateImp` over the
table entries still to do. -/
def GenerateLoopTrace (recurse : List N_Omino → N_Omino → Except Fault (List N_Omino))
    (recurseTrace : List N_Omino → N_Omino → List GridCall)
    (n_omino : N_Omino) : List DIR_COMB → List N_Omino → List GridCall
  | [], _ => []
  | dc :: rest, n_ominos =>
    AddComboTrace dc.combo n_omino ++
      match AddCombo dc.combo n_omino with
      | .error _ => []
      | .ok none => GenerateLoopTrace recurse recurseTrace n_omino rest n_ominos
      | .ok (some newNOmino) =>
        FollowComboTrace recurse recurseTrace dc.combo newNOmino n_ominos ++
          match FollowCombo recurse dc.combo newNOmino n_ominos with
          | .error _ => []
          | .ok n_ominos1 => GenerateLoopTrace recurse recurseTrace n_omino rest n_ominos1

/-- The calls of `N_OminosGenerateImp(n_ominos, n_omino)`, in order, with the same fuel as
`N_OminosGenerateImp`. -/
def N_OminosGenerateImpTrace : Nat → List N_Omino → N_Omino → List GridCall
  | 0, _, _ => []
  | fuel + 1, n_ominos, n_omino =>
    if n_omino.SquaresLeft = 0 then n_omino.NormalizeTrace
    else
      GenerateLoopTrace (N_OminosGenerateImp fuel) (N_OminosGenerateImpTrace fuel)
        n_omino kDirComb n_ominos

/-- The calls made while `N_OminosGenerate(N)` builds its collection: the seed
`N_Omino n_omino(N)` and the search (`sort()` and `unique()` only compare grids). -/
def N_OminosCollectionTrace (N : Int) : List GridCall :=
  N_Omino.initTrace ++
    match N_Omino.init N with
    | .error _ => []
    | .ok n_omino => N_OminosGenerateImpTrace N.toNat [] n_omino

/-- The calls of the whole run of `N_OminosGenerate(N)`, in order: the collection, then the
drawings. -/
def N_OminosGenerateTrace (N : Int) : List GridCall :=
  if 1 ≤ N ∧ N ≤ kLimit then
    N_OminosCollectionTrace N ++
      match N_OminosCollection N with
      | .error _ => []
      | .ok n_ominos => N_OminosDrawTrace n_ominos
  else []

/-- The argument of a call is in the range the search keeps to: a point of `Get` or `Set`
has both coordinates in `-6..6`, a vector of `Translate` both components in `0..6`, and the
rotation counts are in the documented ranges `0..7` and `0..63`. -/
def GridCall.InRange : GridCall → Prop
  | .get pt => -6 ≤ pt.x ∧ pt.x ≤ 6 ∧ -6 ≤ pt.y ∧ pt.y ≤ 6
  | .set pt => -6 ≤ pt.x ∧ pt.x ≤ 6 ∧ -6 ≤ pt.y ∧ pt.y ≤ 6
  | .translate vec => 0 ≤ vec.dx ∧ vec.dx ≤ 6 ∧ 0 ≤ vec.dy ∧ vec.dy ≤ 6
  | .rightRotate8 rot => 0 ≤ rot ∧ rot ≤ 7
  | .leftRotate64 rot => 0 ≤ rot ∧ rot ≤ 63

/-- The direction set of a combination: the directions among N, E, S, W whose bit is set. -/
def dirSet (combo : Nat) : List Nat :=
  [DIR_N, DIR_E, DIR_S, DIR_W].filter fun dir => combo &&& dir != 0

/-! ## Theorems -/

/-! ### Bytes and bits of the grid -/

theorem pow256 (i : Nat) : 256 ^ i = 2 ^ (8 * i) := by
  rw [Nat.pow_mul]

theorem ui8_lt (g : Grid8x8) (i : Nat) : g.ui8 i < 256 := by
  unfold Grid8x8.ui8; omega

theorem ui8_testBit (g : Grid8x8) (i k : Nat) :
    (g.ui8 i).testBit k = (decide (k < 8) && g.ui64.testBit (8 * i + k)) := by
  unfold Grid8x8.ui8
  rw [pow256, show (256 : Nat) = 2 ^ 8 by norm_num, Nat.testBit_mod_two_pow,
    ← Nat.shiftRight_eq_div_pow, Nat.testBit_shiftRight]

theorem setUi8_testBit (g : Grid8x8) (i v j : Nat) :
    (g.setUi8 i v).ui64.testBit j =
      if j < 8 * i then g.ui64.testBit j
      else if j < 8 * i + 8 then v.testBit (j - 8 * i)
      else g.ui64.testBit j := by
  unfold Grid8x8.setUi8
  simp only
  rw [pow256, pow256]
  have h1 : g.ui64 % 2 ^ (8 * i) + v % 256 * 2 ^ (8 * i) + g.ui64 / 2 ^ (8 * (i + 1)) * 2 ^ (8 * (i + 1))
      = 2 ^ (8 * i) * (2 ^ 8 * (g.ui64 / 2 ^ (8 * (i + 1))) + v % 2 ^ 8) + g.ui64 % 2 ^ (8 * i) := by
    rw [show 8 * (i + 1) = 8 * i + 8 by ring, pow_add]; norm_num; ring
  rw [h1, Nat.testBit_mul_pow_two_add _ (Nat.mod_lt _ (by positivity)),
    Nat.testBit_mul_pow_two_add _ (Nat.mod_lt _ (by positivity))]
  by_cases hj : j < 8 * i
  · simp [hj, Nat.testBit_mod_two_pow]
  · simp only [hj, if_false]
    by_cases hj2 : j < 8 * i + 8
    · have : j - 8 * i < 8 := by omega
      simp only [hj2, this, if_true]
      rw [Nat.testBit_mod_two_pow]; simp [this]
    · have : ¬ (j - 8 * i < 8) := by omega
      simp only [hj2, this, if_false]
      rw [← Nat.shiftRight_eq_div_pow, Nat.testBit_shiftRight]
      congr 1; omega

theorem Normalize_eq (i : Int) (h : -8 ≤ i) : Grid8x8.Normalize i = i % 8 := by
  unfold Grid8x8.Normalize
  rw [Int.tmod_eq_emod (by omega) (by norm_num)]; omega

theorem Normalize_range (i : Int) (h : -8 ≤ i) :
    0 ≤ Grid8x8.Normalize i ∧ Grid8x8.Normalize i < 8 := by
  rw [Normalize_eq i h]; omega

theorem wrap_lt (i : Int) : wrap i < 8 := by unfold wrap; omega

theorem mask_eq (x : Nat) (h : x < 8) : (0x80 : Nat) >>> x = 2 ^ (7 - x) := by
  interval_cases x <;> rfl

theorem and_two_pow_ne (n k : Nat) : (n &&& 2 ^ k != 0) = n.testBit k := by
  rw [Nat.and_two_pow]
  cases n.testBit k <;> simp

theorem Get_eq (g : Grid8x8) (pt : POINT) (hx : -8 ≤ pt.x) (hy : -8 ≤ pt.y) :
    g.Get pt = .ok (g.bit (wrap pt.x) (wrap pt.y)) := by
  have rx := Normalize_range pt.x hx
  have ry := Normalize_range pt.y hy
  unfold Grid8x8.Get Grid8x8.NormalizePt
  simp only
  rw [if_pos (by omega)]
  have ex : (Grid8x8.Normalize pt.x).toNat = wrap pt.x := by rw [Normalize_eq _ hx]; rfl
  have ey : (Grid8x8.Normalize pt.y).toNat = wrap pt.y := by rw [Normalize_eq _ hy]; rfl
  rw [ex, ey, mask_eq _ (wrap_lt _), and_two_pow_ne, ui8_testBit]
  have := wrap_lt pt.x
  simp [Grid8x8.bit]; omega

theorem Set_eq (g : Grid8x8) (pt : POINT) (hx : -8 ≤ pt.x) (hy : -8 ≤ pt.y) :
    g.Set pt = .ok ⟨g.ui64 ||| 2 ^ (8 * wrap pt.y + (7 - wrap pt.x))⟩ := by
  have rx := Normalize_range pt.x hx
  have ry := Normalize_range pt.y hy
  unfold Grid8x8.Set Grid8x8.NormalizePt
  simp only
  rw [if_pos (by omega)]
  have ex : (Grid8x8.Normalize pt.x).toNat = wrap pt.x := by rw [Normalize_eq _ hx]; rfl
  have ey : (Grid8x8.Normalize pt.y).toNat = wrap pt.y := by rw [Normalize_eq _ hy]; rfl
  rw [ex, ey, mask_eq _ (wrap_lt _)]
  have hw := wrap_lt pt.x
  congr 1
  rw [show g.setUi8 (wrap pt.y) (g.ui8 (wrap pt.y) ||| 2 ^ (7 - wrap pt.x))
      = ⟨(g.setUi8 (wrap pt.y) (g.ui8 (wrap pt.y) ||| 2 ^ (7 - wrap pt.x))).ui64⟩ from rfl]
  congr 1
  apply Nat.eq_of_testBit_eq
  intro j
  rw [setUi8_testBit, Nat.testBit_or, Nat.testBit_or, ui8_testBit, Nat.testBit_two_pow,
    Nat.testBit_two_pow]
  by_cases hj : j < 8 * wrap pt.y
  · have : ¬ (8 * wrap pt.y + (7 - wrap pt.x) = j) := by omega
    simp [hj, this]
  · by_cases hj2 : j < 8 * wrap pt.y + 8
    · have h3 : j - 8 * wrap pt.y < 8 := by omega
      have h4 : 8 * wrap pt.y + (j - 8 * wrap pt.y) = j := by omega
      simp only [hj, hj2, if_false, if_true, h3, h4, decide_True, Bool.true_and]
      congr 1
      simp only [decide_eq_decide]; omega
    · have : ¬ (8 * wrap pt.y + (7 - wrap pt.x) = j) := by omega
      simp [hj, hj2, this]

/-! ### Rotations and `Translate` -/

theorem testBit_ge_of_lt {v n j : Nat} (h : v < 2 ^ n) (hj : n ≤ j) : v.testBit j = false :=
  Nat.testBit_lt_two_pow (lt_of_lt_of_le h (Nat.pow_le_pow_right (by norm_num) hj))

theorem RightRotate8_spec (val : Nat) (rot : Int) (hv : val < 256) (h0 : 0 ≤ rot) (h7 : rot ≤ 7) :
    ∃ v, RightRotate8 val rot = .ok v ∧
      ∀ k, v.testBit k = (decide (k < 8) && val.testBit ((k + rot.toNat) % 8)) := by
  obtain ⟨r, rfl⟩ := Int.eq_ofNat_of_zero_le h0
  have hr : r ≤ 7 := by omega
  refine ⟨_, by unfold RightRotate8; rw [if_pos ⟨h0, h7⟩], ?_⟩
  intro k
  have e2 : (8 - (r : Int)).toNat = 8 - r := by omega
  simp only [Int.toNat_ofNat, e2]
  rw [Nat.testBit_or, show (256 : Nat) = 2 ^ 8 by norm_num, Nat.testBit_mod_two_pow,
    Nat.testBit_mod_two_pow, Nat.testBit_shiftRight, Nat.testBit_shiftLeft]
  by_cases hk : k < 8
  · by_cases hs : k + r < 8
    · have h1 : (k + r) % 8 = r + k := by omega
      have h2 : ¬ (k ≥ 8 - r) := by omega
      simp [hk, h1, h2]
    · have h1 : (k + r) % 8 = k - (8 - r) := by omega
      have h2 : k ≥ 8 - r := by omega
      have h3 : val.testBit (r + k) = false := testBit_ge_of_lt (n := 8) hv (by omega)
      simp [hk, h1, h2, h3]
  · simp [hk]

theorem LeftRotate64_spec (val : Nat) (dy : Int) (hv : val < 2 ^ 64) (h0 : 0 ≤ dy) (h7 : dy ≤ 7) :
    ∃ v, LeftRotate64 val (8 * dy) = .ok v ∧
      ∀ j, v.testBit j = (decide (j < 64) && val.testBit ((j + (64 - 8 * dy.toNat)) % 64)) := by
  obtain ⟨r, rfl⟩ := Int.eq_ofNat_of_zero_le h0
  have hr : r ≤ 7 := by omega
  refine ⟨_, by unfold LeftRotate64; rw [if_pos (by omega)], ?_⟩
  intro j
  have e1 : (8 * (r : Int)).toNat = 8 * r := by omega
  have e2 : (64 - 8 * (r : Int)).toNat = 64 - 8 * r := by omega
  simp only [Int.toNat_ofNat, e1, e2]
  rw [Nat.testBit_or, Nat.testBit_mod_two_pow, Nat.testBit_shiftRight, Nat.testBit_shiftLeft]
  by_cases hj : j < 64
  · by_cases hs : j < 8 * r
    · have h1 : (j + (64 - 8 * r)) % 64 = 64 - 8 * r + j := by omega
      have h2 : ¬ (j ≥ 8 * r) := by omega
      simp [hj, h1, h2]
    · have h1 : (j + (64 - 8 * r)) % 64 = j - 8 * r := by omega
      have h2 : j ≥ 8 * r := by omega
      have h3 : val.testBit (64 - 8 * r + j) = false := testBit_ge_of_lt hv (by omega)
      simp [hj, h1, h2, h3]
  · have h3 : val.testBit (64 - 8 * r + j) = false := testBit_ge_of_lt hv (by omega)
    simp [hj, h3]

theorem mem_rows (y : Nat) : y ∈ [0, 1, 2, 3, 4, 5, 6, 7] ↔ y < 8 := by
  simp only [List.mem_cons, List.mem_singleton, List.not_mem_nil, or_false]; omega

theorem TranslateRows_spec (vec : VECT) (h0 : 0 ≤ vec.dx) (h7 : vec.dx ≤ 7) :
    ∀ (l : List Nat) (g : Grid8x8), l.Nodup →
    ∃ g1, Grid8x8.TranslateRows vec l g = .ok g1 ∧
      ∀ j, g1.ui64.testBit j =
        if j / 8 ∈ l then g.ui64.testBit (8 * (j / 8) + (j + vec.dx.toNat) % 8)
        else g.ui64.testBit j := by
  intro l
  induction l with
  | nil => intro g _; exact ⟨g, rfl, by simp⟩
  | cons i rest ih =>
    intro g hnd
    obtain ⟨hi, hrest⟩ := List.nodup_cons.mp hnd
    obtain ⟨v, hv, hvb⟩ := RightRotate8_spec (g.ui8 i) vec.dx (ui8_lt g i) h0 h7
    obtain ⟨g1, hg1, hb⟩ := ih (g.setUi8 i v) hrest
    refine ⟨g1, by rw [Grid8x8.TranslateRows, hv]; exact hg1, ?_⟩
    intro j
    rw [hb j]
    by_cases hj : j / 8 ∈ rest
    · have hne : j / 8 ≠ i := fun h => hi (h ▸ hj)
      rw [if_pos hj, if_pos (List.mem_cons_of_mem _ hj), setUi8_testBit]
      by_cases c1 : 8 * (j / 8) + (j + vec.dx.toNat) % 8 < 8 * i
      · rw [if_pos c1]
      · have c2 : ¬ (8 * (j / 8) + (j + vec.dx.toNat) % 8 < 8 * i + 8) := by omega
        rw [if_neg c1, if_neg c2]
    · rw [if_neg hj, setUi8_testBit]
      by_cases hji : j / 8 = i
      · have c1 : ¬ (j < 8 * i) := by omega
        have c2 : j < 8 * i + 8 := by omega
        have c3 : (j - 8 * i + vec.dx.toNat) % 8 = (j + vec.dx.toNat) % 8 := by omega
        have c5 : j - 8 * i < 8 := by omega
        have c6 : (j + vec.dx.toNat) % 8 < 8 := by omega
        rw [if_neg c1, if_pos c2, if_pos (hji ▸ List.mem_cons_self _ _), hvb, ui8_testBit, c3,
          hji]
        simp only [c5, c6, decide_True, Bool.true_and]
      · have hni : ¬ (j / 8 ∈ i :: rest) := by
          intro h; rcases List.mem_cons.mp h with h | h
          · exact hji h
          · exact hj h
        rw [if_neg hni]
        by_cases c1 : j < 8 * i
        · rw [if_pos c1]
        · have c2 : ¬ (j < 8 * i + 8) := by omega
          rw [if_neg c1, if_neg c2]

theorem Translate_spec (g : Grid8x8) (vec : VECT) (hg : g.ui64 < 2 ^ 64)
    (hx0 : 0 ≤ vec.dx) (hx7 : vec.dx ≤ 7) (hy0 : 0 ≤ vec.dy) (hy7 : vec.dy ≤ 7) :
    ∃ g2, g.Translate vec = .ok g2 ∧ g2.ui64 < 2 ^ 64 ∧
      ∀ x y, x < 8 → y < 8 →
        g2.bit ((x + vec.dx.toNat) % 8) ((y + vec.dy.toNat) % 8) = g.bit x y := by
  obtain ⟨g1, hg1, hb1⟩ := TranslateRows_spec vec hx0 hx7 [0, 1, 2, 3, 4, 5, 6, 7] g (by decide)
  have hg1lt : g1.ui64 < 2 ^ 64 := by
    apply Nat.lt_pow_two_of_testBit
    intro j hj
    have : ¬ (j / 8 ∈ [0, 1, 2, 3, 4, 5, 6, 7]) := by rw [mem_rows]; omega
    rw [hb1 j, if_neg this]
    exact testBit_ge_of_lt hg hj
  obtain ⟨v, hv, hvb⟩ := LeftRotate64_spec g1.ui64 vec.dy hg1lt hy0 hy7
  refine ⟨⟨v⟩, by rw [Grid8x8.Translate, hg1]; simp only; rw [hv], ?_, ?_⟩
  · apply Nat.lt_pow_two_of_testBit
    intro j hj
    have : ¬ (j < 64) := by omega
    rw [hvb j]; simp [this]
  · intro x y hx hy
    obtain ⟨dx, hdx⟩ := Int.eq_ofNat_of_zero_le hx0
    obtain ⟨dy, hdy⟩ := Int.eq_ofNat_of_zero_le hy0
    have hdx7 : dx ≤ 7 := by omega
    have hdy7 : dy ≤ 7 := by omega
    simp only [Grid8x8.bit, hdx, hdy, Int.toNat_ofNat]
    have k1 : 8 * ((y + dy) % 8) + (7 - (x + dx) % 8) < 64 := by omega
    have k2 : (8 * ((y + dy) % 8) + (7 - (x + dx) % 8) + (64 - 8 * dy)) % 64
        = 8 * y + (7 - (x + dx) % 8) := by omega
    have k3 : (8 * y + (7 - (x + dx) % 8)) / 8 = y := by omega
    have k4 : y ∈ [0, 1, 2, 3, 4, 5, 6, 7] := by rw [mem_rows]; exact hy
    have k5 : 8 * y + (8 * y + (7 - (x + dx) % 8) + dx) % 8 = 8 * y + (7 - x) := by omega
    rw [hvb, hdy, Int.toNat_ofNat, k2, hb1, k3, if_pos k4, hdx, Int.toNat_ofNat, k5]
    simp [k1]

theorem wrap_of_nonneg (i : Int) (h0 : 0 ≤ i) : wrap i = i.toNat % 8 := by
  unfold wrap; omega

theorem wrap_add (a b : Int) (ha : 0 ≤ a) (hb : 0 ≤ b) :
    wrap (a + b) = (a.toNat + b.toNat) % 8 := by
  unfold wrap; omega

theorem grid_ext (a b : Grid8x8) (ha : a.ui64 < 2 ^ 64) (hb : b.ui64 < 2 ^ 64)
    (h : ∀ x y, x < 8 → y < 8 → a.bit x y = b.bit x y) : a = b := by
  have : a.ui64 = b.ui64 := by
    apply Nat.eq_of_testBit_eq
    intro j
    by_cases hj : j < 64
    · have := h (7 - j % 8) (j / 8) (by omega) (by omega)
      unfold Grid8x8.bit at this
      rwa [show 8 * (j / 8) + (7 - (7 - j % 8)) = j by omega] at this
    · rw [testBit_ge_of_lt ha (by omega), testBit_ge_of_lt hb (by omega)]
  cases a; cases b; simp_all

/-- C7. `Grid8x8::Translate(vec)` with `0 <= dx, dy <= 7` moves the value of every
point `p` of the grid to `p + vec` (wrapped on both axes): it succeeds, and `Get(p + vec)`
afterwards is `Get(p)` before. -/
theorem C7_Translate_moves_every_point (g : Grid8x8) (vec : VECT) (p : POINT)
    (hg : g.ui64 < 2 ^ 64)
    (hdx : 0 ≤ vec.dx ∧ vec.dx ≤ 7) (hdy : 0 ≤ vec.dy ∧ vec.dy ≤ 7)
    (hpx : 0 ≤ p.x ∧ p.x ≤ 7) (hpy : 0 ≤ p.y ∧ p.y ≤ 7) :
    ∃ g2, g.Translate vec = .ok g2 ∧ g2.Get (p.add vec) = g.Get p := by
  obtain ⟨g2, h2, _, hb⟩ := Translate_spec g vec hg hdx.1 hdx.2 hdy.1 hdy.2
  refine ⟨g2, h2, ?_⟩
  have e1 : (p.add vec).x = p.x + vec.dx := rfl
  have e2 : (p.add vec).y = p.y + vec.dy := rfl
  rw [Get_eq g2 _ (by rw [e1]; omega) (by rw [e2]; omega), Get_eq g p (by omega) (by omega),
    e1, e2, wrap_add _ _ hpx.1 hdx.1, wrap_add _ _ hpy.1 hdy.1,
    hb p.x.toNat p.y.toNat (by omega) (by omega),
    wrap_of_nonneg _ hpx.1, wrap_of_nonneg _ hpy.1,
    Nat.mod_eq_of_lt (show p.x.toNat < 8 by omega), Nat.mod_eq_of_lt (show p.y.toNat < 8 by omega)]

theorem C7_witness :
    ∃ g2, (⟨0x8040⟩ : Grid8x8).Translate ⟨3, 7⟩ = .ok g2 ∧
      g2.Get ((⟨1, 1⟩ : POINT).add ⟨3, 7⟩) = (⟨0x8040⟩ : Grid8x8).Get ⟨1, 1⟩ :=
  C7_Translate_moves_every_point ⟨0x8040⟩ ⟨3, 7⟩ ⟨1, 1⟩ (by decide) (by decide) (by decide)
    (by decide) (by decide)

/-- C8, as stated, fails: the grid holding the single cell `(0, 0)` translated by `(1, 0)`
and then by `(-1, 0)` is not restored, because `RightRotate8` is called with `rot = -1`,
outside its range `0 - 7`. -/
theorem C8_counterexample :
    ¬ (∀ (g : Grid8x8) (v : VECT), g.ui64 < 2 ^ 64 →
        ∃ g1, g.Translate v = .ok g1 ∧ g1.Translate ⟨-v.dx, -v.dy⟩ = .ok g) := by
  intro h
  obtain ⟨g1, h1, h2⟩ := h ⟨0x80⟩ ⟨1, 0⟩ (by decide)
  have e1 : (⟨0x80⟩ : Grid8x8).Translate ⟨1, 0⟩ = .ok ⟨0x40⟩ := by decide
  rw [e1] at h1
  cases h1
  revert h2
  decide

/-- C8, amended. For every grid and every vector `v` with `0 <= dx, dy <= 7`,
`Translate(v)` followed by `Translate` of the complementary vector
`((8 - dx) mod 8, (8 - dy) mod 8)` leaves the grid exactly as it was. -/
theorem C8_Translate_round_trip (g : Grid8x8) (v : VECT) (hg : g.ui64 < 2 ^ 64)
    (hdx : 0 ≤ v.dx ∧ v.dx ≤ 7) (hdy : 0 ≤ v.dy ∧ v.dy ≤ 7) :
    ∃ g1, g.Translate v = .ok g1 ∧
      g1.Translate ⟨(8 - v.dx) % 8, (8 - v.dy) % 8⟩ = .ok g := by
  obtain ⟨g1, h1, hlt1, hb1⟩ := Translate_spec g v hg hdx.1 hdx.2 hdy.1 hdy.2
  obtain ⟨g2, h2, hlt2, hb2⟩ := Translate_spec g1 ⟨(8 - v.dx) % 8, (8 - v.dy) % 8⟩ hlt1
    (by simp only; omega) (by simp only; omega) (by simp only; omega) (by simp only; omega)
  refine ⟨g1, h1, ?_⟩
  rw [h2]
  congr 1
  apply grid_ext g2 g hlt2 hg
  intro x y hx hy
  have a1 := hb1 x y hx hy
  have a2 := hb2 ((x + v.dx.toNat) % 8) ((y + v.dy.toNat) % 8) (by omega) (by omega)
  simp only at a2
  have k1 : ((x + v.dx.toNat) % 8 + ((8 - v.dx) % 8).toNat) % 8 = x := by omega
  have k2 : ((y + v.dy.toNat) % 8 + ((8 - v.dy) % 8).toNat) % 8 = y := by omega
  rw [k1, k2] at a2
  rw [a2, a1]

theorem C8_witness :
    ∃ g1, (⟨0x80⟩ : Grid8x8).Translate ⟨1, 0⟩ = .ok g1 ∧
      g1.Translate ⟨(8 - 1) % 8, (8 - 0) % 8⟩ = .ok ⟨0x80⟩ :=
  C8_Translate_round_trip ⟨0x80⟩ ⟨1, 0⟩ (by decide) (by decide) (by decide)

/-! ### The order of grids -/

theorem Comp_lt_iff (a b : Grid8x8) : a.Comp b < 0 ↔ a.ui64 < b.ui64 := by
  unfold Grid8x8.Comp
  split
  · simp [*]
  · split <;> simp [*]

theorem Comp_eq_zero_iff (a b : Grid8x8) : a.Comp b = 0 ↔ a.ui64 = b.ui64 := by
  unfold Grid8x8.Comp
  split
  · simp; omega
  · split
    · simp; omega
    · simp; omega

theorem Comp_le_iff (a b : Grid8x8) : a.Comp b ≤ 0 ↔ a.ui64 ≤ b.ui64 := by
  unfold Grid8x8.Comp
  split
  · simp; omega
  · split
    · simp; omega
    · simp; omega

/-- C9, as stated, fails: the grids `a` (only cell `(7, 1)`) and `b` (only cell `(7, 0)`)
differ first in row 0, where the byte of `a` is the smaller one, and yet `Comp(a, b)` is
`+1`: row 0 is the least significant byte of `ui64`. -/
theorem C9_counterexample :
    ¬ (∀ (a b : Grid8x8), a.ui64 < 2 ^ 64 → b.ui64 < 2 ^ 64 → a ≠ b →
        ∀ y, y < 8 → a.ui8 y ≠ b.ui8 y → (∀ y', y' < y → a.ui8 y' = b.ui8 y') →
          (a.Comp b < 0 ↔ a.ui8 y < b.ui8 y)) := by
  intro h
  have := h ⟨256⟩ ⟨1⟩ (by decide) (by decide) (by decide) 0 (by decide) (by decide)
    (by intro y' hy'; omega)
  revert this
  decide

theorem div_pow_succ (a k : Nat) : a / 256 ^ k = a / 256 ^ k % 256 + 256 * (a / 256 ^ (k + 1)) := by
  rw [pow_succ, ← Nat.div_div_eq_div_mul]; omega

theorem high_bytes_eq (a b : Grid8x8) (ha : a.ui64 < 2 ^ 64) (hb : b.ui64 < 2 ^ 64) (y : Nat)
    (hhi : ∀ y', y < y' → y' < 8 → a.ui8 y' = b.ui8 y') :
    ∀ n k, k + n = 8 → y < k → a.ui64 / 256 ^ k = b.ui64 / 256 ^ k := by
  intro n
  induction n with
  | zero =>
    intro k hk _
    have : k = 8 := by omega
    subst this
    rw [Nat.div_eq_of_lt (by norm_num at ha ⊢; exact ha),
      Nat.div_eq_of_lt (by norm_num at hb ⊢; exact hb)]
  | succ n ih =>
    intro k hk hyk
    have e := hhi k hyk (by omega)
    unfold Grid8x8.ui8 at e
    rw [div_pow_succ a.ui64 k, div_pow_succ b.ui64 k, e, ih (k + 1) (by omega) (by omega)]

/-- C9, amended. `Grid8x8::Comp` orders grids as 64-bit unsigned integers with row 7 as the
most significant byte: for two different grids, `Comp(a, b) < 0` exactly when, at the
highest-numbered row in which they differ, the row byte of `a` is smaller than that of `b`. -/
theorem C9_Comp_orders_by_highest_row (a b : Grid8x8) (ha : a.ui64 < 2 ^ 64)
    (hb : b.ui64 < 2 ^ 64) (y : Nat) (hy : y < 8) (hne : a.ui8 y ≠ b.ui8 y)
    (hhi : ∀ y', y < y' → y' < 8 → a.ui8 y' = b.ui8 y') :
    a.Comp b < 0 ↔ a.ui8 y < b.ui8 y := by
  rw [Comp_lt_iff]
  have hq := high_bytes_eq a b ha hb y hhi (8 - (y + 1)) (y + 1) (by omega) (by omega)
  have ea := div_pow_succ a.ui64 y
  have eb := div_pow_succ b.ui64 y
  unfold Grid8x8.ui8 at *
  constructor
  · intro hlt
    have : a.ui64 / 256 ^ y ≤ b.ui64 / 256 ^ y := Nat.div_le_div_right (le_of_lt hlt)
    omega
  · intro hlt
    apply Nat.lt_of_div_lt_div (c := 256 ^ y)
    omega

theorem C9_witness :
    (⟨256⟩ : Grid8x8).Comp ⟨1⟩ < 0 ↔ (⟨256⟩ : Grid8x8).ui8 1 < (⟨1⟩ : Grid8x8).ui8 1 :=
  C9_Comp_orders_by_highest_row ⟨256⟩ ⟨1⟩ (by decide) (by decide) 1 (by decide) (by decide)
    (by intro y' h1 h2; interval_cases y' <;> decide)

/-- C10. `Grid8x8::Comp` is a total order on grids whose equality is cell-wise equality, and
`N_Omino::Comp` is `Grid8x8::Comp` of the two grids, whatever the other members hold. -/
theorem C10_Comp_total_order (a b c : Grid8x8) (s t : N_Omino)
    (ha : a.ui64 < 2 ^ 64) (hb : b.ui64 < 2 ^ 64) :
    (a.Comp b = -1 ∨ a.Comp b = 0 ∨ a.Comp b = 1) ∧
    (a.Comp b = 0 ↔
      ∀ x y : Int, 0 ≤ x → x ≤ 7 → 0 ≤ y → y ≤ 7 → a.Get ⟨x, y⟩ = b.Get ⟨x, y⟩) ∧
    a.Comp b = -b.Comp a ∧
    (a.Comp b ≤ 0 → b.Comp c ≤ 0 → a.Comp c ≤ 0) ∧
    s.Comp t = s._grid.Comp t._grid := by
  refine ⟨?_, ?_, ?_, ?_, rfl⟩
  · unfold Grid8x8.Comp; split
    · exact Or.inl rfl
    · split
      · exact Or.inr (Or.inr rfl)
      · exact Or.inr (Or.inl rfl)
  · rw [Comp_eq_zero_iff]
    constructor
    · intro h x y _ _ _ _
      have : a = b := by cases a; cases b; simp_all
      rw [this]
    · intro h
      have : a = b := by
        apply grid_ext a b ha hb
        intro x y hx hy
        have := h x y (by omega) (by omega) (by omega) (by omega)
        rw [Get_eq a _ (by simp only; omega) (by simp only; omega),
          Get_eq b _ (by simp only; omega) (by simp only; omega)] at this
        have e1 : wrap (x : Int) = x := by unfold wrap; omega
        have e2 : wrap (y : Int) = y := by unfold wrap; omega
        simp only [e1, e2] at this
        exact Except.ok.inj this
      rw [this]
  · unfold Grid8x8.Comp
    rcases Nat.lt_trichotomy a.ui64 b.ui64 with h | h | h
    · rw [if_pos h, if_neg (by omega), if_pos (by omega)]
    · rw [if_neg (by omega), if_neg (by omega), if_neg (by omega), if_neg (by omega)]; rfl
    · rw [if_neg (by omega), if_pos (by omega), if_pos (by omega)]; rfl
  · rw [Comp_le_iff, Comp_le_iff, Comp_le_iff]; omega

theorem C10_witness :
    ((⟨5⟩ : Grid8x8).Comp ⟨9⟩ = -1 ∨ (⟨5⟩ : Grid8x8).Comp ⟨9⟩ = 0 ∨ (⟨5⟩ : Grid8x8).Comp ⟨9⟩ = 1) ∧
    ((⟨5⟩ : Grid8x8).Comp ⟨9⟩ = 0 ↔
      ∀ x y : Int, 0 ≤ x → x ≤ 7 → 0 ≤ y → y ≤ 7 →
        (⟨5⟩ : Grid8x8).Get ⟨x, y⟩ = (⟨9⟩ : Grid8x8).Get ⟨x, y⟩) ∧
    (⟨5⟩ : Grid8x8).Comp ⟨9⟩ = -(⟨9⟩ : Grid8x8).Comp ⟨5⟩ ∧
    ((⟨5⟩ : Grid8x8).Comp ⟨9⟩ ≤ 0 → (⟨9⟩ : Grid8x8).Comp ⟨77⟩ ≤ 0 →
      (⟨5⟩ : Grid8x8).Comp ⟨77⟩ ≤ 0) ∧
    (⟨⟨5⟩, ⟨1, 2⟩, ⟨0, 0⟩, ⟨3, 3⟩, 4⟩ : N_Omino).Comp ⟨⟨9⟩, ⟨0, 0⟩, ⟨0, 0⟩, ⟨0, 0⟩, 0⟩
      = (⟨5⟩ : Grid8x8).Comp ⟨9⟩ :=
  C10_Comp_total_order ⟨5⟩ ⟨9⟩ ⟨77⟩ ⟨⟨5⟩, ⟨1, 2⟩, ⟨0, 0⟩, ⟨3, 3⟩, 4⟩
    ⟨⟨9⟩, ⟨0, 0⟩, ⟨0, 0⟩, ⟨0, 0⟩, 0⟩ (by decide) (by decide)

/-! ### Sorting and removing duplicates -/

theorem lt_iff_key (s t : N_Omino) : s.lt t = true ↔ s.key < t.key := by
  unfold N_Omino.lt N_Omino.Comp N_Omino.key
  rw [decide_eq_true_iff, Comp_lt_iff]

theorem eq_iff_key (s t : N_Omino) : s.eq t = true ↔ s.key = t.key := by
  unfold N_Omino.eq N_Omino.Comp N_Omino.key
  rw [decide_eq_true_iff, Comp_eq_zero_iff]

theorem mem_mergeLists (fuel : Nat) : ∀ (xs ys : List N_Omino) (a : N_Omino),
    a ∈ mergeLists fuel xs ys ↔ a ∈ xs ∨ a ∈ ys := by
  induction fuel with
  | zero => intro xs ys a; simp [mergeLists]
  | succ n ih =>
    intro xs ys a
    cases xs with
    | nil => simp [mergeLists]
    | cons x xs =>
      cases ys with
      | nil => simp [mergeLists]
      | cons y ys =>
        rw [mergeLists]
        split
        · rw [List.mem_cons, ih]; simp only [List.mem_cons]; tauto
        · rw [List.mem_cons, ih]; simp only [List.mem_cons]; tauto

theorem sorted_mergeLists (fuel : Nat) : ∀ (xs ys : List N_Omino),
    xs.length + ys.length ≤ fuel → KeySorted xs → KeySorted ys →
    KeySorted (mergeLists fuel xs ys) := by
  induction fuel with
  | zero =>
    intro xs ys h _ _
    have hx : xs = [] := List.length_eq_zero.mp (by omega)
    have hy : ys = [] := List.length_eq_zero.mp (by omega)
    subst hx; subst hy
    simp [mergeLists, KeySorted]
  | succ n ih =>
    intro xs ys hlen hxs hys
    cases xs with
    | nil => simpa [mergeLists] using hys
    | cons x xs =>
      cases ys with
      | nil => simpa [mergeLists] using hxs
      | cons y ys =>
        rw [mergeLists]
        simp only [List.length_cons] at hlen
        have hx' := List.pairwise_cons.mp hxs
        have hy' := List.pairwise_cons.mp hys
        split
        · rename_i hlt
          rw [lt_iff_key] at hlt
          refine List.pairwise_cons.mpr ⟨?_, ih (x :: xs) ys (by simp only [List.length_cons]; omega) hxs hy'.2⟩
          intro a ha
          rcases (mem_mergeLists n (x :: xs) ys a).mp ha with h | h
          · rcases List.mem_cons.mp h with h | h
            · subst h; omega
            · have := hx'.1 a h; omega
          · exact hy'.1 a h
        · rename_i hlt
          rw [lt_iff_key] at hlt
          refine List.pairwise_cons.mpr ⟨?_, ih xs (y :: ys) (by simp only [List.length_cons]; omega) hx'.2 hys⟩
          intro a ha
          rcases (mem_mergeLists n xs (y :: ys) a).mp ha with h | h
          · exact hx'.1 a h
          · rcases List.mem_cons.mp h with h | h
            · subst h; omega
            · have := hy'.1 a h; omega

theorem mem_sortLists (fuel : Nat) : ∀ (l : List N_Omino) (a : N_Omino),
    a ∈ sortLists fuel l ↔ a ∈ l := by
  induction fuel with
  | zero => intro l a; simp [sortLists]
  | succ n ih =>
    intro l a
    rw [sortLists]
    split
    · rfl
    · rw [mem_mergeLists, ih, ih]
      constructor
      · rintro (h | h)
        · exact List.mem_of_mem_take h
        · exact List.mem_of_mem_drop h
      · intro h
        rw [← List.take_append_drop (l.length / 2) l] at h
        exact List.mem_append.mp h

theorem length_mergeLists (fuel : Nat) : ∀ (xs ys : List N_Omino),
    (mergeLists fuel xs ys).length = xs.length + ys.length := by
  induction fuel with
  | zero => intro xs ys; simp [mergeLists]
  | succ n ih =>
    intro xs ys
    cases xs with
    | nil => simp [mergeLists]
    | cons x xs =>
      cases ys with
      | nil => simp [mergeLists]
      | cons y ys =>
        rw [mergeLists]
        split
        · simp only [List.length_cons, ih]; omega
        · simp only [List.length_cons, ih]; omega

theorem length_sortLists (fuel : Nat) : ∀ (l : List N_Omino),
    (sortLists fuel l).length = l.length := by
  induction fuel with
  | zero => intro l; simp [sortLists]
  | succ n ih =>
    intro l
    rw [sortLists]
    split
    · rfl
    · rw [length_mergeLists, ih, ih, List.length_take, List.length_drop]; omega

theorem sorted_sortLists (fuel : Nat) : ∀ (l : List N_Omino),
    l.length ≤ fuel → KeySorted (sortLists fuel l) := by
  induction fuel with
  | zero =>
    intro l h
    have : l = [] := List.length_eq_zero.mp (by omega)
    subst this; simp [sortLists, KeySorted]
  | succ n ih =>
    intro l hl
    rw [sortLists]
    split
    · rename_i h2
      match l, h2 with
      | [], _ => simp [KeySorted]
      | [a], _ => simp [KeySorted]
      | _ :: _ :: _, h2 => simp only [List.length_cons] at h2; omega
    · rename_i h2
      apply sorted_mergeLists
      · rw [length_sortLists, length_sortLists, List.length_take, List.length_drop]; omega
      · exact ih _ (by rw [List.length_take]; omega)
      · exact ih _ (by rw [List.length_drop]; omega)

theorem mem_sort (l : List N_Omino) (a : N_Omino) : a ∈ sort l ↔ a ∈ l :=
  mem_sortLists _ l a

theorem sorted_sort (l : List N_Omino) : KeySorted (sort l) :=
  sorted_sortLists _ l (le_refl _)

theorem uniqueFrom_spec : ∀ (l : List N_Omino) (prev : N_Omino), KeySorted (prev :: l) →
    (uniqueFrom prev l).Pairwise (fun a b => a.key < b.key) ∧
    (∀ a ∈ uniqueFrom prev l, prev.key ≤ a.key) ∧
    (∀ a ∈ uniqueFrom prev l, a = prev ∨ a ∈ l) := by
  intro l
  induction l with
  | nil => intro prev _; simp [uniqueFrom]
  | cons b rest ih =>
    intro prev hs
    have h1 := List.pairwise_cons.mp hs
    have h2 := List.pairwise_cons.mp h1.2
    rw [uniqueFrom]
    split
    · have hs' : KeySorted (prev :: rest) :=
        List.pairwise_cons.mpr ⟨fun a ha => h1.1 a (List.mem_cons_of_mem _ ha), h2.2⟩
      obtain ⟨p1, p2, p3⟩ := ih prev hs'
      refine ⟨p1, p2, ?_⟩
      intro a ha
      rcases p3 a ha with h | h
      · exact Or.inl h
      · exact Or.inr (List.mem_cons_of_mem _ h)
    · rename_i hne
      rw [eq_iff_key] at hne
      have hlt : prev.key < b.key := lt_of_le_of_ne (h1.1 b (List.mem_cons_self _ _)) hne
      obtain ⟨p1, p2, p3⟩ := ih b h1.2
      refine ⟨List.pairwise_cons.mpr ⟨?_, p1⟩, ?_, ?_⟩
      · intro a ha; have := p2 a ha; omega
      · intro a ha
        rcases List.mem_cons.mp ha with h | h
        · rw [h]
        · have := p2 a h; omega
      · intro a ha
        rcases List.mem_cons.mp ha with h | h
        · exact Or.inl h
        · rcases p3 a h with h | h
          · exact Or.inr (h ▸ List.mem_cons_self _ _)
          · exact Or.inr (List.mem_cons_of_mem _ h)

theorem unique_strict (l : List N_Omino) (h : KeySorted l) :
    (unique l).Pairwise (fun a b => a.key < b.key) := by
  cases l with
  | nil => simp [unique]
  | cons a rest => exact (uniqueFrom_spec rest a h).1

theorem mem_unique (l : List N_Omino) (a : N_Omino) (h : a ∈ unique l) : a ∈ l := by
  cases l with
  | nil => simp [unique] at h
  | cons b rest =>
    have : ∀ (l : List N_Omino) (prev a : N_Omino), a ∈ uniqueFrom prev l → a = prev ∨ a ∈ l := by
      intro l
      induction l with
      | nil => intro prev a h; simpa [uniqueFrom] using h
      | cons c rest ih =>
        intro prev a h
        rw [uniqueFrom] at h
        split at h
        · rcases ih prev a h with h | h
          · exact Or.inl h
          · exact Or.inr (List.mem_cons_of_mem _ h)
        · rcases List.mem_cons.mp h with h | h
          · exact Or.inl h
          · rcases ih c a h with h | h
            · exact Or.inr (h ▸ List.mem_cons_self _ _)
            · exact Or.inr (List.mem_cons_of_mem _ h)
    rcases this rest b a h with h | h
    · exact h ▸ List.mem_cons_self _ _
    · exact List.mem_cons_of_mem _ h

theorem mem_unique_sort (l : List N_Omino) (a : N_Omino) (h : a ∈ unique (sort l)) : a ∈ l :=
  (mem_sort l a).mp (mem_unique _ a h)

/-! ### The invariant of the search -/

theorem Add_spec (s : N_Omino) (kVec : VECT) (hx : -8 ≤ (s._pos.add kVec).x)
    (hy : -8 ≤ (s._pos.add kVec).y) :
    s.Add kVec =
      if s._grid.bit (wrap (s._pos.add kVec).x) (wrap (s._pos.add kVec).y) = true
          ∨ s._squaresLeft < 1 then .ok (false, s)
      else .ok (true, s.added kVec) := by
  unfold N_Omino.Add
  simp only
  rw [Get_eq _ _ hx hy, Set_eq _ _ hx hy]
  simp only [Bool.or_eq_true, decide_eq_true_eq]
  rfl

theorem bit_or_two_pow (g : Grid8x8) (x0 y0 x y : Nat) (hx0 : x0 < 8) (hx : x < 8) :
    (⟨g.ui64 ||| 2 ^ (8 * y0 + (7 - x0))⟩ : Grid8x8).bit x y
      = (g.bit x y || decide (x = x0 ∧ y = y0)) := by
  unfold Grid8x8.bit
  simp only
  rw [Nat.testBit_or, Nat.testBit_two_pow]
  congr 1
  simp only [decide_eq_decide]
  omega

theorem Reach.mono {occ occ' : POINT → Prop} (h : ∀ p, occ p → occ' p) {p q : POINT}
    (hr : Reach occ p q) : Reach occ' p q :=
  Relation.ReflTransGen.mono (fun _ _ ⟨h1, h2, h3⟩ => ⟨h _ h1, h _ h2, h3⟩) hr

theorem wrap_inj (a b : Int) (h : wrap a = wrap b) (h1 : a - b < 8) (h2 : b - a < 8) : a = b := by
  unfold wrap at h; omega

theorem added_pos (s : N_Omino) (v : VECT) : (s.added v)._pos = s._pos := rfl

theorem added_left (s : N_Omino) (v : VECT) : (s.added v)._squaresLeft = s._squaresLeft - 1 := rfl

theorem inBox_added (s : N_Omino) (v : VECT) (p : POINT) (h : s.inBox p) : (s.added v).inBox p := by
  unfold N_Omino.inBox N_Omino.added at *
  simp only
  omega

theorem inBox_added_new (s : N_Omino) (v : VECT) : (s.added v).inBox (s._pos.add v) := by
  unfold N_Omino.inBox N_Omino.added
  simp only
  omega

theorem added_bit (s : N_Omino) (v : VECT) (x y : Nat) (hx : x < 8) :
    (s.added v)._grid.bit x y
      = (s._grid.bit x y || decide (x = wrap (s._pos.add v).x ∧ y = wrap (s._pos.add v).y)) := by
  unfold N_Omino.added
  simp only
  exact bit_or_two_pow _ _ _ _ _ (wrap_lt _) hx

theorem Occ_added (s : N_Omino) (v : VECT) (p : POINT) (h : s.Occ p) : (s.added v).Occ p := by
  refine ⟨inBox_added s v p h.1, ?_⟩
  rw [added_bit _ _ _ _ (wrap_lt _), h.2]; rfl

theorem Occ_added_new (s : N_Omino) (v : VECT) : (s.added v).Occ (s._pos.add v) := by
  refine ⟨inBox_added_new s v, ?_⟩
  rw [added_bit _ _ _ _ (wrap_lt _)]; simp

theorem unit_cases {v : VECT} (hv : IsUnit v) :
    (v.dx = 0 ∧ v.dy = -1) ∨ (v.dx = 1 ∧ v.dy = 0) ∨ (v.dx = 0 ∧ v.dy = 1) ∨ (v.dx = -1 ∧ v.dy = 0) := by
  rcases hv with h | h | h | h <;> subst h <;> simp [kVecNorth, kVecEast, kVecSouth, kVecWest]

theorem adjacent_add (p : POINT) {v : VECT} (hv : IsUnit v) : Adjacent p (p.add v) := by
  have := unit_cases hv
  unfold Adjacent POINT.add
  simp only
  omega

theorem adjacent_symm {p q : POINT} (h : Adjacent p q) : Adjacent q p := by
  unfold Adjacent at *; omega

theorem Inv.box_small {N : Int} {s : N_Omino} (hN : N ≤ 7) (hI : Inv N s) :
    s._extent2.x - s._extent1.x ≤ 6 ∧ s._extent2.y - s._extent1.y ≤ 6 ∧
    -6 ≤ s._extent1.x ∧ -6 ≤ s._extent1.y ∧ s._extent2.x ≤ 6 ∧ s._extent2.y ≤ 6 := by
  have h1 := hI.left_nonneg
  have h2 := hI.origin
  have h3 := hI.size
  omega

theorem inBox_eq_of_wrap {s : N_Omino} {p q : POINT}
    (hw : s._extent2.x - s._extent1.x ≤ 6 ∧ s._extent2.y - s._extent1.y ≤ 6)
    (hp : s.inBox p) (hq : s.inBox q) (hx : wrap p.x = wrap q.x) (hy : wrap p.y = wrap q.y) :
    p = q := by
  unfold N_Omino.inBox at hp hq
  have e1 := wrap_inj p.x q.x hx (by omega) (by omega)
  have e2 := wrap_inj p.y q.y hy (by omega) (by omega)
  cases p; cases q; simp_all

theorem added_size {N : Int} {s : N_Omino} {v : VECT} (hv : IsUnit v) (hI : Inv N s) :
    ((s.added v)._extent2.x - (s.added v)._extent1.x)
      + ((s.added v)._extent2.y - (s.added v)._extent1.y) + (s.added v)._squaresLeft ≤ N - 1 := by
  have h3 := hI.size
  have h4 := hI.cursor.1
  have hu := unit_cases hv
  unfold N_Omino.inBox at h4
  unfold N_Omino.added POINT.add
  simp only
  omega

theorem occSet_added (s : N_Omino) (v : VECT) :
    (s.added v)._grid.occSet
      = insert (⟨wrap (s._pos.add v).x, wrap_lt _⟩, ⟨wrap (s._pos.add v).y, wrap_lt _⟩)
          s._grid.occSet := by
  ext ⟨a, b⟩
  simp only [Grid8x8.occSet, Finset.mem_filter, Finset.mem_univ, true_and, Finset.mem_insert,
    Prod.mk.injEq]
  rw [added_bit _ _ _ _ a.isLt]
  simp only [Bool.or_eq_true, decide_eq_true_eq, Fin.ext_iff]
  tauto

theorem Inv_added {N : Int} (hN : N ≤ 7) {s : N_Omino} {v : VECT} (hv : IsUnit v)
    (hI : Inv N s)
    (hfree : ¬ (s._grid.bit (wrap (s._pos.add v).x) (wrap (s._pos.add v).y) = true
      ∨ s._squaresLeft < 1)) :
    Inv N (s.added v) := by
  have hsize := added_size hv hI
  have hleft : 0 ≤ (s.added v)._squaresLeft := by rw [added_left]; omega
  have horigin : (s.added v)._extent1.x ≤ 0 ∧ 0 ≤ (s.added v)._extent2.x ∧
      (s.added v)._extent1.y ≤ 0 ∧ 0 ≤ (s.added v)._extent2.y := by
    have := hI.origin
    unfold N_Omino.added; simp only; omega
  have hsmall : (s.added v)._extent2.x - (s.added v)._extent1.x ≤ 6 ∧
      (s.added v)._extent2.y - (s.added v)._extent1.y ≤ 6 := by omega
  have hold : ∀ p, (s.added v).Occ p → s.Occ p ∨ p = s._pos.add v := by
    intro p ⟨hb, hbit⟩
    rw [added_bit _ _ _ _ (wrap_lt _)] at hbit
    simp only [Bool.or_eq_true, decide_eq_true_eq] at hbit
    rcases hbit with hbit | ⟨h1, h2⟩
    · obtain ⟨p', hp', hx', hy'⟩ := hI.allInBox _ _ (wrap_lt _) (wrap_lt _) hbit
      have : p' = p := inBox_eq_of_wrap hsmall (inBox_added s v p' hp') hb hx' hy'
      subst this
      exact Or.inl ⟨hp', hbit⟩
    · exact Or.inr (inBox_eq_of_wrap hsmall hb (inBox_added_new s v) h1 h2)
  have hedge : Reach (s.added v).Occ s._pos (s._pos.add v) :=
    Relation.ReflTransGen.single
      ⟨Occ_added s v _ hI.cursor, Occ_added_new s v, adjacent_add _ hv⟩
  have hedge' : Reach (s.added v).Occ (s._pos.add v) s._pos :=
    Relation.ReflTransGen.single
      ⟨Occ_added_new s v, Occ_added s v _ hI.cursor, adjacent_symm (adjacent_add _ hv)⟩
  refine ⟨hleft, ?_, horigin, hsize, Occ_added s v _ hI.cursor, ?_, ?_, ?_⟩
  · unfold N_Omino.added; simp only
    apply Nat.or_lt_two_pow hI.grid_lt
    apply Nat.pow_lt_pow_right (by norm_num)
    have := wrap_lt (s._pos.add v).y
    omega
  · intro x y hx hy hb
    rw [added_bit _ _ _ _ hx] at hb
    simp only [Bool.or_eq_true, decide_eq_true_eq] at hb
    rcases hb with hb | ⟨h1, h2⟩
    · obtain ⟨p, hp, hpx, hpy⟩ := hI.allInBox x y hx hy hb
      exact ⟨p, inBox_added s v p hp, hpx, hpy⟩
    · exact ⟨s._pos.add v, inBox_added_new s v, h1.symm, h2.symm⟩
  · intro p q hp hq
    have mono : ∀ {a b}, Reach s.Occ a b → Reach (s.added v).Occ a b :=
      fun h => Reach.mono (fun p hp => Occ_added s v p hp) h
    rcases hold p hp with hp' | hp' <;> rcases hold q hq with hq' | hq'
    · exact mono (hI.conn p q hp' hq')
    · subst hq'
      exact Relation.ReflTransGen.trans (mono (hI.conn p _ hp' hI.cursor)) hedge
    · subst hp'
      exact Relation.ReflTransGen.trans hedge' (mono (hI.conn _ q hI.cursor hq'))
    · subst hp'; subst hq'; exact Relation.ReflTransGen.refl
  · rw [occSet_added, Finset.card_insert_of_not_mem, added_left]
    · have := hI.count; push_cast; omega
    · simp only [Grid8x8.occSet, Finset.mem_filter, Finset.mem_univ, true_and]
      tauto

theorem Mid_step {N : Int} (hN : N ≤ 7) {s : N_Omino} {combo : Nat} {dirs : List (Nat × VECT)}
    {cur : Except Fault (Option N_Omino)} (dir : Nat) {v : VECT} (hv : IsUnit v)
    (h : Mid N s combo dirs cur) : Mid N s combo ((dir, v) :: dirs) (AddIf combo dir v cur) := by
  rcases h with h | ⟨s', hcur, hI, hpos, hle, hd⟩
  · subst h; exact Or.inl rfl
  · subst hcur
    unfold AddIf
    simp only
    by_cases hc : (combo &&& dir != 0) = true
    · rw [if_pos hc]
      have hb := hI.box_small hN
      have hcur := hI.cursor.1
      have hu := unit_cases hv
      unfold N_Omino.inBox at hcur
      rw [Add_spec s' v (by unfold POINT.add; simp only; omega)
        (by unfold POINT.add; simp only; omega)]
      by_cases hfree : s'._grid.bit (wrap (s'._pos.add v).x) (wrap (s'._pos.add v).y) = true
          ∨ s'._squaresLeft < 1
      · rw [if_pos hfree]; exact Or.inl rfl
      · rw [if_neg hfree]
        refine Or.inr ⟨s'.added v, rfl, Inv_added hN hv hI hfree, hpos, ?_, ?_⟩
        · rw [added_left]; omega
        · intro d hdm hdc
          rw [added_left]
          rcases List.mem_cons.mp hdm with h | h
          · subst h
            refine ⟨?_, by omega⟩
            rw [← hpos]; exact Occ_added_new s' v
          · have := hd d h hdc
            exact ⟨Occ_added s' v _ this.1, by omega⟩
    · rw [if_neg hc]
      refine Or.inr ⟨s', rfl, hI, hpos, hle, ?_⟩
      intro d hdm hdc
      rcases List.mem_cons.mp hdm with h | h
      · subst h; exact absurd hdc hc
      · exact hd d h hdc

theorem unit_N : IsUnit kVecNorth := Or.inl rfl

theorem unit_E : IsUnit kVecEast := Or.inr (Or.inl rfl)

theorem unit_S : IsUnit kVecSouth := Or.inr (Or.inr (Or.inl rfl))

theorem unit_W : IsUnit kVecWest := Or.inr (Or.inr (Or.inr rfl))

theorem AddCombo_spec {N : Int} (hN : N ≤ 7) {s : N_Omino} (combo : Nat) (hI : Inv N s) :
    Mid N s combo allDirs (AddCombo combo s) := by
  have h0 : Mid N s combo [] (.ok (some s)) :=
    Or.inr ⟨s, rfl, hI, rfl, le_refl _, by intro d hd; simp at hd⟩
  exact Mid_step hN DIR_W unit_W (Mid_step hN DIR_S unit_S (Mid_step hN DIR_E unit_E
    (Mid_step hN DIR_N unit_N h0)))

theorem Occ_Follow (s : N_Omino) (v : VECT) (p : POINT) : (s.Follow v).Occ p ↔ s.Occ p := Iff.rfl

theorem Inv_Follow {N : Int} {s : N_Omino} {v : VECT} (hI : Inv N s)
    (hocc : s.Occ (s._pos.add v)) : Inv N (s.Follow v) :=
  ⟨hI.left_nonneg, hI.grid_lt, hI.origin, hI.size, hocc, hI.allInBox, hI.conn, hI.count⟩

theorem Grown.refl (Q : N_Omino → Prop) (base : List N_Omino) : Grown Q base (.ok base) :=
  ⟨[], by simp, by simp⟩

theorem FollowIf_spec {N : Int} {Q : N_Omino → Prop} {L : Int}
    {recurse : List N_Omino → N_Omino → Except Fault (List N_Omino)}
    (hrec : RecOk N Q L recurse) (combo dir : Nat) (v : VECT) (s' : N_Omino)
    (hs : (combo &&& dir != 0) = true → Inv N (s'.Follow v) ∧ (s'.Follow v)._squaresLeft < L)
    {base : List N_Omino} {acc : Except Fault (List N_Omino)} (hacc : Grown Q base acc) :
    Grown Q base (FollowIf recurse combo dir v s' acc) := by
  obtain ⟨out, hout, hQ⟩ := hacc
  subst hout
  unfold FollowIf
  simp only
  by_cases hc : (combo &&& dir != 0) = true
  · rw [if_pos hc]
    obtain ⟨out2, h2, hQ2⟩ := hrec (base ++ out) (s'.Follow v) (hs hc).1 (hs hc).2
    refine ⟨out ++ out2, by rw [h2, List.append_assoc], ?_⟩
    intro u hu
    rcases List.mem_append.mp hu with h | h
    · exact hQ u h
    · exact hQ2 u h
  · rw [if_neg hc]
    exact ⟨out, rfl, hQ⟩

theorem GenerateLoop_spec {N : Int} (hN : N ≤ 7) {Q : N_Omino → Prop} {s : N_Omino}
    {recurse : List N_Omino → N_Omino → Except Fault (List N_Omino)}
    (hI : Inv N s) (hrec : RecOk N Q s._squaresLeft recurse) :
    ∀ (table : List DIR_COMB) (base acc : List N_Omino), Grown Q base (.ok acc) →
      Grown Q base (GenerateLoop recurse s table acc) := by
  intro table
  induction table with
  | nil => intro base acc h; exact h
  | cons dc rest ih =>
    intro base acc h
    rw [GenerateLoop]
    rcases AddCombo_spec hN dc.combo hI with hm | ⟨s', hm, hI', hpos, hle, hd⟩
    · rw [hm]; exact ih base acc h
    · rw [hm]
      simp only
      have key : ∀ d ∈ allDirs, (dc.combo &&& d.1 != 0) = true →
          Inv N (s'.Follow d.2) ∧ (s'.Follow d.2)._squaresLeft < s._squaresLeft := by
        intro d hdm hdc
        have := hd d hdm hdc
        exact ⟨Inv_Follow hI' (hpos ▸ this.1), this.2⟩
      have hF : Grown Q base (FollowCombo recurse dc.combo s' acc) := by
        unfold FollowCombo
        apply FollowIf_spec hrec _ _ _ _ (key (DIR_W, kVecWest) (by simp [allDirs]))
        apply FollowIf_spec hrec _ _ _ _ (key (DIR_S, kVecSouth) (by simp [allDirs]))
        apply FollowIf_spec hrec _ _ _ _ (key (DIR_E, kVecEast) (by simp [allDirs]))
        apply FollowIf_spec hrec _ _ _ _ (key (DIR_N, kVecNorth) (by simp [allDirs]))
        exact h
      obtain ⟨out, hout, hQ⟩ := hF
      rw [hout]
      simp only
      exact ih base (base ++ out) ⟨out, rfl, hQ⟩

/-! ### Shapes stored in the collection -/

theorem wrap_small (i : Int) (h0 : 0 ≤ i) (h7 : i ≤ 7) : wrap i = i.toNat := by
  unfold wrap; omega

theorem Occupied_iff (g : Grid8x8) (p : POINT) :
    g.Occupied p ↔ 0 ≤ p.x ∧ p.x ≤ 7 ∧ 0 ≤ p.y ∧ p.y ≤ 7 ∧ g.bit p.x.toNat p.y.toNat = true := by
  unfold Grid8x8.Occupied
  constructor
  · rintro ⟨h1, h2, h3, h4, h5⟩
    rw [Get_eq g p (by omega) (by omega), wrap_small _ h1 h2, wrap_small _ h3 h4] at h5
    exact ⟨h1, h2, h3, h4, Except.ok.inj h5⟩
  · rintro ⟨h1, h2, h3, h4, h5⟩
    rw [Get_eq g p (by omega) (by omega), wrap_small _ h1 h2, wrap_small _ h3 h4, h5]
    exact ⟨h1, h2, h3, h4, rfl⟩

theorem CellCount_eq (g : Grid8x8) : g.CellCount = g.occSet.card := by
  unfold Grid8x8.CellCount Grid8x8.occSet
  congr 1
  ext ⟨a, b⟩
  simp only [Finset.mem_filter, Finset.mem_univ, true_and]
  rw [Get_eq g _ (by simp only; omega) (by simp only; omega)]
  have e1 : wrap (a.val : Int) = a.val := by unfold wrap; omega
  have e2 : wrap (b.val : Int) = b.val := by unfold wrap; omega
  simp only [e1, e2]
  constructor
  · intro h; exact Except.ok.inj h
  · intro h; rw [h]

theorem shiftCell_injective (dx dy : Nat) : Function.Injective (shiftCell dx dy) := by
  rintro ⟨a, b⟩ ⟨c, d⟩ h
  simp only [shiftCell, Prod.mk.injEq, Fin.mk.injEq] at h
  have := a.isLt; have := b.isLt; have := c.isLt; have := d.isLt
  ext <;> simp only <;> omega

theorem card_translate (g g2 : Grid8x8) (dx dy : Nat)
    (hb : ∀ x y, x < 8 → y < 8 → g2.bit ((x + dx) % 8) ((y + dy) % 8) = g.bit x y) :
    g2.occSet.card = g.occSet.card := by
  have : g2.occSet = g.occSet.image (shiftCell dx dy) := by
    ext ⟨a, b⟩
    simp only [Grid8x8.occSet, Finset.mem_filter, Finset.mem_univ, true_and, Finset.mem_image,
      Prod.exists]
    constructor
    · intro h
      refine ⟨⟨(a.val + (8 - dx % 8)) % 8, Nat.mod_lt _ (by norm_num)⟩,
        ⟨(b.val + (8 - dy % 8)) % 8, Nat.mod_lt _ (by norm_num)⟩, ?_, ?_⟩
      · rw [← hb _ _ (Nat.mod_lt _ (by norm_num)) (Nat.mod_lt _ (by norm_num))]
        have e1 : ((a.val + (8 - dx % 8)) % 8 + dx) % 8 = a.val := by have := a.isLt; omega
        have e2 : ((b.val + (8 - dy % 8)) % 8 + dy) % 8 = b.val := by have := b.isLt; omega
        rw [e1, e2]; exact h
      · simp only [shiftCell, Prod.mk.injEq, Fin.mk.injEq]
        have := a.isLt; have := b.isLt
        constructor <;> ext <;> simp only <;> omega
    · rintro ⟨c, d, h, he⟩
      simp only [shiftCell, Prod.mk.injEq] at he
      rw [← he.1, ← he.2]
      simp only
      rw [hb _ _ c.isLt d.isLt]; exact h
  rw [this, Finset.card_image_of_injective _ (shiftCell_injective dx dy)]

theorem Reach.map {occ occ' : POINT → Prop} (f : POINT → POINT)
    (h : ∀ a b, occ a ∧ occ b ∧ Adjacent a b → occ' (f a) ∧ occ' (f b) ∧ Adjacent (f a) (f b))
    {p q : POINT} (hr : Reach occ p q) : Reach occ' (f p) (f q) :=
  Relation.ReflTransGen.lift f h hr

theorem Normalize_spec {N : Int} (hN : N ≤ 7) {s : N_Omino} (hI : Inv N s)
    (h0 : s._squaresLeft = 0) : ∃ t, s.Normalize = .ok t ∧ Final N t := by
  have hb := hI.box_small hN
  have ho := hI.origin
  obtain ⟨g2, hg2, hlt2, hbit⟩ := Translate_spec s._grid ⟨-s._extent1.x, -s._extent1.y⟩
    hI.grid_lt (by simp only; omega) (by simp only; omega) (by simp only; omega)
    (by simp only; omega)
  simp only at hbit
  -- the cell of a box point after the translation
  have hmove : ∀ p, s.inBox p →
      g2.bit (p.x - s._extent1.x).toNat (p.y - s._extent1.y).toNat
        = s._grid.bit (wrap p.x) (wrap p.y) := by
    intro p hp
    unfold N_Omino.inBox at hp
    rw [← hbit _ _ (wrap_lt _) (wrap_lt _)]
    have e1 : (wrap p.x + (-s._extent1.x).toNat) % 8 = (p.x - s._extent1.x).toNat := by
      unfold wrap; omega
    have e2 : (wrap p.y + (-s._extent1.y).toNat) % 8 = (p.y - s._extent1.y).toNat := by
      unfold wrap; omega
    rw [e1, e2]
  -- every occupied cell of the translated grid comes from a box point
  have hback : ∀ p', g2.Occupied p' →
      s.Occ ⟨p'.x + s._extent1.x, p'.y + s._extent1.y⟩ := by
    intro p' hp'
    rw [Occupied_iff] at hp'
    obtain ⟨a1, a2, a3, a4, a5⟩ := hp'
    have hsrc := hbit ((p'.x.toNat + (8 - (-s._extent1.x).toNat)) % 8)
      ((p'.y.toNat + (8 - (-s._extent1.y).toNat)) % 8) (by omega) (by omega)
    have e1 : ((p'.x.toNat + (8 - (-s._extent1.x).toNat)) % 8 + (-s._extent1.x).toNat) % 8
        = p'.x.toNat := by omega
    have e2 : ((p'.y.toNat + (8 - (-s._extent1.y).toNat)) % 8 + (-s._extent1.y).toNat) % 8
        = p'.y.toNat := by omega
    rw [e1, e2, a5] at hsrc
    obtain ⟨p, hp, hpx, hpy⟩ := hI.allInBox _ _ (by omega) (by omega) hsrc.symm
    have hp2 := hp
    unfold N_Omino.inBox at hp2
    have e3 : p.x = p'.x + s._extent1.x := by unfold wrap at hpx; omega
    have e4 : p.y = p'.y + s._extent1.y := by unfold wrap at hpy; omega
    have : p = ⟨p'.x + s._extent1.x, p'.y + s._extent1.y⟩ := by
      cases p; simp only at e3 e4; simp [e3, e4]
    rw [← this]
    refine ⟨hp, ?_⟩
    rw [hpx, hpy]; exact hsrc.symm
  have hfwd : ∀ p, s.Occ p → g2.Occupied ⟨p.x - s._extent1.x, p.y - s._extent1.y⟩ := by
    intro p hp
    have hp1 := hp.1
    unfold N_Omino.inBox at hp1
    rw [Occupied_iff]
    refine ⟨by simp only; omega, by simp only; omega, by simp only; omega, by simp only; omega, ?_⟩
    simp only
    rw [hmove p hp.1]; exact hp.2
  refine ⟨_, by unfold N_Omino.Normalize; simp only; rw [hg2], ?_⟩
  refine ⟨rfl, by simp only; omega, h0, hlt2, ?_, ?_, ?_⟩
  · simp only
    rw [CellCount_eq, card_translate s._grid g2 _ _ hbit]
    have := hI.count; omega
  · intro p' hp'
    have := (hback p' hp').1
    unfold N_Omino.inBox at this
    simp only at this ⊢
    omega
  · intro p' q' hp' hq'
    have hr := hI.conn _ _ (hback p' hp') (hback q' hq')
    have := @Reach.map s.Occ g2.Occupied
      (fun p => (⟨p.x - s._extent1.x, p.y - s._extent1.y⟩ : POINT))
      (fun a b ⟨ha, hb', hab⟩ => ⟨hfwd a ha, hfwd b hb', by
        unfold Adjacent at *; simp only; omega⟩) _ _ hr
    simp only [add_sub_cancel_right] at this
    exact this

theorem Imp_spec {N : Int} (hN : N ≤ 7) : ∀ (fuel : Nat) (acc : List N_Omino) (s : N_Omino),
    Inv N s → s._squaresLeft < fuel →
    ∃ out, N_OminosGenerateImp fuel acc s = .ok (acc ++ out) ∧ ∀ u ∈ out, Final N u := by
  intro fuel
  induction fuel with
  | zero =>
    intro acc s hI hlt
    have := hI.left_nonneg
    simp only [Nat.cast_zero] at hlt
    omega
  | succ n ih =>
    intro acc s hI hlt
    rw [N_OminosGenerateImp]
    by_cases h0 : s.SquaresLeft = 0
    · rw [if_pos h0]
      obtain ⟨t, ht, hF⟩ := Normalize_spec hN hI h0
      rw [ht]
      exact ⟨[t], rfl, by intro u hu; rw [List.mem_singleton.mp hu]; exact hF⟩
    · rw [if_neg h0]
      have hrec : RecOk N (Final N) s._squaresLeft (N_OminosGenerateImp n) := by
        intro acc' t hIt hlt'
        exact ih acc' t hIt (by push_cast at hlt; omega)
      exact GenerateLoop_spec hN hI hrec kDirComb acc acc (Grown.refl _ _)

theorem Inv_init (N : Int) (h1 : 1 ≤ N) :
    ∃ s, N_Omino.init N = .ok s ∧ Inv N s ∧ s._squaresLeft = N - 1 := by
  refine ⟨⟨⟨128⟩, ⟨0, 0⟩, ⟨0, 0⟩, ⟨0, 0⟩, N - 1⟩, by unfold N_Omino.init; rfl, ?_, rfl⟩
  have hocc : ∀ p : POINT, (⟨⟨128⟩, ⟨0, 0⟩, ⟨0, 0⟩, ⟨0, 0⟩, N - 1⟩ : N_Omino).Occ p → p = ⟨0, 0⟩ := by
    intro p hp
    have := hp.1
    unfold N_Omino.inBox at this
    simp only at this
    cases p; simp only at this; simp; omega
  refine ⟨by simp only; omega, by simp only; norm_num, by simp, by simp only; omega,
    ⟨by unfold N_Omino.inBox; simp, by
      show (⟨128⟩ : Grid8x8).bit (wrap 0) (wrap 0) = true
      decide⟩, ?_, ?_, ?_⟩
  · intro x y hx hy hb
    refine ⟨⟨0, 0⟩, by unfold N_Omino.inBox; simp, ?_⟩
    simp only at hb
    have key : ∀ a b : Fin 8, (⟨128⟩ : Grid8x8).bit a.val b.val = true →
        wrap 0 = a.val ∧ wrap 0 = b.val := by decide
    exact key ⟨x, hx⟩ ⟨y, hy⟩ hb
  · intro p q hp hq
    rw [hocc p hp, hocc q hq]
    exact Relation.ReflTransGen.refl
  · simp only
    have : (⟨128⟩ : Grid8x8).occSet.card = 1 := by decide
    rw [this]; push_cast; omega

/-- The collection of `N_OminosGenerate(N)` exists for `N` in `1..7` (the search neither
leaves the defined behaviour nor runs out of fuel) and holds only shapes that satisfy `Final`. -/
theorem Collection_spec (N : Int) (h1 : 1 ≤ N) (h7 : N ≤ 7) :
    ∃ raw, N_OminosCollection N = .ok (unique (sort raw)) ∧ ∀ u ∈ raw, Final N u := by
  obtain ⟨s, hs, hI, hl⟩ := Inv_init N h1
  obtain ⟨out, hout, hF⟩ := Imp_spec h7 N.toNat [] s hI (by rw [hl]; omega)
  refine ⟨out, ?_, hF⟩
  unfold N_OminosCollection
  rw [hs]; simp only; rw [hout]; rfl

/-- C4. For every `N` in `1..7`, the collection of `N_OminosGenerate(N)` exists and every
shape in it has exactly `N` occupied grid cells, which are connected: any occupied cell is
reached from any other by unit steps (no wrap-around) over occupied cells. -/
theorem C4_shapes_have_N_connected_cells (N : Int) (h1 : 1 ≤ N) (h7 : N ≤ 7) :
    ∃ l, N_OminosCollection N = .ok l ∧
      ∀ s ∈ l, (s._grid.CellCount : Int) = N ∧ s._grid.Connected := by
  obtain ⟨raw, hraw, hF⟩ := Collection_spec N h1 h7
  refine ⟨_, hraw, ?_⟩
  intro s hs
  have := hF s (mem_unique_sort raw s hs)
  exact ⟨this.count, this.conn⟩

theorem C4_witness :
    ∃ l, N_OminosCollection 3 = .ok l ∧
      ∀ s ∈ l, (s._grid.CellCount : Int) = 3 ∧ s._grid.Connected :=
  C4_shapes_have_N_connected_cells 3 (by decide) (by decide)

/-- C5. For every `N` in `1..7`, the collection of `N_OminosGenerate(N)` is strictly
increasing for `operator<`, and `Comp` is non-zero on any two entries at different
positions. -/
theorem C5_collection_strictly_increasing (N : Int) (h1 : 1 ≤ N) (h7 : N ≤ 7) :
    ∃ l, N_OminosCollection N = .ok l ∧
      l.Pairwise (fun a b => a.lt b = true) ∧
      ∀ i j : Fin l.length, i ≠ j → (l.get i).Comp (l.get j) ≠ 0 := by
  obtain ⟨raw, hraw, _⟩ := Collection_spec N h1 h7
  have hs := unique_strict _ (sorted_sort raw)
  refine ⟨_, hraw, ?_, ?_⟩
  · exact hs.imp (fun {a b} h => (lt_iff_key a b).mpr h)
  · intro i j hij
    have hg := List.pairwise_iff_get.mp hs
    intro hc
    have hk : (List.get _ i).key = (List.get _ j).key := (Comp_eq_zero_iff _ _).mp hc
    rcases lt_or_gt_of_ne hij with h | h
    · have := hg i j h; omega
    · have := hg j i h; omega

theorem C5_witness :
    ∃ l, N_OminosCollection 4 = .ok l ∧
      l.Pairwise (fun a b => a.lt b = true) ∧
      ∀ i j : Fin l.length, i ≠ j → (l.get i).Comp (l.get j) ≠ 0 :=
  C5_collection_strictly_increasing 4 (by decide) (by decide)

/-! ### Drawing and the top-level function -/

theorem DrawRowFrom_ok (s : N_Omino) (row : Int) (hrow : -8 ≤ row) :
    ∀ (n : Nat) (i : Int), -8 ≤ i → ∃ str, s.DrawRowFrom row n i = .ok str := by
  intro n
  induction n with
  | zero => intro i _; exact ⟨_, rfl⟩
  | succ n ih =>
    intro i hi
    obtain ⟨rest, hrest⟩ := ih (i + 1) (by omega)
    rw [N_Omino.DrawRowFrom, Get_eq _ _ hi hrow]
    simp only
    rw [hrest]
    exact ⟨_, rfl⟩

theorem DrawFrom_ok (s : N_Omino) (hx : -8 ≤ s._extent1.x) :
    ∀ (n : Nat) (i : Int), -8 ≤ i → ∃ str, s.DrawFrom n i = .ok str := by
  intro n
  induction n with
  | zero => intro i _; exact ⟨_, rfl⟩
  | succ n ih =>
    intro i hi
    obtain ⟨rest, hrest⟩ := ih (i + 1) (by omega)
    obtain ⟨line, hline⟩ := DrawRowFrom_ok s i hi
      (s._extent2.x + 1 - s._extent1.x).toNat s._extent1.x hx
    rw [N_Omino.DrawFrom, N_Omino.DrawRow, hline]
    simp only
    rw [hrest]
    exact ⟨_, rfl⟩

theorem Draw_ok (s : N_Omino) (hx : -8 ≤ s._extent1.x) (hy : -8 ≤ s._extent1.y) :
    ∃ str, s.Draw = .ok str := by
  obtain ⟨rows, hrows⟩ := DrawFrom_ok s hx (s._extent2.y + 1 - s._extent1.y).toNat s._extent1.y hy
  rw [N_Omino.Draw, hrows]
  exact ⟨_, rfl⟩

theorem N_OminosDraw_ok : ∀ (l : List N_Omino),
    (∀ s ∈ l, -8 ≤ s._extent1.x ∧ -8 ≤ s._extent1.y) → ∃ str, N_OminosDraw l = .ok str := by
  intro l
  induction l with
  | nil => intro _; exact ⟨_, rfl⟩
  | cons s rest ih =>
    intro h
    obtain ⟨d, hd⟩ := Draw_ok s (h s (List.mem_cons_self _ _)).1 (h s (List.mem_cons_self _ _)).2
    obtain ⟨ds, hds⟩ := ih (fun t ht => h t (List.mem_cons_of_mem _ ht))
    rw [N_OminosDraw, hd]
    simp only
    rw [hds]
    exact ⟨_, rfl⟩

/-- For `N` in `1..7`, `N_OminosGenerate(N)` succeeds: it returns 1 after printing the count
line and the drawings of the collection. -/
theorem Generate_in_range (N : Int) (h1 : 1 ≤ N) (h7 : N ≤ 7) :
    ∃ l drawn, N_OminosCollection N = .ok l ∧ N_OminosDraw l = .ok drawn ∧
      N_OminosGenerate N
        = .ok (1, "n_ominoes = " ++ toString l.length ++ "\n" ++ drawn) := by
  obtain ⟨raw, hraw, hF⟩ := Collection_spec N h1 h7
  obtain ⟨drawn, hdrawn⟩ := N_OminosDraw_ok (unique (sort raw)) (by
    intro s hs
    have := (hF s (mem_unique_sort raw s hs)).extent1
    rw [this]; simp)
  refine ⟨_, drawn, hraw, hdrawn, ?_⟩
  unfold N_OminosGenerate kLimit
  rw [if_pos ⟨h1, h7⟩, hraw]
  simp only
  rw [hdrawn]

/-- C6. For every `N` outside `1..7`, `N_OminosGenerate(N)` returns 0 and prints nothing (the
search is not run); for every `N` in `1..7` it returns 1, after printing the count line and
the drawings of the collection. -/
theorem C6_Generate_return_value (N : Int) :
    ((N < 1 ∨ 7 < N) → N_OminosGenerate N = .ok (0, "")) ∧
    ((1 ≤ N ∧ N ≤ 7) → ∃ l drawn, N_OminosCollection N = .ok l ∧ N_OminosDraw l = .ok drawn ∧
      N_OminosGenerate N
        = .ok (1, "n_ominoes = " ++ toString l.length ++ "\n" ++ drawn)) := by
  constructor
  · intro h
    unfold N_OminosGenerate kLimit
    rw [if_neg (by omega)]
  · intro ⟨h1, h7⟩
    exact Generate_in_range N h1 h7

theorem C6_witness :
    N_OminosGenerate 8 = .ok (0, "") ∧
    ∃ l drawn, N_OminosCollection 3 = .ok l ∧ N_OminosDraw l = .ok drawn ∧
      N_OminosGenerate 3
        = .ok (1, "n_ominoes = " ++ toString l.length ++ "\n" ++ drawn) :=
  ⟨(C6_Generate_return_value 8).1 (Or.inr (by decide)),
   (C6_Generate_return_value 3).2 ⟨by decide, by decide⟩⟩

/-! ### Evaluation for small `N` -/

theorem collection5_keys :
    Except.map (List.map N_Omino.key) (N_OminosCollection 5) = .ok keys5 := by
  decide!

theorem collection5 :
    ∃ l, N_OminosCollection 5 = .ok l ∧ l.map N_Omino.key = keys5 := by
  have h := collection5_keys
  cases hc : N_OminosCollection 5 with
  | error e => rw [hc] at h; simp [Except.map] at h
  | ok l =>
    rw [hc] at h
    exact ⟨l, rfl, Except.ok.inj h⟩

/-- C1 at `N = 5`: the collection of `N_OminosGenerate(5)` holds 62 shapes and the count
line printed is `n_ominoes = 62`, not the 63 fixed pentominoes; for `N = 1, 2, 3, 4` the
collection holds 1, 2, 6 and 19 shapes. -/
theorem C1_counts_up_to_5 :
    Except.map List.length (N_OminosCollection 1) = .ok 1 ∧
    Except.map List.length (N_OminosCollection 2) = .ok 2 ∧
    Except.map List.length (N_OminosCollection 3) = .ok 6 ∧
    Except.map List.length (N_OminosCollection 4) = .ok 19 ∧
    Except.map List.length (N_OminosCollection 5) = .ok 62 ∧
    ∃ drawn, N_OminosGenerate 5 = .ok (1, "n_ominoes = 62\n" ++ drawn) := by
  obtain ⟨l, hl, hk⟩ := collection5
  have hlen : l.length = 62 := by
    rw [← List.length_map l N_Omino.key, hk]; rfl
  refine ⟨by decide!, by decide!, by decide!, by decide!, ?_, ?_⟩
  · rw [hl]; simp [Except.map, hlen]
  · obtain ⟨l', drawn, hl', _, hgen⟩ := Generate_in_range 5 (by decide) (by decide)
    rw [hl] at hl'
    have : l' = l := (Except.ok.inj hl').symm
    subst this
    rw [hlen] at hgen
    exact ⟨drawn, hgen⟩

theorem Reach.symm {occ : POINT → Prop} {p q : POINT} (h : Reach occ p q) : Reach occ q p := by
  induction h with
  | refl => exact Relation.ReflTransGen.refl
  | tail _ hbc ih =>
    exact Relation.ReflTransGen.head ⟨hbc.2.1, hbc.1, adjacent_symm hbc.2.2⟩ ih

theorem uPentomino_connected :
    ∀ p ∈ uPentomino, ∀ q ∈ uPentomino, Reach (· ∈ uPentomino) p q := by
  have step : ∀ a b : POINT, a ∈ uPentomino → b ∈ uPentomino → Adjacent a b →
      Reach (· ∈ uPentomino) a b :=
    fun a b ha hb hab => Relation.ReflTransGen.single ⟨ha, hb, hab⟩
  have r1 : Reach (· ∈ uPentomino) ⟨0, 0⟩ ⟨1, 0⟩ :=
    step _ _ (by decide) (by decide) (by unfold Adjacent; decide)
  have r2 : Reach (· ∈ uPentomino) ⟨0, 0⟩ ⟨1, 1⟩ :=
    r1.trans (step _ _ (by decide) (by decide) (by unfold Adjacent; decide))
  have r3 : Reach (· ∈ uPentomino) ⟨0, 0⟩ ⟨1, 2⟩ :=
    r2.trans (step _ _ (by decide) (by decide) (by unfold Adjacent; decide))
  have r4 : Reach (· ∈ uPentomino) ⟨0, 0⟩ ⟨0, 2⟩ :=
    r3.trans (step _ _ (by decide) (by decide) (by unfold Adjacent; decide))
  have all : ∀ p ∈ uPentomino, Reach (· ∈ uPentomino) ⟨0, 0⟩ p := by
    intro p hp
    simp only [uPentomino, List.mem_cons, List.mem_singleton, List.not_mem_nil, or_false] at hp
    rcases hp with h | h | h | h | h <;> subst h
    · exact Relation.ReflTransGen.refl
    · exact r1
    · exact r2
    · exact r3
    · exact r4
  intro p hp q hq
  exact (all p hp).symm.trans (all q hq)

/-- C2 at `N = 5`: the U-shaped pentomino that opens to the west is a connected set of five
cells with minimum x and minimum y equal to 0, and no shape in the collection of
`N_OminosGenerate(5)` has exactly these cells occupied. -/
theorem C2_U_pentomino_missing :
    uPentomino.Nodup ∧ uPentomino.length = 5 ∧
    (∀ p ∈ uPentomino, ∀ q ∈ uPentomino, Reach (· ∈ uPentomino) p q) ∧
    (∀ p ∈ uPentomino, 0 ≤ p.x ∧ 0 ≤ p.y) ∧
    (∃ p ∈ uPentomino, p.x = 0) ∧ (∃ p ∈ uPentomino, p.y = 0) ∧
    ∃ l, N_OminosCollection 5 = .ok l ∧
      ∀ s ∈ l, ¬ (∀ p, s._grid.Occupied p ↔ p ∈ uPentomino) := by
  refine ⟨by decide, rfl, uPentomino_connected, by decide, ⟨⟨0, 0⟩, by decide, rfl⟩,
    ⟨⟨0, 0⟩, by decide, rfl⟩, ?_⟩
  obtain ⟨l, hl, hk⟩ := collection5
  obtain ⟨raw, hraw, hF⟩ := Collection_spec 5 (by decide) (by decide)
  refine ⟨l, hl, ?_⟩
  intro s hs hcells
  have hsl : s ∈ unique (sort raw) := by
    rw [hl] at hraw
    rw [← Except.ok.inj hraw]; exact hs
  have hlt := (hF s (mem_unique_sort raw s hsl)).grid_lt
  have hX : ∀ p, (⟨12599488⟩ : Grid8x8).Occupied p ↔ p ∈ uPentomino := by
    intro p
    rw [Occupied_iff]
    constructor
    · rintro ⟨h1, h2, h3, h4, h5⟩
      obtain ⟨x, y⟩ := p
      simp only at h1 h2 h3 h4 h5
      have key : ∀ a b : Fin 8, (⟨12599488⟩ : Grid8x8).bit a.val b.val = true →
          (⟨a.val, b.val⟩ : POINT) ∈ uPentomino := by decide
      have := key ⟨x.toNat, by omega⟩ ⟨y.toNat, by omega⟩ h5
      simp only [Int.toNat_of_nonneg h1, Int.toNat_of_nonneg h3] at this
      exact this
    · intro hp
      simp only [uPentomino, List.mem_cons, List.mem_singleton, List.not_mem_nil, or_false] at hp
      rcases hp with h | h | h | h | h <;> subst h <;> decide
  have hgrid : s._grid = ⟨12599488⟩ := by
    apply grid_ext _ _ hlt (by decide)
    intro x y hx hy
    have a := hcells ⟨x, y⟩
    have b := hX ⟨x, y⟩
    rw [Occupied_iff] at a b
    simp only [Int.toNat_ofNat] at a b
    have hx' : (0 : Int) ≤ x ∧ (x : Int) ≤ 7 := by omega
    have hy' : (0 : Int) ≤ y ∧ (y : Int) ≤ 7 := by omega
    have a' : s._grid.bit x y = true ↔ (⟨x, y⟩ : POINT) ∈ uPentomino := by
      rw [← a]; tauto
    have b' : (⟨12599488⟩ : Grid8x8).bit x y = true ↔ (⟨x, y⟩ : POINT) ∈ uPentomino := by
      rw [← b]; tauto
    rw [Bool.eq_iff_iff, a', b']
  have hmem : s.key ∈ keys5 := by
    rw [← hk]; exact List.mem_map_of_mem _ hs
  have : s.key = 12599488 := by unfold N_Omino.key; rw [hgrid]
  rw [this] at hmem
  revert hmem
  decide

/-- C3. `N_OminosGenerate(1)` yields exactly one shape, drawn as one row holding the single
glyph `[]` (after the two leading newlines), so that the whole output is the count line and
that drawing; `N_OminosGenerate(4)` yields 19 shapes. -/
theorem C3_one_and_four :
    (∃ s, N_OminosCollection 1 = .ok [s] ∧ s.Draw = .ok "\n\n[]\n") ∧
    N_OminosGenerate 1 = .ok (1, "n_ominoes = 1\n\n\n[]\n") ∧
    Except.map List.length (N_OminosCollection 4) = .ok 19 := by
  refine ⟨⟨⟨⟨128⟩, ⟨0, 0⟩, ⟨0, 0⟩, ⟨0, 0⟩, 0⟩, by decide!, by decide!⟩, by decide!, by decide!⟩

/-! ### `Set` and `Get` on wrapped coordinates -/

theorem wrap_eq_iff (a b : Int) : wrap a = wrap b ↔ (a - b) % 8 = 0 := by
  unfold wrap; omega

/-- C11, as stated, fails: `Set` at the point `(-9, 0)` of the empty grid is undefined, because
`Grid8x8::Normalize(-9)` is `(8 + -9) % 8 = -1`, a negative shift count for `0x80 >> pt.x`. -/
theorem C11_counterexample :
    ¬ (∀ (g : Grid8x8) (p q : POINT), ∃ g', g.Set p = .ok g' ∧
        (g'.Get q = .ok true ↔
          ((q.x - p.x) % 8 = 0 ∧ (q.y - p.y) % 8 = 0) ∨ g.Get q = .ok true) ∧
        g'.Set p = .ok g') := by
  intro h
  obtain ⟨g', h1, _⟩ := h Grid8x8.init ⟨-9, 0⟩ ⟨0, 0⟩
  have e : Grid8x8.init.Set ⟨-9, 0⟩ = .error .undefinedBehaviour := by decide
  rw [e] at h1
  cases h1

/-- C11, amended. On every point with both coordinates from -8 upwards (and small enough for
`8 + i` not to overflow an `int`), `Grid8x8::Set` and `Grid8x8::Get` succeed and address the cell
`(x mod 8, y mod 8)`: after `Set(p)`, `Get(q)` is true iff `q` is congruent to `p` mod 8 on both
axes or `Get(q)` was true before, and `Set(p)` applied twice equals `Set(p)` applied once. -/
theorem C11_Set_Get_wrap (g : Grid8x8) (p q : POINT)
    (hpx : -8 ≤ p.x ∧ p.x ≤ 2 ^ 31 - 9) (hpy : -8 ≤ p.y ∧ p.y ≤ 2 ^ 31 - 9)
    (hqx : -8 ≤ q.x ∧ q.x ≤ 2 ^ 31 - 9) (hqy : -8 ≤ q.y ∧ q.y ≤ 2 ^ 31 - 9) :
    ∃ g', g.Set p = .ok g' ∧
      (∃ b, g.Get q = .ok b) ∧ (∃ b, g'.Get q = .ok b) ∧
      (g'.Get q = .ok true ↔
        ((q.x - p.x) % 8 = 0 ∧ (q.y - p.y) % 8 = 0) ∨ g.Get q = .ok true) ∧
      g'.Set p = .ok g' := by
  refine ⟨_, Set_eq g p hpx.1 hpy.1, ⟨_, Get_eq g q hqx.1 hqy.1⟩, ⟨_, Get_eq _ q hqx.1 hqy.1⟩,
    ?_, ?_⟩
  · rw [Get_eq _ q hqx.1 hqy.1, Get_eq g q hqx.1 hqy.1,
      bit_or_two_pow g _ _ _ _ (wrap_lt _) (wrap_lt _), ← wrap_eq_iff, ← wrap_eq_iff]
    constructor
    · intro h
      have h' := Except.ok.inj h
      simp only [Bool.or_eq_true, decide_eq_true_eq] at h'
      rcases h' with h' | h'
      · exact Or.inr (by rw [h'])
      · exact Or.inl h'
    · intro h
      congr 1
      simp only [Bool.or_eq_true, decide_eq_true_eq]
      rcases h with h | h
      · exact Or.inr h
      · exact Or.inl (Except.ok.inj h)
  · rw [Set_eq _ p hpx.1 hpy.1]
    simp only [Nat.or_assoc, Nat.or_self]

theorem C11_witness :
    ∃ g', (⟨0x80⟩ : Grid8x8).Set ⟨-8, 15⟩ = .ok g' ∧
      (∃ b, (⟨0x80⟩ : Grid8x8).Get ⟨8, -1⟩ = .ok b) ∧ (∃ b, g'.Get ⟨8, -1⟩ = .ok b) ∧
      (g'.Get ⟨8, -1⟩ = .ok true ↔
        (((8 : Int) - (-8)) % 8 = 0 ∧ ((-1 : Int) - 15) % 8 = 0)
          ∨ (⟨0x80⟩ : Grid8x8).Get ⟨8, -1⟩ = .ok true) ∧
      g'.Set ⟨-8, 15⟩ = .ok g' :=
  C11_Set_Get_wrap ⟨0x80⟩ ⟨-8, 15⟩ ⟨8, -1⟩ (by decide) (by decide) (by decide) (by decide)

/-! ### `Add` and `Normalize` of a shape -/

theorem west_cell_aliases :
    (⟨⟨128⟩, ⟨0, 0⟩, ⟨0, 0⟩, ⟨0, 0⟩, 3⟩ : N_Omino).Add kVecWest
      = .ok (true, ⟨⟨129⟩, ⟨0, 0⟩, ⟨-1, 0⟩, ⟨0, 0⟩, 2⟩) ∧
    N_Omino.FollowWest^[10] ⟨⟨129⟩, ⟨0, 0⟩, ⟨-1, 0⟩, ⟨0, 0⟩, 2⟩
      = ⟨⟨129⟩, ⟨-10, 0⟩, ⟨-1, 0⟩, ⟨0, 0⟩, 2⟩ ∧
    (⟨129⟩ : Grid8x8).Get ⟨(-9) % 8, 0 % 8⟩ = .ok true ∧
    Grid8x8.Normalize (-9) = -1 := by
  refine ⟨by decide, by decide, by decide, by decide⟩

/-- C12, as stated, fails. Take `N_Omino(4)`, `AddWest()` (which sets cell `(7, 0)`, the cell
of the point `(-1, 0)`) and ten `FollowWest()`: the cursor is `(-10, 0)`. For `AddEast()` the
cell at cursor + east is the cell of `(-9, 0)`, again `(7, 0)`: it is occupied, so the claim
wants `false` and an unchanged shape. But `Grid8x8::Normalize(-9)` is `(8 + -9) % 8 = -1`, so
`Get` shifts `0x80` by a negative count instead of reading cell `(7, 0)`: `Add` does not return
`false` with the shape unchanged. -/
theorem C12_counterexample :
    ¬ (∀ (s : N_Omino) (v : VECT), IsUnit v → ∃ flag s', s.Add v = .ok (flag, s') ∧
        (flag = false ↔
          (s._grid.Get ⟨(s._pos.add v).x % 8, (s._pos.add v).y % 8⟩ = .ok true
            ∨ s._squaresLeft < 1)) ∧
        (flag = false → s' = s)) := by
  intro h
  obtain ⟨flag, s', h1, _⟩ :=
    h (N_Omino.FollowWest^[10] ⟨⟨129⟩, ⟨0, 0⟩, ⟨-1, 0⟩, ⟨0, 0⟩, 2⟩) kVecEast unit_E
  have e : (N_Omino.FollowWest^[10] ⟨⟨129⟩, ⟨0, 0⟩, ⟨-1, 0⟩, ⟨0, 0⟩, 2⟩).Add kVecEast
      = .error .undefinedBehaviour := by decide
  rw [e] at h1
  cases h1

theorem cell_mod (i : Int) : wrap (i % 8) = wrap i := by
  unfold wrap; omega

/-- C12, amended. For every shape and every direction (indeed every vector) `d` such that the
point `cursor + d` has both coordinates from -8 upwards and at most `2^31 - 9` (so that `8 + i`
does not overflow an `int`), `N_Omino::Add` returns false exactly when the cell of that point,
the grid cell `(x mod 8, y mod 8)` that `Get` reads, is already occupied or `_squaresLeft < 1`,
and then the shape (grid, cursor, bounding box, squares left) is unchanged; in every other case
it returns true. -/
theorem C12_Add_collision (s : N_Omino) (v : VECT)
    (hx : -8 ≤ (s._pos.add v).x ∧ (s._pos.add v).x ≤ 2 ^ 31 - 9)
    (hy : -8 ≤ (s._pos.add v).y ∧ (s._pos.add v).y ≤ 2 ^ 31 - 9) :
    ∃ flag s', s.Add v = .ok (flag, s') ∧
      (flag = false ↔
        (s._grid.Get ⟨(s._pos.add v).x % 8, (s._pos.add v).y % 8⟩ = .ok true
          ∨ s._squaresLeft < 1)) ∧
      s._grid.Get (s._pos.add v)
        = s._grid.Get ⟨(s._pos.add v).x % 8, (s._pos.add v).y % 8⟩ ∧
      (flag = false → s' = s) := by
  have hcell : s._grid.Get (s._pos.add v)
      = s._grid.Get ⟨(s._pos.add v).x % 8, (s._pos.add v).y % 8⟩ := by
    rw [Get_eq _ _ hx.1 hy.1, Get_eq _ _ (by simp only; omega) (by simp only; omega)]
    simp only [cell_mod]
  rw [← hcell, Add_spec s v hx.1 hy.1, Get_eq _ _ hx.1 hy.1]
  by_cases hc : s._grid.bit (wrap (s._pos.add v).x) (wrap (s._pos.add v).y) = true
      ∨ s._squaresLeft < 1
  · rw [if_pos hc]
    refine ⟨false, s, rfl, ?_, rfl, fun _ => rfl⟩
    constructor
    · intro _
      rcases hc with h | h
      · exact Or.inl (by rw [h])
      · exact Or.inr h
    · intro _; rfl
  · rw [if_neg hc]
    refine ⟨true, _, rfl, ?_, rfl, fun h => by cases h⟩
    constructor
    · intro h; cases h
    · intro h
      exfalso; apply hc
      rcases h with h | h
      · exact Or.inl (Except.ok.inj h)
      · exact Or.inr h

theorem C12_witness :
    ∃ flag s', (⟨⟨129⟩, ⟨0, 0⟩, ⟨-1, 0⟩, ⟨0, 0⟩, 2⟩ : N_Omino).Add kVecWest = .ok (flag, s') ∧
      (flag = false ↔
        ((⟨⟨129⟩, ⟨0, 0⟩, ⟨-1, 0⟩, ⟨0, 0⟩, 2⟩ : N_Omino)._grid.Get
            ⟨((⟨⟨129⟩, ⟨0, 0⟩, ⟨-1, 0⟩, ⟨0, 0⟩, 2⟩ : N_Omino)._pos.add kVecWest).x % 8,
             ((⟨⟨129⟩, ⟨0, 0⟩, ⟨-1, 0⟩, ⟨0, 0⟩, 2⟩ : N_Omino)._pos.add kVecWest).y % 8⟩
              = .ok true
          ∨ (⟨⟨129⟩, ⟨0, 0⟩, ⟨-1, 0⟩, ⟨0, 0⟩, 2⟩ : N_Omino)._squaresLeft < 1)) ∧
      (⟨⟨129⟩, ⟨0, 0⟩, ⟨-1, 0⟩, ⟨0, 0⟩, 2⟩ : N_Omino)._grid.Get
          ((⟨⟨129⟩, ⟨0, 0⟩, ⟨-1, 0⟩, ⟨0, 0⟩, 2⟩ : N_Omino)._pos.add kVecWest)
        = (⟨⟨129⟩, ⟨0, 0⟩, ⟨-1, 0⟩, ⟨0, 0⟩, 2⟩ : N_Omino)._grid.Get
            ⟨((⟨⟨129⟩, ⟨0, 0⟩, ⟨-1, 0⟩, ⟨0, 0⟩, 2⟩ : N_Omino)._pos.add kVecWest).x % 8,
             ((⟨⟨129⟩, ⟨0, 0⟩, ⟨-1, 0⟩, ⟨0, 0⟩, 2⟩ : N_Omino)._pos.add kVecWest).y % 8⟩ ∧
      (flag = false → s' = ⟨⟨129⟩, ⟨0, 0⟩, ⟨-1, 0⟩, ⟨0, 0⟩, 2⟩) :=
  C12_Add_collision ⟨⟨129⟩, ⟨0, 0⟩, ⟨-1, 0⟩, ⟨0, 0⟩, 2⟩ kVecWest (by decide) (by decide)

/-- C13. When `N_Omino::Add` succeeds for the vector `d` from cursor `c` (coordinates of `c + d`
in `-8..7`): the cell `c + d` becomes occupied and every other grid cell keeps its value, the
cursor is still `c`, `_squaresLeft` decreases by exactly 1, and the bounding box becomes the
componentwise minimum / maximum of the old corners and `c + d`. -/
theorem C13_Add_effect (s s' : N_Omino) (v : VECT)
    (hx : -8 ≤ (s._pos.add v).x ∧ (s._pos.add v).x ≤ 7)
    (hy : -8 ≤ (s._pos.add v).y ∧ (s._pos.add v).y ≤ 7)
    (hadd : s.Add v = .ok (true, s')) :
    s'._grid.Get (s._pos.add v) = .ok true ∧
    (∀ x y : Int, 0 ≤ x → x ≤ 7 → 0 ≤ y → y ≤ 7 →
      ¬ ((x - (s._pos.add v).x) % 8 = 0 ∧ (y - (s._pos.add v).y) % 8 = 0) →
      s'._grid.Get ⟨x, y⟩ = s._grid.Get ⟨x, y⟩) ∧
    s'._pos = s._pos ∧
    s'._squaresLeft = s._squaresLeft - 1 ∧
    s'._extent1 = ⟨min (s._pos.add v).x s._extent1.x, min (s._pos.add v).y s._extent1.y⟩ ∧
    s'._extent2 = ⟨max (s._pos.add v).x s._extent2.x, max (s._pos.add v).y s._extent2.y⟩ := by
  rw [Add_spec s v hx.1 hy.1] at hadd
  by_cases hc : s._grid.bit (wrap (s._pos.add v).x) (wrap (s._pos.add v).y) = true
      ∨ s._squaresLeft < 1
  · rw [if_pos hc] at hadd
    have := Except.ok.inj hadd
    simp at this
  · rw [if_neg hc] at hadd
    have e : s' = s.added v := ((Prod.mk.inj (Except.ok.inj hadd)).2).symm
    subst e
    refine ⟨?_, ?_, rfl, rfl, rfl, rfl⟩
    · rw [Get_eq _ _ hx.1 hy.1, added_bit _ _ _ _ (wrap_lt _)]
      simp
    · intro x y hx0 hx7 hy0 hy7 hne
      rw [Get_eq _ _ (by simp only; omega) (by simp only; omega),
        Get_eq _ _ (by simp only; omega) (by simp only; omega), added_bit _ _ _ _ (wrap_lt _)]
      rw [← wrap_eq_iff, ← wrap_eq_iff] at hne
      rw [decide_eq_false hne, Bool.or_false]

theorem C13_witness :
    (⟨⟨0xC0⟩, ⟨0, 0⟩, ⟨0, 0⟩, ⟨1, 0⟩, 2⟩ : N_Omino)._grid.Get
        ((⟨⟨128⟩, ⟨0, 0⟩, ⟨0, 0⟩, ⟨0, 0⟩, 3⟩ : N_Omino)._pos.add kVecEast) = .ok true ∧
    (∀ x y : Int, 0 ≤ x → x ≤ 7 → 0 ≤ y → y ≤ 7 →
      ¬ ((x - ((⟨⟨128⟩, ⟨0, 0⟩, ⟨0, 0⟩, ⟨0, 0⟩, 3⟩ : N_Omino)._pos.add kVecEast).x) % 8 = 0 ∧
         (y - ((⟨⟨128⟩, ⟨0, 0⟩, ⟨0, 0⟩, ⟨0, 0⟩, 3⟩ : N_Omino)._pos.add kVecEast).y) % 8 = 0) →
      (⟨⟨0xC0⟩, ⟨0, 0⟩, ⟨0, 0⟩, ⟨1, 0⟩, 2⟩ : N_Omino)._grid.Get ⟨x, y⟩
        = (⟨⟨128⟩, ⟨0, 0⟩, ⟨0, 0⟩, ⟨0, 0⟩, 3⟩ : N_Omino)._grid.Get ⟨x, y⟩) ∧
    (⟨⟨0xC0⟩, ⟨0, 0⟩, ⟨0, 0⟩, ⟨1, 0⟩, 2⟩ : N_Omino)._pos
      = (⟨⟨128⟩, ⟨0, 0⟩, ⟨0, 0⟩, ⟨0, 0⟩, 3⟩ : N_Omino)._pos ∧
    (⟨⟨0xC0⟩, ⟨0, 0⟩, ⟨0, 0⟩, ⟨1, 0⟩, 2⟩ : N_Omino)._squaresLeft
      = (⟨⟨128⟩, ⟨0, 0⟩, ⟨0, 0⟩, ⟨0, 0⟩, 3⟩ : N_Omino)._squaresLeft - 1 ∧
    (⟨⟨0xC0⟩, ⟨0, 0⟩, ⟨0, 0⟩, ⟨1, 0⟩, 2⟩ : N_Omino)._extent1
      = ⟨min ((⟨⟨128⟩, ⟨0, 0⟩, ⟨0, 0⟩, ⟨0, 0⟩, 3⟩ : N_Omino)._pos.add kVecEast).x
            (⟨⟨128⟩, ⟨0, 0⟩, ⟨0, 0⟩, ⟨0, 0⟩, 3⟩ : N_Omino)._extent1.x,
         min ((⟨⟨128⟩, ⟨0, 0⟩, ⟨0, 0⟩, ⟨0, 0⟩, 3⟩ : N_Omino)._pos.add kVecEast).y
            (⟨⟨128⟩, ⟨0, 0⟩, ⟨0, 0⟩, ⟨0, 0⟩, 3⟩ : N_Omino)._extent1.y⟩ ∧
    (⟨⟨0xC0⟩, ⟨0, 0⟩, ⟨0, 0⟩, ⟨1, 0⟩, 2⟩ : N_Omino)._extent2
      = ⟨max ((⟨⟨128⟩, ⟨0, 0⟩, ⟨0, 0⟩, ⟨0, 0⟩, 3⟩ : N_Omino)._pos.add kVecEast).x
            (⟨⟨128⟩, ⟨0, 0⟩, ⟨0, 0⟩, ⟨0, 0⟩, 3⟩ : N_Omino)._extent2.x,
         max ((⟨⟨128⟩, ⟨0, 0⟩, ⟨0, 0⟩, ⟨0, 0⟩, 3⟩ : N_Omino)._pos.add kVecEast).y
            (⟨⟨128⟩, ⟨0, 0⟩, ⟨0, 0⟩, ⟨0, 0⟩, 3⟩ : N_Omino)._extent2.y⟩ :=
  C13_Add_effect ⟨⟨128⟩, ⟨0, 0⟩, ⟨0, 0⟩, ⟨0, 0⟩, 3⟩ ⟨⟨0xC0⟩, ⟨0, 0⟩, ⟨0, 0⟩, ⟨1, 0⟩, 2⟩ kVecEast
    (by decide) (by decide) (by decide)

theorem Translate_ok_range (g g2 : Grid8x8) (vec : VECT) (h : g.Translate vec = .ok g2) :
    0 ≤ vec.dx ∧ vec.dx ≤ 7 ∧ 0 ≤ vec.dy ∧ vec.dy ≤ 7 := by
  unfold Grid8x8.Translate at h
  by_cases hx : 0 ≤ vec.dx ∧ vec.dx ≤ 7
  · by_cases hy : 0 ≤ 8 * vec.dy ∧ 8 * vec.dy ≤ 63
    · omega
    · exfalso
      split at h
      · unfold LeftRotate64 at h
        rw [if_neg hy] at h
        simp at h
      · simp at h
  · exfalso
    rw [Grid8x8.TranslateRows] at h
    unfold RightRotate8 at h
    rw [if_neg hx] at h
    simp at h

theorem Translate_zero (g : Grid8x8) (hg : g.ui64 < 2 ^ 64) : g.Translate ⟨0, 0⟩ = .ok g := by
  obtain ⟨g2, h2, hlt, hb⟩ := Translate_spec g ⟨0, 0⟩ hg (by decide) (by decide) (by decide)
    (by decide)
  rw [h2]
  congr 1
  apply grid_ext g2 g hlt hg
  intro x y hx hy
  have := hb x y hx hy
  simp only [Int.toNat_zero, Nat.add_zero] at this
  rwa [Nat.mod_eq_of_lt hx, Nat.mod_eq_of_lt hy] at this

/-- C14. `N_Omino::Normalize` is idempotent: applied to a shape whose bounding box has its
minimum corner at `(0, 0)` it changes nothing (grid, bounding box and the other members), and
this is the case of every shape `Normalize` has just been applied to. -/
theorem C14_Normalize_idempotent (s t : N_Omino) (hg : s._grid.ui64 < 2 ^ 64) :
    (s._extent1 = ⟨0, 0⟩ → s.Normalize = .ok s) ∧
    (s.Normalize = .ok t → t._extent1 = ⟨0, 0⟩ ∧ t.Normalize = .ok t) := by
  have key : ∀ u : N_Omino, u._grid.ui64 < 2 ^ 64 → u._extent1 = ⟨0, 0⟩ → u.Normalize = .ok u := by
    intro u hu h0
    unfold N_Omino.Normalize
    simp only [h0, neg_zero, sub_zero]
    rw [show (⟨0, 0⟩ : VECT) = ⟨0, 0⟩ from rfl, Translate_zero _ hu]
    simp only
    congr 1
    cases u
    simp_all
  refine ⟨key s hg, ?_⟩
  intro h
  unfold N_Omino.Normalize at h
  simp only at h
  cases hT : s._grid.Translate ⟨-s._extent1.x, -s._extent1.y⟩ with
  | error e => rw [hT] at h; simp at h
  | ok g2 =>
    rw [hT] at h
    simp only at h
    have ht := Except.ok.inj h
    have hr := Translate_ok_range _ _ _ hT
    obtain ⟨g3, h3, hlt, _⟩ := Translate_spec s._grid ⟨-s._extent1.x, -s._extent1.y⟩ hg
      hr.1 hr.2.1 hr.2.2.1 hr.2.2.2
    rw [hT] at h3
    have e3 : g2 = g3 := Except.ok.inj h3
    have h1 : t._extent1 = ⟨0, 0⟩ := by rw [← ht]
    have h2 : t._grid.ui64 < 2 ^ 64 := by rw [← ht]; simp only; rw [e3]; exact hlt
    exact ⟨h1, key t h2 h1⟩

theorem C14_witness :
    (⟨⟨0x80C0⟩, ⟨0, -1⟩, ⟨0, 0⟩, ⟨1, 1⟩, 0⟩ : N_Omino).Normalize
        = .ok ⟨⟨0x80C0⟩, ⟨0, -1⟩, ⟨0, 0⟩, ⟨1, 1⟩, 0⟩ ∧
    (⟨⟨32896⟩, ⟨0, -1⟩, ⟨0, 0⟩, ⟨0, 1⟩, 0⟩ : N_Omino)._extent1 = ⟨0, 0⟩ ∧
    (⟨⟨32896⟩, ⟨0, -1⟩, ⟨0, 0⟩, ⟨0, 1⟩, 0⟩ : N_Omino).Normalize
        = .ok ⟨⟨32896⟩, ⟨0, -1⟩, ⟨0, 0⟩, ⟨0, 1⟩, 0⟩ :=
  ⟨(C14_Normalize_idempotent ⟨⟨0x80C0⟩, ⟨0, -1⟩, ⟨0, 0⟩, ⟨1, 1⟩, 0⟩
      ⟨⟨0x80C0⟩, ⟨0, -1⟩, ⟨0, 0⟩, ⟨1, 1⟩, 0⟩ (by decide)).1 rfl,
   (C14_Normalize_idempotent ⟨⟨9223372036854775936⟩, ⟨0, -1⟩, ⟨0, -1⟩, ⟨0, 0⟩, 0⟩
      ⟨⟨32896⟩, ⟨0, -1⟩, ⟨0, 0⟩, ⟨0, 1⟩, 0⟩ (by decide)).2 (by decide)⟩

/-! ### The call relation of the search -/

theorem Add_true {s s' : N_Omino} {v : VECT} (h : s.Add v = .ok (true, s')) :
    s'._squaresLeft = s._squaresLeft - 1 ∧ 1 ≤ s._squaresLeft ∧ s'._pos = s._pos := by
  unfold N_Omino.Add at h
  simp only at h
  cases hG : s._grid.Get (s._pos.add v) with
  | error e => rw [hG] at h; simp at h
  | ok occ =>
    rw [hG] at h
    simp only at h
    by_cases hc : (occ || decide (s._squaresLeft < 1)) = true
    · rw [if_pos hc] at h; simp at h
    · rw [if_neg hc] at h
      cases hS : s._grid.Set (s._pos.add v) with
      | error e => rw [hS] at h; simp at h
      | ok g =>
        rw [hS] at h
        simp only [Except.ok.injEq, Prod.mk.injEq, true_and] at h
        subst h
        simp only [Bool.or_eq_true, decide_eq_true_eq, not_or, not_lt] at hc
        exact ⟨rfl, hc.2, rfl⟩

theorem Add_false {s s' : N_Omino} {v : VECT} (h : s.Add v = .ok (false, s')) : s' = s := by
  unfold N_Omino.Add at h
  simp only at h
  cases hG : s._grid.Get (s._pos.add v) with
  | error e => rw [hG] at h; simp at h
  | ok occ =>
    rw [hG] at h
    simp only at h
    by_cases hc : (occ || decide (s._squaresLeft < 1)) = true
    · rw [if_pos hc] at h
      simp only [Except.ok.injEq, Prod.mk.injEq, true_and] at h
      exact h.symm
    · rw [if_neg hc] at h
      cases hS : s._grid.Set (s._pos.add v) with
      | error e => rw [hS] at h; simp at h
      | ok g => rw [hS] at h; simp at h

/-- What `AddIf` does to the working copy, whatever the shape. -/
theorem AddIf_cases (combo dir : Nat) (v : VECT) (cur : Except Fault (Option N_Omino))
    (s1 : N_Omino) (h : AddIf combo dir v cur = .ok (some s1)) :
    ∃ s0, cur = .ok (some s0) ∧
      (((combo &&& dir != 0) = true ∧ s0.Add v = .ok (true, s1)) ∨
       ((combo &&& dir != 0) = false ∧ s1 = s0)) := by
  unfold AddIf at h
  match cur, h with
  | .error e, h => simp at h
  | .ok none, h => simp at h
  | .ok (some s0), h =>
    refine ⟨s0, rfl, ?_⟩
    simp only at h
    by_cases hc : (combo &&& dir != 0) = true
    · rw [if_pos hc] at h
      left
      refine ⟨hc, ?_⟩
      match hA : s0.Add v, h with
      | .error e, h => simp at h
      | .ok (true, s2), h =>
        simp only [Except.ok.injEq, Option.some.injEq] at h
        rw [h]
      | .ok (false, s2), h => simp at h
    · rw [if_neg hc] at h
      right
      simp only [Except.ok.injEq, Option.some.injEq] at h
      exact ⟨by simpa using hc, h.symm⟩

/-- The copy left by the guarded `Add`s of a table entry: the four steps, each one a successful
`Add` if its direction is in the entry and nothing otherwise. -/
theorem AddCombo_cases (combo : Nat) (s s' : N_Omino) (h : AddCombo combo s = .ok (some s')) :
    ∃ s1 s2 s3,
      (((combo &&& DIR_N != 0) = true ∧ s.Add kVecNorth = .ok (true, s1)) ∨
        ((combo &&& DIR_N != 0) = false ∧ s1 = s)) ∧
      (((combo &&& DIR_E != 0) = true ∧ s1.Add kVecEast = .ok (true, s2)) ∨
        ((combo &&& DIR_E != 0) = false ∧ s2 = s1)) ∧
      (((combo &&& DIR_S != 0) = true ∧ s2.Add kVecSouth = .ok (true, s3)) ∨
        ((combo &&& DIR_S != 0) = false ∧ s3 = s2)) ∧
      (((combo &&& DIR_W != 0) = true ∧ s3.Add kVecWest = .ok (true, s')) ∨
        ((combo &&& DIR_W != 0) = false ∧ s' = s3)) := by
  unfold AddCombo at h
  obtain ⟨s3, h3, c4⟩ := AddIf_cases _ _ _ _ _ h
  obtain ⟨s2, h2, c3⟩ := AddIf_cases _ _ _ _ _ h3
  obtain ⟨s1, h1, c2⟩ := AddIf_cases _ _ _ _ _ h2
  obtain ⟨s0, h0, c1⟩ := AddIf_cases _ _ _ _ _ h1
  simp only [Except.ok.injEq, Option.some.injEq] at h0
  subst h0
  exact ⟨s1, s2, s3, c1, c2, c3, c4⟩

/-- A property kept by every successful `Add` is kept by the guarded `Add`s of a table entry. -/
theorem AddCombo_preserves (P : N_Omino → Prop) (hP : ∀ a b, P a → AddStep a b → P b)
    (combo : Nat) (s s' : N_Omino) (hs : P s) (h : AddCombo combo s = .ok (some s')) : P s' := by
  obtain ⟨s1, s2, s3, c1, c2, c3, c4⟩ := AddCombo_cases combo s s' h
  have p1 : P s1 := by
    rcases c1 with ⟨_, h⟩ | ⟨_, h⟩
    · exact hP _ _ hs ⟨_, unit_N, h⟩
    · rw [h]; exact hs
  have p2 : P s2 := by
    rcases c2 with ⟨_, h⟩ | ⟨_, h⟩
    · exact hP _ _ p1 ⟨_, unit_E, h⟩
    · rw [h]; exact p1
  have p3 : P s3 := by
    rcases c3 with ⟨_, h⟩ | ⟨_, h⟩
    · exact hP _ _ p2 ⟨_, unit_S, h⟩
    · rw [h]; exact p2
  rcases c4 with ⟨_, h⟩ | ⟨_, h⟩
  · exact hP _ _ p3 ⟨_, unit_W, h⟩
  · rw [h]; exact p3

theorem mem_allDirs (d : Nat × VECT) (hd : d ∈ allDirs) :
    d = (DIR_W, kVecWest) ∨ d = (DIR_S, kVecSouth) ∨ d = (DIR_E, kVecEast)
      ∨ d = (DIR_N, kVecNorth) := by
  simpa [allDirs] using hd

/-- Squares left after the guarded `Add`s of a table entry: never more than before, and fewer
(yet not negative) as soon as one direction is in the entry. -/
theorem AddCombo_left (combo : Nat) (s s' : N_Omino) (h : AddCombo combo s = .ok (some s')) :
    s'._squaresLeft ≤ s._squaresLeft ∧ s'._pos = s._pos ∧
    ∀ d ∈ allDirs, (combo &&& d.1 != 0) = true →
      0 ≤ s'._squaresLeft ∧ s'._squaresLeft < s._squaresLeft := by
  obtain ⟨s1, s2, s3, c1, c2, c3, c4⟩ := AddCombo_cases combo s s' h
  have q1 : s1._squaresLeft ≤ s._squaresLeft ∧ s1._pos = s._pos ∧
      ((combo &&& DIR_N != 0) = true → 0 ≤ s1._squaresLeft ∧ s1._squaresLeft < s._squaresLeft) := by
    rcases c1 with ⟨hc, h⟩ | ⟨hc, h⟩
    · have := Add_true h; exact ⟨by omega, this.2.2, fun _ => by omega⟩
    · subst h; exact ⟨le_refl _, rfl, fun h' => by rw [hc] at h'; cases h'⟩
  have q2 : s2._squaresLeft ≤ s1._squaresLeft ∧ s2._pos = s1._pos ∧
      ((combo &&& DIR_E != 0) = true → 0 ≤ s2._squaresLeft ∧ s2._squaresLeft < s1._squaresLeft) := by
    rcases c2 with ⟨hc, h⟩ | ⟨hc, h⟩
    · have := Add_true h; exact ⟨by omega, this.2.2, fun _ => by omega⟩
    · subst h; exact ⟨le_refl _, rfl, fun h' => by rw [hc] at h'; cases h'⟩
  have q3 : s3._squaresLeft ≤ s2._squaresLeft ∧ s3._pos = s2._pos ∧
      ((combo &&& DIR_S != 0) = true → 0 ≤ s3._squaresLeft ∧ s3._squaresLeft < s2._squaresLeft) := by
    rcases c3 with ⟨hc, h⟩ | ⟨hc, h⟩
    · have := Add_true h; exact ⟨by omega, this.2.2, fun _ => by omega⟩
    · subst h; exact ⟨le_refl _, rfl, fun h' => by rw [hc] at h'; cases h'⟩
  have q4 : s'._squaresLeft ≤ s3._squaresLeft ∧ s'._pos = s3._pos ∧
      ((combo &&& DIR_W != 0) = true → 0 ≤ s'._squaresLeft ∧ s'._squaresLeft < s3._squaresLeft) := by
    rcases c4 with ⟨hc, h⟩ | ⟨hc, h⟩
    · have := Add_true h; exact ⟨by omega, this.2.2, fun _ => by omega⟩
    · subst h; exact ⟨le_refl _, rfl, fun h' => by rw [hc] at h'; cases h'⟩
  refine ⟨by omega, by rw [q4.2.1, q3.2.1, q2.2.1, q1.2.1], ?_⟩
  intro d hd hc
  -- once one step has decreased the count (staying non-negative), the later ones keep it so
  have n1 : ∀ x : N_Omino, ∀ y : N_Omino, ∀ dirbit : Nat, ∀ vv : VECT,
      (((combo &&& dirbit != 0) = true ∧ x.Add vv = .ok (true, y)) ∨
        ((combo &&& dirbit != 0) = false ∧ y = x)) → 0 ≤ x._squaresLeft → 0 ≤ y._squaresLeft := by
    intro x y _ _ hxy hx
    rcases hxy with ⟨_, h⟩ | ⟨_, h⟩
    · have := Add_true h; omega
    · rw [h]; exact hx
  rcases mem_allDirs d hd with h | h | h | h <;> subst h <;> simp only at hc
  · have := q4.2.2 hc; omega
  · have a := q3.2.2 hc
    have b := n1 _ _ _ _ c4 a.1
    omega
  · have a := q2.2.2 hc
    have b := n1 _ _ _ _ c3 a.1
    have c := n1 _ _ _ _ c4 b
    omega
  · have a := q1.2.2 hc
    have b := n1 _ _ _ _ c2 a.1
    have c := n1 _ _ _ _ c3 b
    have e := n1 _ _ _ _ c4 c
    omega

/-- Every recursive call is on a shape with fewer squares left than the caller, and not fewer
than none. -/
theorem Calls_left {s t : N_Omino} (h : Calls s t) :
    0 ≤ t._squaresLeft ∧ t._squaresLeft < s._squaresLeft := by
  obtain ⟨_, dc, _, s', hs', d, hd, hc, ht⟩ := h
  subst ht
  exact (AddCombo_left dc.combo s s' hs').2.2 d hd hc

/-! ### Where the stored shapes come from -/

theorem FollowIf_leaves {recurse : List N_Omino → N_Omino → Except Fault (List N_Omino)}
    {P : N_Omino → Prop} (combo dir : Nat) (v : VECT) (s' : N_Omino)
    (hrec : (combo &&& dir != 0) = true → ∀ acc out, recurse acc (s'.Follow v) = .ok out →
      ∃ new, out = acc ++ new ∧ ∀ u ∈ new, P u)
    (base : List N_Omino) (acc : Except Fault (List N_Omino))
    (hacc : ∀ l, acc = .ok l → ∃ new, l = base ++ new ∧ ∀ u ∈ new, P u)
    (out : List N_Omino) (h : FollowIf recurse combo dir v s' acc = .ok out) :
    ∃ new, out = base ++ new ∧ ∀ u ∈ new, P u := by
  unfold FollowIf at h
  match acc, hacc, h with
  | .error e, _, h => simp at h
  | .ok l, hacc, h =>
    obtain ⟨new, hl, hP⟩ := hacc l rfl
    simp only at h
    by_cases hc : (combo &&& dir != 0) = true
    · rw [if_pos hc] at h
      obtain ⟨new2, h2, hP2⟩ := hrec hc l out h
      refine ⟨new ++ new2, by rw [h2, hl, List.append_assoc], ?_⟩
      intro u hu
      rcases List.mem_append.mp hu with h | h
      · exact hP u h
      · exact hP2 u h
    · rw [if_neg hc] at h
      simp only [Except.ok.injEq] at h
      subst h
      exact ⟨new, hl, hP⟩

theorem GenerateLoop_leaves {recurse : List N_Omino → N_Omino → Except Fault (List N_Omino)}
    {P : N_Omino → Prop} (s : N_Omino) (hs : s.SquaresLeft ≠ 0)
    (hrec : ∀ t, Calls s t → ∀ acc out, recurse acc t = .ok out →
      ∃ new, out = acc ++ new ∧ ∀ u ∈ new, P u) :
    ∀ (table : List DIR_COMB), (∀ dc ∈ table, dc ∈ kDirComb) →
    ∀ (base acc out : List N_Omino), (∃ new, acc = base ++ new ∧ ∀ u ∈ new, P u) →
      GenerateLoop recurse s table acc = .ok out →
      ∃ new, out = base ++ new ∧ ∀ u ∈ new, P u := by
  intro table
  induction table with
  | nil =>
    intro _ base acc out hacc h
    rw [GenerateLoop] at h
    simp only [Except.ok.injEq] at h
    subst h; exact hacc
  | cons dc rest ih =>
    intro htab base acc out hacc h
    rw [GenerateLoop] at h
    have hrest : ∀ dc' ∈ rest, dc' ∈ kDirComb := fun dc' h' => htab dc' (List.mem_cons_of_mem _ h')
    match hA : AddCombo dc.combo s, h with
    | .error e, h => simp at h
    | .ok none, h => exact ih hrest base acc out hacc h
    | .ok (some s'), h =>
      simp only at h
      have call : ∀ d ∈ allDirs, (dc.combo &&& d.1 != 0) = true → Calls s (s'.Follow d.2) :=
        fun d hd hc => ⟨hs, dc, htab dc (List.mem_cons_self _ _), s', hA, d, hd, hc, rfl⟩
      match hF : FollowCombo recurse dc.combo s' acc, h with
      | .error e, h => simp at h
      | .ok l1, h =>
        simp only at h
        apply ih hrest base l1 out _ h
        unfold FollowCombo at hF
        apply FollowIf_leaves dc.combo DIR_W kVecWest s'
          (fun hc => hrec _ (call (DIR_W, kVecWest) (by simp [allDirs]) hc)) base _ _ l1 hF
        intro l3 h3
        apply FollowIf_leaves dc.combo DIR_S kVecSouth s'
          (fun hc => hrec _ (call (DIR_S, kVecSouth) (by simp [allDirs]) hc)) base _ _ l3 h3
        intro l2 h2
        apply FollowIf_leaves dc.combo DIR_E kVecEast s'
          (fun hc => hrec _ (call (DIR_E, kVecEast) (by simp [allDirs]) hc)) base _ _ l2 h2
        intro l1' h1
        apply FollowIf_leaves dc.combo DIR_N kVecNorth s'
          (fun hc => hrec _ (call (DIR_N, kVecNorth) (by simp [allDirs]) hc)) base _ _ l1' h1
        intro l0 h0
        simp only [Except.ok.injEq] at h0
        subst h0; exact hacc

/-- Whatever `N_OminosGenerateImp` appends to the collection is the canonical form of a complete
shape reached from its argument along the call relation. -/
theorem Imp_leaves : ∀ (fuel : Nat) (acc : List N_Omino) (s : N_Omino) (out : List N_Omino),
    N_OminosGenerateImp fuel acc s = .ok out → Leaves s acc out := by
  intro fuel
  induction fuel with
  | zero => intro acc s out h; rw [N_OminosGenerateImp] at h; simp at h
  | succ n ih =>
    intro acc s out h
    rw [N_OminosGenerateImp] at h
    by_cases h0 : s.SquaresLeft = 0
    · rw [if_pos h0] at h
      match hN : s.Normalize, h with
      | .error e, h => simp at h
      | .ok u, h =>
        simp only [Except.ok.injEq] at h
        subst h
        exact ⟨[u], rfl, fun u' hu' => by
          rw [List.mem_singleton.mp hu']
          exact ⟨s, Relation.ReflTransGen.refl, h0, hN⟩⟩
    · rw [if_neg h0] at h
      have := GenerateLoop_leaves
        (P := fun u => ∃ t, Relation.ReflTransGen Calls s t ∧ t.SquaresLeft = 0
          ∧ t.Normalize = .ok u) s h0
        (fun t ht acc' out' h' => by
          obtain ⟨new, hn, hP⟩ := ih acc' t out' h'
          refine ⟨new, hn, ?_⟩
          intro u hu
          obtain ⟨t', ht', h1, h2⟩ := hP u hu
          exact ⟨t', Relation.ReflTransGen.head ht ht', h1, h2⟩)
        kDirComb (fun _ h => h) acc acc out ⟨[], by simp, by simp⟩ h
      exact this

/-! ### The bounding box is tight -/

theorem Collection_eq_Search (N : Int) :
    N_OminosCollection N =
      match N_OminosSearch N with
      | .error e => .error e
      | .ok raw => .ok (unique (sort raw)) := by
  unfold N_OminosCollection N_OminosSearch
  cases N_Omino.init N with
  | error e => rfl
  | ok s => rfl

/-- A successful `Add` on a shape of the search is `added`, and the cell was free. -/
theorem Add_true_added {N : Int} (hN : N ≤ 7) {a b : N_Omino} {v : VECT} (hv : IsUnit v)
    (hI : Inv N a) (h : a.Add v = .ok (true, b)) :
    b = a.added v ∧
      ¬ (a._grid.bit (wrap (a._pos.add v).x) (wrap (a._pos.add v).y) = true
        ∨ a._squaresLeft < 1) := by
  have hb := hI.box_small hN
  have hcur := hI.cursor.1
  have hu := unit_cases hv
  unfold N_Omino.inBox at hcur
  rw [Add_spec a v (by unfold POINT.add; simp only; omega)
    (by unfold POINT.add; simp only; omega)] at h
  by_cases hc : a._grid.bit (wrap (a._pos.add v).x) (wrap (a._pos.add v).y) = true
      ∨ a._squaresLeft < 1
  · rw [if_pos hc] at h; simp at h
  · rw [if_neg hc] at h
    simp only [Except.ok.injEq, Prod.mk.injEq, true_and] at h
    exact ⟨h.symm, hc⟩

theorem Tight_added (s : N_Omino) (v : VECT) (h : s.Tight) : (s.added v).Tight := by
  obtain ⟨⟨p1, o1, e1⟩, ⟨p2, o2, e2⟩, ⟨p3, o3, e3⟩, ⟨p4, o4, e4⟩⟩ := h
  have hq := Occ_added_new s v
  have a1 := Occ_added s v p1 o1
  have a2 := Occ_added s v p2 o2
  have a3 := Occ_added s v p3 o3
  have a4 := Occ_added s v p4 o4
  refine ⟨?_, ?_, ?_, ?_⟩
  · by_cases c : (s._pos.add v).x ≤ s._extent1.x
    · exact ⟨_, hq, by unfold N_Omino.added; simp only; omega⟩
    · exact ⟨p1, a1, by unfold N_Omino.added; simp only; omega⟩
  · by_cases c : s._extent2.x ≤ (s._pos.add v).x
    · exact ⟨_, hq, by unfold N_Omino.added; simp only; omega⟩
    · exact ⟨p2, a2, by unfold N_Omino.added; simp only; omega⟩
  · by_cases c : (s._pos.add v).y ≤ s._extent1.y
    · exact ⟨_, hq, by unfold N_Omino.added; simp only; omega⟩
    · exact ⟨p3, a3, by unfold N_Omino.added; simp only; omega⟩
  · by_cases c : s._extent2.y ≤ (s._pos.add v).y
    · exact ⟨_, hq, by unfold N_Omino.added; simp only; omega⟩
    · exact ⟨p4, a4, by unfold N_Omino.added; simp only; omega⟩

theorem InvT_AddStep {N : Int} (hN : N ≤ 7) (a b : N_Omino) (h : InvT N a) (hab : AddStep a b) :
    InvT N b := by
  obtain ⟨v, hv, hadd⟩ := hab
  obtain ⟨e, hfree⟩ := Add_true_added hN hv h.1 hadd
  subst e
  exact ⟨Inv_added hN hv h.1 hfree, Tight_added a v h.2⟩

theorem InvT_AddAny {N : Int} (hN : N ≤ 7) (a b : N_Omino) (h : InvT N a) (hab : AddAny a b) :
    InvT N b := by
  obtain ⟨v, hv, flag, hadd⟩ := hab
  cases flag with
  | true => exact InvT_AddStep hN a b h ⟨v, hv, hadd⟩
  | false => rw [Add_false hadd]; exact h

theorem InvT_Calls {N : Int} (hN : N ≤ 7) {s t : N_Omino} (h : InvT N s) (hc : Calls s t) :
    InvT N t := by
  obtain ⟨_, dc, _, s', hs', d, hd, hcombo, ht⟩ := hc
  have hT := AddCombo_preserves (InvT N) (InvT_AddStep hN) dc.combo s s' h hs'
  rcases AddCombo_spec hN dc.combo h.1 with hm | ⟨s'', hm, _, hpos, _, hocc⟩
  · rw [hs'] at hm; simp at hm
  · rw [hs'] at hm
    simp only [Except.ok.injEq, Option.some.injEq] at hm
    subst hm
    subst ht
    have := (hocc d hd hcombo).1
    rw [← hpos] at this
    exact ⟨Inv_Follow hT.1 this, hT.2⟩

theorem init_eq (N : Int) :
    N_Omino.init N = .ok ⟨⟨128⟩, ⟨0, 0⟩, ⟨0, 0⟩, ⟨0, 0⟩, N - 1⟩ := by
  unfold N_Omino.init; rfl

theorem InvT_init (N : Int) (h1 : 1 ≤ N) (seed : N_Omino) (h : N_Omino.init N = .ok seed) :
    InvT N seed := by
  obtain ⟨s, hs, hI, _⟩ := Inv_init N h1
  rw [h] at hs
  simp only [Except.ok.injEq] at hs
  subst hs
  have hc := hI.cursor
  have e : seed = ⟨⟨128⟩, ⟨0, 0⟩, ⟨0, 0⟩, ⟨0, 0⟩, N - 1⟩ := by
    rw [init_eq] at h
    simp only [Except.ok.injEq] at h
    exact h.symm
  refine ⟨hI, ⟨seed._pos, hc, ?_⟩, ⟨seed._pos, hc, ?_⟩, ⟨seed._pos, hc, ?_⟩, ⟨seed._pos, hc, ?_⟩⟩ <;>
    rw [e]

/-- Every shape passed to `N_OminosGenerateImp` during `N_OminosGenerate(N)`, `N` in `1..7`,
satisfies the invariant and has a tight bounding box. -/
theorem Passed_InvT {N : Int} (h1 : 1 ≤ N) (h7 : N ≤ 7) {t : N_Omino} (h : Passed N t) :
    InvT N t := by
  obtain ⟨seed, hseed, hr⟩ := h
  induction hr with
  | refl => exact InvT_init N h1 seed hseed
  | tail _ hc ih => exact InvT_Calls h7 ih hc

/-- Every shape the search creates satisfies the invariant and has a tight bounding box. -/
theorem Work_InvT {N : Int} (h1 : 1 ≤ N) (h7 : N ≤ 7) {w : N_Omino} (h : Work N w) :
    InvT N w := by
  obtain ⟨s, hs, hr⟩ := h
  induction hr with
  | refl => exact Passed_InvT h1 h7 hs
  | tail _ hc ih => exact InvT_AddAny h7 _ _ ih hc

/-- The search of `N_OminosGenerate(N)`, `N` in `1..7`: it succeeds, the final collection is
its result sorted and made unique, and every shape it stores satisfies `Final` and is the
canonical form of a complete shape passed to `N_OminosGenerateImp`. -/
theorem Search_spec (N : Int) (h1 : 1 ≤ N) (h7 : N ≤ 7) :
    ∃ raw, N_OminosSearch N = .ok raw ∧ N_OminosCollection N = .ok (unique (sort raw)) ∧
      ∀ u ∈ raw, Final N u ∧
        ∃ t, Passed N t ∧ t.SquaresLeft = 0 ∧ t.Normalize = .ok u := by
  obtain ⟨s, hs, hI, hl⟩ := Inv_init N h1
  obtain ⟨out, hout, hF⟩ := Imp_spec h7 N.toNat [] s hI (by rw [hl]; omega)
  simp only [List.nil_append] at hout
  have hS : N_OminosSearch N = .ok out := by
    unfold N_OminosSearch; rw [hs]; exact hout
  refine ⟨out, hS, by rw [Collection_eq_Search, hS], ?_⟩
  intro u hu
  refine ⟨hF u hu, ?_⟩
  obtain ⟨new, hnew, hP⟩ := Imp_leaves _ _ _ _ hout
  simp only [List.nil_append] at hnew
  subst hnew
  obtain ⟨t, ht, h0, hn⟩ := hP u hu
  exact ⟨t, ⟨s, hs, ht⟩, h0, hn⟩

/-! ### Canonical shapes and the count of squares -/

/-- The cells of the canonical form: `Normalize` succeeds on a shape of the search, keeps the
cursor and the squares left, moves the bounding box to the origin, and a cell `p` is occupied
afterwards iff the point `p + _extent1` was a cell of the shape. -/
theorem Normalize_cells {N : Int} (hN : N ≤ 7) {s : N_Omino} (hI : Inv N s) :
    ∃ t, s.Normalize = .ok t ∧ t._extent1 = ⟨0, 0⟩ ∧
      t._extent2 = ⟨s._extent2.x - s._extent1.x, s._extent2.y - s._extent1.y⟩ ∧
      t._pos = s._pos ∧ t._squaresLeft = s._squaresLeft ∧
      ∀ p, t._grid.Occupied p ↔ s.Occ ⟨p.x + s._extent1.x, p.y + s._extent1.y⟩ := by
  have hb := hI.box_small hN
  have ho := hI.origin
  obtain ⟨g2, hg2, hlt2, hbit⟩ := Translate_spec s._grid ⟨-s._extent1.x, -s._extent1.y⟩
    hI.grid_lt (by simp only; omega) (by simp only; omega) (by simp only; omega)
    (by simp only; omega)
  simp only at hbit
  refine ⟨{ s with
      _grid := g2
      _extent2 := ⟨s._extent2.x - s._extent1.x, s._extent2.y - s._extent1.y⟩
      _extent1 := ⟨0, 0⟩ }, by unfold N_Omino.Normalize; simp only; rw [hg2], rfl, rfl, rfl, rfl, ?_⟩
  intro p'
  simp only
  constructor
  · intro hp'
    rw [Occupied_iff] at hp'
    obtain ⟨a1, a2, a3, a4, a5⟩ := hp'
    have hsrc := hbit ((p'.x.toNat + (8 - (-s._extent1.x).toNat)) % 8)
      ((p'.y.toNat + (8 - (-s._extent1.y).toNat)) % 8) (by omega) (by omega)
    have e1 : ((p'.x.toNat + (8 - (-s._extent1.x).toNat)) % 8 + (-s._extent1.x).toNat) % 8
        = p'.x.toNat := by omega
    have e2 : ((p'.y.toNat + (8 - (-s._extent1.y).toNat)) % 8 + (-s._extent1.y).toNat) % 8
        = p'.y.toNat := by omega
    rw [e1, e2, a5] at hsrc
    obtain ⟨p, hp, hpx, hpy⟩ := hI.allInBox _ _ (by omega) (by omega) hsrc.symm
    have hp2 := hp
    unfold N_Omino.inBox at hp2
    have e3 : p.x = p'.x + s._extent1.x := by unfold wrap at hpx; omega
    have e4 : p.y = p'.y + s._extent1.y := by unfold wrap at hpy; omega
    have : p = ⟨p'.x + s._extent1.x, p'.y + s._extent1.y⟩ := by
      cases p; simp only at e3 e4; simp [e3, e4]
    rw [← this]
    refine ⟨hp, ?_⟩
    rw [hpx, hpy]; exact hsrc.symm
  · intro hp
    have hp1 := hp.1
    unfold N_Omino.inBox at hp1
    simp only at hp1
    rw [Occupied_iff]
    refine ⟨by omega, by omega, by omega, by omega, ?_⟩
    have hw := hp.2
    simp only at hw
    rw [← hbit _ _ (wrap_lt _) (wrap_lt _)] at hw
    have e1 : (wrap (p'.x + s._extent1.x) + (-s._extent1.x).toNat) % 8 = p'.x.toNat := by
      unfold wrap; omega
    have e2 : (wrap (p'.y + s._extent1.y) + (-s._extent1.y).toNat) % 8 = p'.y.toNat := by
      unfold wrap; omega
    rw [e1, e2] at hw
    exact hw

theorem Add_total (w : N_Omino) (v : VECT) (hx : -8 ≤ (w._pos.add v).x)
    (hy : -8 ≤ (w._pos.add v).y) : ∃ flag w', w.Add v = .ok (flag, w') := by
  rw [Add_spec w v hx hy]
  split
  · exact ⟨_, _, rfl⟩
  · exact ⟨_, _, rfl⟩

/-- C15. For every `N` in `1..7`, every shape the search stores in its collection (and so
every shape of the final collection) has the minimum corner of its bounding box at `(0, 0)`,
and the box bounds the occupied cells exactly: every occupied cell lies in it, and column 0,
row 0, column `_extent2.x` and row `_extent2.y` each hold an occupied cell. -/
theorem C15_bounding_box_exact (N : Int) (h1 : 1 ≤ N) (h7 : N ≤ 7) :
    ∃ raw l, N_OminosSearch N = .ok raw ∧ N_OminosCollection N = .ok l ∧
      ∀ u, (u ∈ raw ∨ u ∈ l) →
        u._extent1 = ⟨0, 0⟩ ∧
        (∀ p, u._grid.Occupied p →
          0 ≤ p.x ∧ p.x ≤ u._extent2.x ∧ 0 ≤ p.y ∧ p.y ≤ u._extent2.y) ∧
        (∃ p, u._grid.Occupied p ∧ p.x = 0) ∧ (∃ p, u._grid.Occupied p ∧ p.y = 0) ∧
        (∃ p, u._grid.Occupied p ∧ p.x = u._extent2.x) ∧
        (∃ p, u._grid.Occupied p ∧ p.y = u._extent2.y) := by
  obtain ⟨raw, hraw, hcoll, hP⟩ := Search_spec N h1 h7
  refine ⟨raw, _, hraw, hcoll, ?_⟩
  intro u hu
  have hmem : u ∈ raw := by
    rcases hu with h | h
    · exact h
    · exact mem_unique_sort raw u h
  obtain ⟨hF, t, ht, _, hn⟩ := hP u hmem
  have hT := Passed_InvT h1 h7 ht
  obtain ⟨t', ht', he1, he2, _, _, hcell⟩ := Normalize_cells h7 hT.1
  rw [hn] at ht'
  simp only [Except.ok.injEq] at ht'
  subst ht'
  obtain ⟨⟨p1, o1, x1⟩, ⟨p2, o2, x2⟩, ⟨p3, o3, y3⟩, ⟨p4, o4, y4⟩⟩ := hT.2
  have back : ∀ p : POINT, t.Occ p →
      u._grid.Occupied ⟨p.x - t._extent1.x, p.y - t._extent1.y⟩ := by
    intro p hp
    rw [hcell]
    simp only [sub_add_cancel]
    exact hp
  refine ⟨he1, ?_, ⟨_, back p1 o1, by simp only; omega⟩, ⟨_, back p3 o3, by simp only; omega⟩,
    ⟨_, back p2 o2, by rw [he2]; simp only; omega⟩, ⟨_, back p4 o4, by rw [he2]; simp only; omega⟩⟩
  intro p hp
  have hb := hF.inBox p hp
  exact ⟨hp.1, hb.1, hp.2.2.1, hb.2⟩

theorem C15_witness :
    ∃ raw l, N_OminosSearch 3 = .ok raw ∧ N_OminosCollection 3 = .ok l ∧
      ∀ u, (u ∈ raw ∨ u ∈ l) →
        u._extent1 = ⟨0, 0⟩ ∧
        (∀ p, u._grid.Occupied p →
          0 ≤ p.x ∧ p.x ≤ u._extent2.x ∧ 0 ≤ p.y ∧ p.y ≤ u._extent2.y) ∧
        (∃ p, u._grid.Occupied p ∧ p.x = 0) ∧ (∃ p, u._grid.Occupied p ∧ p.y = 0) ∧
        (∃ p, u._grid.Occupied p ∧ p.x = u._extent2.x) ∧
        (∃ p, u._grid.Occupied p ∧ p.y = u._extent2.y) :=
  C15_bounding_box_exact 3 (by decide) (by decide)

/-- C18. For every `N` in `1..7` and every shape the search creates (the seed `N_Omino(N)`,
every shape passed to `N_OminosGenerateImp`, every state of a working copy under `Add`,
successful or not, and every shape stored in the collection, raw or final),
`_squaresLeft` plus the number of occupied grid cells is `N`. -/
theorem C18_squares_left_plus_cells (N : Int) (h1 : 1 ≤ N) (h7 : N ≤ 7) :
    (∃ seed, N_Omino.init N = .ok seed ∧ Passed N seed ∧
      seed._squaresLeft + seed._grid.CellCount = N) ∧
    (∀ t, Passed N t → Work N t ∧ t._squaresLeft + t._grid.CellCount = N) ∧
    (∀ w, Work N w → ∀ v, IsUnit v → ∃ flag w', w.Add v = .ok (flag, w') ∧ Work N w') ∧
    (∀ w, Work N w → w._squaresLeft + w._grid.CellCount = N) ∧
    (∃ raw l, N_OminosSearch N = .ok raw ∧ N_OminosCollection N = .ok l ∧
      ∀ u, (u ∈ raw ∨ u ∈ l) → u._squaresLeft + u._grid.CellCount = N) := by
  have hW : ∀ w, Work N w → w._squaresLeft + w._grid.CellCount = N := by
    intro w hw
    have := (Work_InvT h1 h7 hw).1.count
    rw [CellCount_eq]; omega
  have hPW : ∀ t, Passed N t → Work N t := fun t ht => ⟨t, ht, Relation.ReflTransGen.refl⟩
  have hseed : Passed N ⟨⟨128⟩, ⟨0, 0⟩, ⟨0, 0⟩, ⟨0, 0⟩, N - 1⟩ :=
    ⟨_, init_eq N, Relation.ReflTransGen.refl⟩
  refine ⟨⟨_, init_eq N, hseed, hW _ (hPW _ hseed)⟩, fun t ht => ⟨hPW t ht, hW t (hPW t ht)⟩,
    ?_, hW, ?_⟩
  · intro w hw v hv
    have hI := (Work_InvT h1 h7 hw).1
    have hb := hI.box_small h7
    have hcur := hI.cursor.1
    have hu := unit_cases hv
    unfold N_Omino.inBox at hcur
    obtain ⟨flag, w', hadd⟩ := Add_total w v
      (by unfold POINT.add; simp only; omega) (by unfold POINT.add; simp only; omega)
    obtain ⟨s, hs, hr⟩ := hw
    exact ⟨flag, w', hadd, s, hs, Relation.ReflTransGen.tail hr ⟨v, hv, flag, hadd⟩⟩
  · obtain ⟨raw, hraw, hcoll, hP⟩ := Search_spec N h1 h7
    refine ⟨raw, _, hraw, hcoll, ?_⟩
    intro u hu
    have hmem : u ∈ raw := by
      rcases hu with h | h
      · exact h
      · exact mem_unique_sort raw u h
    have hF := (hP u hmem).1
    rw [hF.left]
    have := hF.count
    omega

theorem C18_witness :
    (∃ seed, N_Omino.init 2 = .ok seed ∧ Passed 2 seed ∧
      seed._squaresLeft + seed._grid.CellCount = 2) ∧
    (∀ t, Passed 2 t → Work 2 t ∧ t._squaresLeft + t._grid.CellCount = 2) ∧
    (∀ w, Work 2 w → ∀ v, IsUnit v → ∃ flag w', w.Add v = .ok (flag, w') ∧ Work 2 w') ∧
    (∀ w, Work 2 w → w._squaresLeft + w._grid.CellCount = 2) ∧
    (∃ raw l, N_OminosSearch 2 = .ok raw ∧ N_OminosCollection 2 = .ok l ∧
      ∀ u, (u ∈ raw ∨ u ∈ l) → u._squaresLeft + u._grid.CellCount = 2) :=
  C18_squares_left_plus_cells 2 (by decide) (by decide)

/-! ### The cursor and termination -/

/-- C19, as stated, fails for stored shapes: the final collection of `N_OminosGenerate(2)` holds
the vertical domino found by `AddNorth` / `FollowNorth`, whose cursor is still `(0, -1)` while
`Normalize` has moved its cells to `(0, 0)` and `(0, 1)`; `Get(_pos)` addresses cell `(0, 7)`
and is false. -/
theorem C19_counterexample :
    ¬ (∀ N : Int, 1 ≤ N → N ≤ 7 →
        ∃ l, N_OminosCollection N = .ok l ∧ ∀ u ∈ l, u._grid.Get u._pos = .ok true) := by
  intro h
  obtain ⟨l, hl, hu⟩ := h 2 (by decide) (by decide)
  have e : N_OminosCollection 2 =
      .ok [⟨⟨192⟩, ⟨1, 0⟩, ⟨0, 0⟩, ⟨1, 0⟩, 0⟩, ⟨⟨32896⟩, ⟨0, -1⟩, ⟨0, 0⟩, ⟨0, 1⟩, 0⟩] := by
    decide!
  rw [e] at hl
  simp only [Except.ok.injEq] at hl
  subst hl
  have := hu ⟨⟨32896⟩, ⟨0, -1⟩, ⟨0, 0⟩, ⟨0, 1⟩, 0⟩ (by simp)
  revert this
  decide

/-- C19, amended. For every `N` in `1..7` the cursor `_pos` is an occupied cell of the grid
(`Get(_pos)` is true) for the seed `N_Omino(N)` and for every shape passed to
`N_OminosGenerateImp`. `Normalize` translates the grid and the bounding box but not the
cursor: a stored shape `u` is the canonical form of a complete shape `t` passed to
`N_OminosGenerateImp`, it keeps the cursor of `t`, and its occupied cell is the one at
`_pos` minus the minimum corner of `t`. -/
theorem C19_cursor_occupied (N : Int) (h1 : 1 ≤ N) (h7 : N ≤ 7) :
    (∃ seed, N_Omino.init N = .ok seed ∧ seed._grid.Get seed._pos = .ok true) ∧
    (∀ t, Passed N t → t._grid.Get t._pos = .ok true) ∧
    (∃ raw, N_OminosSearch N = .ok raw ∧ ∀ u ∈ raw, ∃ t, Passed N t ∧ t.Normalize = .ok u ∧
      u._pos = t._pos ∧
      u._grid.Get ⟨t._pos.x - t._extent1.x, t._pos.y - t._extent1.y⟩ = .ok true) := by
  have hP : ∀ t, Passed N t → t._grid.Get t._pos = .ok true := by
    intro t ht
    have hI := (Passed_InvT h1 h7 ht).1
    have hb := hI.box_small h7
    have hcur := hI.cursor.1
    unfold N_Omino.inBox at hcur
    rw [Get_eq _ _ (by omega) (by omega), hI.cursor.2]
  refine ⟨⟨_, init_eq N, hP _ ⟨_, init_eq N, Relation.ReflTransGen.refl⟩⟩, hP, ?_⟩
  obtain ⟨raw, hraw, _, hS⟩ := Search_spec N h1 h7
  refine ⟨raw, hraw, ?_⟩
  intro u hu
  obtain ⟨_, t, ht, _, hn⟩ := hS u hu
  have hI := (Passed_InvT h1 h7 ht).1
  obtain ⟨t', ht', _, _, hpos, _, hcell⟩ := Normalize_cells h7 hI
  rw [hn] at ht'
  simp only [Except.ok.injEq] at ht'
  subst ht'
  refine ⟨t, ht, hn, hpos, ?_⟩
  have : u._grid.Occupied ⟨t._pos.x - t._extent1.x, t._pos.y - t._extent1.y⟩ := by
    rw [hcell]
    simp only [sub_add_cancel]
    exact hI.cursor
  exact this.2.2.2.2

theorem C19_witness :
    (∃ seed, N_Omino.init 2 = .ok seed ∧ seed._grid.Get seed._pos = .ok true) ∧
    (∀ t, Passed 2 t → t._grid.Get t._pos = .ok true) ∧
    (∃ raw, N_OminosSearch 2 = .ok raw ∧ ∀ u ∈ raw, ∃ t, Passed 2 t ∧ t.Normalize = .ok u ∧
      u._pos = t._pos ∧
      u._grid.Get ⟨t._pos.x - t._extent1.x, t._pos.y - t._extent1.y⟩ = .ok true) :=
  C19_cursor_occupied 2 (by decide) (by decide)

theorem noFuel_error {α β : Type} (e : Fault) (h : NoFuelFault (.error e : Except Fault α)) :
    NoFuelFault (.error e : Except Fault β) := by
  unfold NoFuelFault at *
  intro h'
  apply h
  cases h'
  rfl

theorem Get_noFuel (g : Grid8x8) (p : POINT) : NoFuelFault (g.Get p) := by
  unfold NoFuelFault Grid8x8.Get
  simp only
  split <;> simp

theorem Set_noFuel (g : Grid8x8) (p : POINT) : NoFuelFault (g.Set p) := by
  unfold NoFuelFault Grid8x8.Set
  simp only
  split <;> simp

theorem Add_noFuel (s : N_Omino) (v : VECT) : NoFuelFault (s.Add v) := by
  have hG := Get_noFuel s._grid (s._pos.add v)
  have hS := Set_noFuel s._grid (s._pos.add v)
  unfold NoFuelFault at *
  unfold N_Omino.Add
  simp only
  cases hg : s._grid.Get (s._pos.add v) with
  | error e => rw [hg] at hG; simpa using hG
  | ok occ =>
    simp only
    split
    · simp
    · cases hs : s._grid.Set (s._pos.add v) with
      | error e => rw [hs] at hS; simpa using hS
      | ok g => simp

theorem AddIf_noFuel (combo dir : Nat) (v : VECT) (cur : Except Fault (Option N_Omino))
    (h : NoFuelFault cur) : NoFuelFault (AddIf combo dir v cur) := by
  unfold AddIf
  match cur, h with
  | .error e, h => exact h
  | .ok none, _ => unfold NoFuelFault; simp
  | .ok (some s), _ =>
    simp only
    split
    · have hA := Add_noFuel s v
      unfold NoFuelFault at *
      match hadd : s.Add v with
      | .error e => rw [hadd] at hA; simpa using hA
      | .ok (true, s1) => simp
      | .ok (false, s1) => simp
    · unfold NoFuelFault; simp

theorem AddCombo_noFuel (combo : Nat) (s : N_Omino) : NoFuelFault (AddCombo combo s) := by
  unfold AddCombo
  apply AddIf_noFuel
  apply AddIf_noFuel
  apply AddIf_noFuel
  apply AddIf_noFuel
  unfold NoFuelFault; simp

theorem TranslateRows_noFuel (vec : VECT) : ∀ (l : List Nat) (g : Grid8x8),
    NoFuelFault (Grid8x8.TranslateRows vec l g) := by
  intro l
  induction l with
  | nil => intro g; unfold NoFuelFault; simp [Grid8x8.TranslateRows]
  | cons i rest ih =>
    intro g
    rw [Grid8x8.TranslateRows]
    unfold RightRotate8
    by_cases h : 0 ≤ vec.dx ∧ vec.dx ≤ 7
    · rw [if_pos h]; exact ih _
    · rw [if_neg h]; unfold NoFuelFault; simp

theorem Normalize_noFuel (s : N_Omino) : NoFuelFault s.Normalize := by
  have hT := TranslateRows_noFuel ⟨-s._extent1.x, -s._extent1.y⟩ [0, 1, 2, 3, 4, 5, 6, 7] s._grid
  unfold NoFuelFault at *
  unfold N_Omino.Normalize Grid8x8.Translate
  simp only
  cases hr : Grid8x8.TranslateRows ⟨-s._extent1.x, -s._extent1.y⟩ [0, 1, 2, 3, 4, 5, 6, 7]
      s._grid with
  | error e => rw [hr] at hT; simpa using hT
  | ok g1 =>
    simp only
    unfold LeftRotate64
    by_cases h : 0 ≤ 8 * -s._extent1.y ∧ 8 * -s._extent1.y ≤ 63
    · rw [if_pos h]; simp
    · rw [if_neg h]; simp

theorem FollowIf_noFuel {recurse : List N_Omino → N_Omino → Except Fault (List N_Omino)}
    (combo dir : Nat) (v : VECT) (s' : N_Omino)
    (hrec : (combo &&& dir != 0) = true → ∀ acc, NoFuelFault (recurse acc (s'.Follow v)))
    (acc : Except Fault (List N_Omino)) (hacc : NoFuelFault acc) :
    NoFuelFault (FollowIf recurse combo dir v s' acc) := by
  unfold FollowIf
  match acc, hacc with
  | .error e, h => exact h
  | .ok l, _ =>
    simp only
    by_cases hc : (combo &&& dir != 0) = true
    · rw [if_pos hc]; exact hrec hc l
    · rw [if_neg hc]; unfold NoFuelFault; simp

theorem GenerateLoop_noFuel {recurse : List N_Omino → N_Omino → Except Fault (List N_Omino)}
    (s : N_Omino) (hs : s.SquaresLeft ≠ 0)
    (hrec : ∀ t, Calls s t → ∀ acc, NoFuelFault (recurse acc t)) :
    ∀ (table : List DIR_COMB), (∀ dc ∈ table, dc ∈ kDirComb) → ∀ (acc : List N_Omino),
      NoFuelFault (GenerateLoop recurse s table acc) := by
  intro table
  induction table with
  | nil => intro _ acc; unfold NoFuelFault; simp [GenerateLoop]
  | cons dc rest ih =>
    intro htab acc
    have hrest : ∀ dc' ∈ rest, dc' ∈ kDirComb := fun dc' h' => htab dc' (List.mem_cons_of_mem _ h')
    have hA := AddCombo_noFuel dc.combo s
    rw [GenerateLoop]
    match hadd : AddCombo dc.combo s with
    | .error e => rw [hadd] at hA; exact noFuel_error e hA
    | .ok none => exact ih hrest acc
    | .ok (some s') =>
      simp only
      have call : ∀ d ∈ allDirs, (dc.combo &&& d.1 != 0) = true → Calls s (s'.Follow d.2) :=
        fun d hd hc => ⟨hs, dc, htab dc (List.mem_cons_self _ _), s', hadd, d, hd, hc, rfl⟩
      have hF : NoFuelFault (FollowCombo recurse dc.combo s' acc) := by
        unfold FollowCombo
        apply FollowIf_noFuel _ _ _ _
          (fun hc => hrec _ (call (DIR_W, kVecWest) (by simp [allDirs]) hc))
        apply FollowIf_noFuel _ _ _ _
          (fun hc => hrec _ (call (DIR_S, kVecSouth) (by simp [allDirs]) hc))
        apply FollowIf_noFuel _ _ _ _
          (fun hc => hrec _ (call (DIR_E, kVecEast) (by simp [allDirs]) hc))
        apply FollowIf_noFuel _ _ _ _
          (fun hc => hrec _ (call (DIR_N, kVecNorth) (by simp [allDirs]) hc))
        unfold NoFuelFault; simp
      match hf : FollowCombo recurse dc.combo s' acc with
      | .error e => rw [hf] at hF; exact hF
      | .ok l1 => exact ih hrest l1

/-- With more fuel than squares left, `N_OminosGenerateImp` never runs out of fuel. -/
theorem Imp_noFuel : ∀ (fuel : Nat) (acc : List N_Omino) (s : N_Omino),
    0 ≤ s._squaresLeft → s._squaresLeft < fuel → NoFuelFault (N_OminosGenerateImp fuel acc s) := by
  intro fuel
  induction fuel with
  | zero => intro acc s h0 hlt; simp only [Nat.cast_zero] at hlt; omega
  | succ n ih =>
    intro acc s h0 hlt
    rw [N_OminosGenerateImp]
    by_cases hz : s.SquaresLeft = 0
    · rw [if_pos hz]
      have hN := Normalize_noFuel s
      match hn : s.Normalize with
      | .error e => rw [hn] at hN; exact noFuel_error e hN
      | .ok u => unfold NoFuelFault; simp
    · rw [if_neg hz]
      apply GenerateLoop_noFuel s hz _ kDirComb (fun _ h => h)
      intro t ht acc'
      have := Calls_left ht
      exact ih acc' t this.1 (by push_cast at hlt; omega)

theorem CallDepth_left (N : Int) : ∀ (k : Nat) (t : N_Omino),
    CallDepth k ⟨⟨128⟩, ⟨0, 0⟩, ⟨0, 0⟩, ⟨0, 0⟩, N - 1⟩ t →
      (k : Int) + t._squaresLeft ≤ N - 1 ∧ (1 ≤ k → 0 ≤ t._squaresLeft) := by
  intro k
  induction k with
  | zero =>
    intro t h
    unfold CallDepth at h
    subst h
    exact ⟨by simp, by intro h; omega⟩
  | succ k ih =>
    intro t h
    obtain ⟨m, hm, hc⟩ := h
    have := ih m hm
    have hl := Calls_left hc
    exact ⟨by push_cast; omega, fun _ => hl.1⟩

/-- C20. `N_OminosGenerateImp` terminates on every shape with `_squaresLeft >= 0`: every
recursive call is on a shape with strictly fewer squares left (and not fewer than none), so
that fuel above `_squaresLeft` is never exhausted; from the seed `N_Omino(N)` a chain of `k`
nested calls has `k <= N - 1`, the recursion is at most `N` deep, and for `N` in `1..7` the run
with fuel `N` returns the collection. -/
theorem C20_search_terminates :
    (∀ s t, Calls s t → 0 ≤ t._squaresLeft ∧ t._squaresLeft < s._squaresLeft) ∧
    (∀ (s : N_Omino) (fuel : Nat) (acc : List N_Omino), 0 ≤ s._squaresLeft →
      s._squaresLeft < fuel → N_OminosGenerateImp fuel acc s ≠ .error .outOfFuel) ∧
    (∀ (N : Int) (seed t : N_Omino) (k : Nat), 1 ≤ N → N_Omino.init N = .ok seed →
      CallDepth k seed t → (k : Int) + 1 ≤ N) ∧
    (∀ N : Int, 1 ≤ N → N ≤ 7 → ∃ seed raw, N_Omino.init N = .ok seed ∧
      N_OminosGenerateImp N.toNat [] seed = .ok raw) := by
  refine ⟨fun s t h => Calls_left h, fun s fuel acc h0 hlt => Imp_noFuel fuel acc s h0 hlt, ?_, ?_⟩
  · intro N seed t k h1 hseed hd
    rw [init_eq] at hseed
    simp only [Except.ok.injEq] at hseed
    subst hseed
    have := CallDepth_left N k t hd
    by_cases hk : 1 ≤ k
    · have := this.2 hk; omega
    · have : k = 0 := by omega
      subst this; simp only [Nat.cast_zero]; omega
  · intro N h1 h7
    obtain ⟨raw, hraw, _⟩ := Search_spec N h1 h7
    refine ⟨_, raw, init_eq N, ?_⟩
    unfold N_OminosSearch at hraw
    rw [init_eq] at hraw
    exact hraw

theorem C20_witness :
    (0 ≤ (⟨⟨0xC0⟩, ⟨1, 0⟩, ⟨0, 0⟩, ⟨1, 0⟩, 1⟩ : N_Omino)._squaresLeft ∧
      (⟨⟨0xC0⟩, ⟨1, 0⟩, ⟨0, 0⟩, ⟨1, 0⟩, 1⟩ : N_Omino)._squaresLeft
        < (⟨⟨128⟩, ⟨0, 0⟩, ⟨0, 0⟩, ⟨0, 0⟩, 2⟩ : N_Omino)._squaresLeft) ∧
    N_OminosGenerateImp 3 [] ⟨⟨128⟩, ⟨0, 0⟩, ⟨0, 0⟩, ⟨0, 0⟩, 2⟩ ≠ .error .outOfFuel ∧
    ((1 : Nat) : Int) + 1 ≤ 3 ∧
    ∃ seed raw, N_Omino.init 3 = .ok seed ∧ N_OminosGenerateImp (3 : Int).toNat [] seed = .ok raw :=
  ⟨C20_search_terminates.1 ⟨⟨128⟩, ⟨0, 0⟩, ⟨0, 0⟩, ⟨0, 0⟩, 2⟩ ⟨⟨0xC0⟩, ⟨1, 0⟩, ⟨0, 0⟩, ⟨1, 0⟩, 1⟩
      ⟨by decide, ⟨DIR_E, 1⟩, by decide, ⟨⟨0xC0⟩, ⟨0, 0⟩, ⟨0, 0⟩, ⟨1, 0⟩, 1⟩, by decide,
        (DIR_E, kVecEast), by decide, by decide, by decide⟩,
   C20_search_terminates.2.1 ⟨⟨128⟩, ⟨0, 0⟩, ⟨0, 0⟩, ⟨0, 0⟩, 2⟩ 3 [] (by decide) (by decide),
   C20_search_terminates.2.2.1 3 ⟨⟨128⟩, ⟨0, 0⟩, ⟨0, 0⟩, ⟨0, 0⟩, 2⟩
      ⟨⟨0xC0⟩, ⟨1, 0⟩, ⟨0, 0⟩, ⟨1, 0⟩, 1⟩ 1 (by decide) (by decide)
      ⟨⟨⟨128⟩, ⟨0, 0⟩, ⟨0, 0⟩, ⟨0, 0⟩, 2⟩, rfl,
        by decide, ⟨DIR_E, 1⟩, by decide, ⟨⟨0xC0⟩, ⟨0, 0⟩, ⟨0, 0⟩, ⟨1, 0⟩, 1⟩, by decide,
        (DIR_E, kVecEast), by decide, by decide, by decide⟩,
   C20_search_terminates.2.2.2 3 (by decide) (by decide)⟩

/-! ### The drawing of a shape -/

theorem DrawRowFrom_eq (s : N_Omino) (row : Int) (hrow : -8 ≤ row) :
    ∀ (n : Nat) (i : Int), -8 ≤ i →
      s.DrawRowFrom row n i
        = .ok (concat ((List.range n).map
            fun (k : Nat) => glyph (decide (s._grid.Get ⟨i + (k : Int), row⟩ = .ok true)))) := by
  intro n
  induction n with
  | zero => intro i _; rfl
  | succ n ih =>
    intro i hi
    rw [N_Omino.DrawRowFrom, Get_eq _ _ hi hrow]
    simp only
    rw [ih (i + 1) (by omega), List.range_succ_eq_map, List.map_cons, List.map_map]
    simp only [concat, List.foldr_cons, Nat.cast_zero, add_zero]
    rw [Get_eq _ _ hi hrow]
    congr 2
    · simp [glyph]
    · congr 1
      apply List.map_congr_left
      intro k _
      simp only [Function.comp, Nat.succ_eq_add_one, Nat.cast_add, Nat.cast_one]
      rw [show i + 1 + (k : Int) = i + ((k : Int) + 1) by ring]

theorem DrawFrom_eq (s : N_Omino) (hx : s._extent1.x = 0) :
    ∀ (n : Nat) (i : Nat),
      s.DrawFrom n i
        = .ok (concat ((List.range n).map
            fun (k : Nat) => concat (s.GlyphRow (i + k)) ++ "\n")) := by
  intro n
  induction n with
  | zero => intro i; rfl
  | succ n ih =>
    intro i
    rw [N_Omino.DrawFrom, N_Omino.DrawRow, DrawRowFrom_eq s i (by omega) _ _ (by omega)]
    simp only
    have := ih (i + 1)
    simp only [Nat.cast_add, Nat.cast_one] at this
    rw [this, List.range_succ_eq_map, List.map_cons, List.map_map]
    simp only [concat, List.foldr_cons, Nat.add_zero]
    congr 2
    · unfold N_Omino.GlyphRow
      rw [hx]
      simp only [sub_zero, zero_add]
    · congr 1
      apply List.map_congr_left
      intro k _
      simp only [Function.comp, Nat.succ_eq_add_one]
      rw [show i + 1 + k = i + (k + 1) by ring]

theorem Draw_eq (s : N_Omino) (h : s._extent1 = ⟨0, 0⟩) : s.Draw = .ok s.Drawing := by
  have hx : s._extent1.x = 0 := by rw [h]
  have hy : s._extent1.y = 0 := by rw [h]
  unfold N_Omino.Draw
  have := DrawFrom_eq s hx (s._extent2.y + 1 - s._extent1.y).toNat 0
  simp only [Nat.cast_zero] at this
  rw [hy] at this ⊢
  rw [this]
  simp only [sub_zero, Nat.zero_add]
  unfold N_Omino.Drawing N_Omino.Glyphs
  rw [List.map_map]
  rfl

theorem count_map_range (a : String) (f : Nat → String) : ∀ n : Nat,
    ((List.range n).map f).count a = ∑ i in Finset.range n, if f i = a then 1 else 0 := by
  intro n
  induction n with
  | zero => simp
  | succ n ih =>
    rw [List.range_succ, List.map_append, List.count_append, ih, Finset.sum_range_succ]
    congr 1
    by_cases h : f n = a
    · simp [h]
    · simp [List.count_cons, h]

theorem count_join_range (a : String) (r : Nat → List String) : ∀ n : Nat,
    (((List.range n).map r).flatten).count a = ∑ i in Finset.range n, (r i).count a := by
  intro n
  induction n with
  | zero => simp
  | succ n ih =>
    rw [List.range_succ, List.map_append, List.flatten_append, List.count_append, ih,
      Finset.sum_range_succ]
    simp

theorem glyph_eq_iff (b : Bool) : glyph b = "[]" ↔ b = true := by
  cases b <;> decide

/-- The number of `[]` glyphs in the drawing of a shape of the collection is its number of
occupied cells. -/
theorem count_glyphs {N : Int} (s : N_Omino) (hF : Final N s) :
    s.Glyphs.flatten.count "[]" = s._grid.CellCount := by
  have he := hF.extent2
  unfold N_Omino.Glyphs
  rw [count_join_range]
  have hrow : ∀ y, (s.GlyphRow y).count "[]"
      = ∑ x in Finset.range (s._extent2.x + 1).toNat,
          if s._grid.Get ⟨(x : Int), (y : Int)⟩ = .ok true then 1 else 0 := by
    intro y
    unfold N_Omino.GlyphRow
    rw [count_map_range]
    apply Finset.sum_congr rfl
    intro x _
    simp only [glyph_eq_iff, decide_eq_true_eq]
  simp only [hrow]
  unfold Grid8x8.CellCount
  rw [Finset.card_filter, Fintype.sum_prod_type_right]
  rw [Fin.sum_univ_eq_sum_range
    (fun y => ∑ x : Fin 8, if s._grid.Get ⟨(x.val : Int), (y : Int)⟩ = .ok true then 1 else 0) 8]
  have inner : ∀ y : Nat,
      (∑ x : Fin 8, if s._grid.Get ⟨(x.val : Int), (y : Int)⟩ = .ok true then 1 else 0)
        = ∑ x in Finset.range (s._extent2.x + 1).toNat,
            if s._grid.Get ⟨(x : Int), (y : Int)⟩ = .ok true then 1 else 0 := by
    intro y
    rw [Fin.sum_univ_eq_sum_range
      (fun x => if s._grid.Get ⟨(x : Int), (y : Int)⟩ = .ok true then 1 else 0) 8]
    symm
    apply Finset.sum_subset
    · intro x hx
      simp only [Finset.mem_range] at hx ⊢
      omega
    · intro x hx hnx
      simp only [Finset.mem_range] at hx hnx
      rw [if_neg]
      intro hget
      by_cases hy : y < 8
      · have := hF.inBox ⟨x, y⟩ ⟨by simp, by simp only; omega, by simp, by simp only; omega, hget⟩
        simp only at this
        omega
      · rw [Get_eq _ _ (by simp only; omega) (by simp only; omega)] at hget
        have hb : s._grid.bit (wrap (x : Int)) (wrap (y : Int)) = true := Except.ok.inj hget
        have := hF.inBox ⟨(wrap (x : Int) : Nat), (wrap (y : Int) : Nat)⟩ (by
          rw [Occupied_iff]
          have w1 := wrap_lt (x : Int)
          have w2 := wrap_lt (y : Int)
          refine ⟨by simp, by simp only; omega, by simp, by simp only; omega, ?_⟩
          simpa using hb)
        simp only at this
        have e1 : wrap (x : Int) = x := by unfold wrap; omega
        rw [e1] at this
        omega
  simp only [inner]
  apply Finset.sum_subset
  · intro y hy
    simp only [Finset.mem_range] at hy ⊢
    omega
  · intro y hy hny
    simp only [Finset.mem_range] at hy hny
    apply Finset.sum_eq_zero
    intro x _
    rw [if_neg]
    intro hget
    have := hF.inBox ⟨x, y⟩ (by
      have hx8 : (x : Int) ≤ 7 ∨ 7 < (x : Int) := by omega
      rcases hx8 with h | h
      · exact ⟨by simp, h, by simp, by simp only; omega, hget⟩
      · exfalso
        rw [Get_eq _ _ (by simp only; omega) (by simp only; omega)] at hget
        have hb : s._grid.bit (wrap (x : Int)) (wrap (y : Int)) = true := Except.ok.inj hget
        have w1 := wrap_lt (x : Int)
        have e2 : wrap (y : Int) = y := by unfold wrap; omega
        have := hF.inBox ⟨(wrap (x : Int) : Nat), (y : Int)⟩ (by
          rw [Occupied_iff]
          refine ⟨by simp, by simp only; omega, by simp, by simp only; omega, ?_⟩
          rw [e2] at hb
          simpa using hb)
        simp only at this
        omega)
    simp only at this
    omega

/-- C16. For every `N` in `1..7` and every shape of the final collection, `N_Omino::Draw`
prints two newlines and then `_extent2.y + 1` rows, each made of `_extent2.x + 1` two-character
glyphs followed by a newline, with `[]` at column `x` of row `y` iff cell `(x, y)` is occupied
and two spaces otherwise; exactly `N` glyphs of the drawing are `[]`. -/
theorem C16_Draw_output (N : Int) (h1 : 1 ≤ N) (h7 : N ≤ 7) :
    ∃ l, N_OminosCollection N = .ok l ∧ ∀ s ∈ l,
      s.Draw = .ok ("\n\n" ++ concat (s.Glyphs.map fun row => concat row ++ "\n")) ∧
      (s.Glyphs.length : Int) = s._extent2.y + 1 ∧
      (∀ row ∈ s.Glyphs, (row.length : Int) = s._extent2.x + 1) ∧
      (∀ x y : Nat, (x : Int) ≤ s._extent2.x → (y : Int) ≤ s._extent2.y →
        (s.Glyphs.get? y).bind (fun row => row.get? x)
          = some (if s._grid.Get ⟨x, y⟩ = .ok true then "[]" else "  ")) ∧
      (s.Glyphs.flatten.count "[]" : Int) = N := by
  obtain ⟨raw, hraw, hF⟩ := Collection_spec N h1 h7
  refine ⟨_, hraw, ?_⟩
  intro s hs
  have hf := hF s (mem_unique_sort raw s hs)
  have he := hf.extent2
  refine ⟨Draw_eq s hf.extent1, ?_, ?_, ?_, ?_⟩
  · unfold N_Omino.Glyphs
    rw [List.length_map, List.length_range]
    omega
  · intro row hrow
    unfold N_Omino.Glyphs at hrow
    obtain ⟨y, _, hy⟩ := List.mem_map.mp hrow
    rw [← hy]
    unfold N_Omino.GlyphRow
    rw [List.length_map, List.length_range]
    omega
  · intro x y hx hy
    unfold N_Omino.Glyphs
    rw [List.get?_eq_getElem?, List.getElem?_map, List.getElem?_range (by omega)]
    simp only [Option.map_some', Option.some_bind]
    unfold N_Omino.GlyphRow
    rw [List.get?_eq_getElem?, List.getElem?_map, List.getElem?_range (by omega)]
    simp only [Option.map_some', glyph]
    congr 1
    by_cases hg : s._grid.Get ⟨(x : Int), (y : Int)⟩ = .ok true
    · simp [hg]
    · simp [hg]
  · rw [count_glyphs s hf]
    exact hf.count

theorem C16_witness :
    ∃ l, N_OminosCollection 2 = .ok l ∧ ∀ s ∈ l,
      s.Draw = .ok ("\n\n" ++ concat (s.Glyphs.map fun row => concat row ++ "\n")) ∧
      (s.Glyphs.length : Int) = s._extent2.y + 1 ∧
      (∀ row ∈ s.Glyphs, (row.length : Int) = s._extent2.x + 1) ∧
      (∀ x y : Nat, (x : Int) ≤ s._extent2.x → (y : Int) ≤ s._extent2.y →
        (s.Glyphs.get? y).bind (fun row => row.get? x)
          = some (if s._grid.Get ⟨x, y⟩ = .ok true then "[]" else "  ")) ∧
      (s.Glyphs.flatten.count "[]" : Int) = 2 :=
  C16_Draw_output 2 (by decide) (by decide)

/-! ### The search on an unbounded grid -/

theorem box_no_alias {N : Int} (hN : N ≤ 7) {w : N_Omino} (hI : Inv N w) {v : VECT}
    (hv : IsUnit v) (p : POINT) (hp : w.inBox p)
    (hx : wrap p.x = wrap (w._pos.add v).x) (hy : wrap p.y = wrap (w._pos.add v).y) :
    p = w._pos.add v := by
  have hb := hI.box_small hN
  have hcur := hI.cursor.1
  have hu := unit_cases hv
  unfold N_Omino.inBox at hp hcur
  have e1 := wrap_inj p.x _ hx (by unfold POINT.add; simp only; omega)
    (by unfold POINT.add; simp only; omega)
  have e2 := wrap_inj p.y _ hy (by unfold POINT.add; simp only; omega)
    (by unfold POINT.add; simp only; omega)
  cases p
  simp only at e1 e2
  rw [e1, e2]

theorem bit_iff_Occ {N : Int} (hN : N ≤ 7) {w : N_Omino} (hI : Inv N w) {v : VECT}
    (hv : IsUnit v) :
    w._grid.bit (wrap (w._pos.add v).x) (wrap (w._pos.add v).y) = true
      ↔ w.Occ (w._pos.add v) := by
  constructor
  · intro hb
    obtain ⟨p, hp, hx, hy⟩ := hI.allInBox _ _ (wrap_lt _) (wrap_lt _) hb
    have e : p = w._pos.add v := box_no_alias hN hI hv p hp (by rw [hx]) (by rw [hy])
    rw [← e]
    exact ⟨hp, by rw [hx, hy]; exact hb⟩
  · exact fun h => h.2

theorem Occ_added_iff {N : Int} (hN : N ≤ 7) {s : N_Omino} {v : VECT} (hv : IsUnit v)
    (hI : Inv N s)
    (hfree : ¬ (s._grid.bit (wrap (s._pos.add v).x) (wrap (s._pos.add v).y) = true
      ∨ s._squaresLeft < 1)) (p : POINT) :
    (s.added v).Occ p ↔ s.Occ p ∨ p = s._pos.add v := by
  have hI' := Inv_added hN hv hI hfree
  have hsmall := hI'.box_small hN
  constructor
  · intro ⟨hb, hbit⟩
    rw [added_bit _ _ _ _ (wrap_lt _)] at hbit
    simp only [Bool.or_eq_true, decide_eq_true_eq] at hbit
    rcases hbit with hbit | ⟨h1, h2⟩
    · obtain ⟨p', hp', hx', hy'⟩ := hI.allInBox _ _ (wrap_lt _) (wrap_lt _) hbit
      have : p' = p :=
        inBox_eq_of_wrap ⟨hsmall.1, hsmall.2.1⟩ (inBox_added s v p' hp') hb hx' hy'
      subst this
      exact Or.inl ⟨hp', hbit⟩
    · exact Or.inr (inBox_eq_of_wrap ⟨hsmall.1, hsmall.2.1⟩ hb (inBox_added_new s v) h1 h2)
  · rintro (h | h)
    · exact Occ_added s v p h
    · rw [h]; exact Occ_added_new s v

theorem Add_sim {N : Int} (hN : N ≤ 7) {s : N_Omino} {σ : SetShape} (hI : InvT N s)
    (hR : Rel s σ) {v : VECT} (hv : IsUnit v) :
    (s.Add v = .ok (false, s) ∧ σ.Add v = (false, σ)) ∨
    (∃ s' σ', s.Add v = .ok (true, s') ∧ σ.Add v = (true, σ') ∧ InvT N s' ∧ Rel s' σ') := by
  obtain ⟨hpos, hleft, hcells⟩ := hR
  have hb := hI.1.box_small hN
  have hcur := hI.1.cursor.1
  have hu := unit_cases hv
  unfold N_Omino.inBox at hcur
  have hadd := Add_spec s v (by unfold POINT.add; simp only; omega)
    (by unfold POINT.add; simp only; omega)
  have hiff := bit_iff_Occ hN hI.1 hv
  have hcond : (decide (σ.pos.add v ∈ σ.cells) || decide (σ.left < 1)) = true ↔
      (s._grid.bit (wrap (s._pos.add v).x) (wrap (s._pos.add v).y) = true
        ∨ s._squaresLeft < 1) := by
    simp only [Bool.or_eq_true, decide_eq_true_eq]
    rw [hpos, hcells, hleft, ← hiff]
  by_cases hc : s._grid.bit (wrap (s._pos.add v).x) (wrap (s._pos.add v).y) = true
      ∨ s._squaresLeft < 1
  · left
    rw [if_pos hc] at hadd
    refine ⟨hadd, ?_⟩
    unfold SetShape.Add
    simp only
    rw [if_pos (hcond.mpr hc)]
  · right
    rw [if_neg hc] at hadd
    refine ⟨s.added v, { σ with cells := σ.pos.add v :: σ.cells, left := σ.left - 1 },
      hadd, ?_, ⟨Inv_added hN hv hI.1 hc, Tight_added s v hI.2⟩, hpos, ?_, ?_⟩
    · unfold SetShape.Add
      simp only
      rw [if_neg (fun h => hc (hcond.mp h))]
    · simp only [added_left, hleft]
    · intro p
      simp only [List.mem_cons]
      rw [Occ_added_iff hN hv hI.1 hc, hcells, hpos]
      tauto

theorem AddIf_sim {N : Int} (hN : N ≤ 7) (combo dir : Nat) {v : VECT} (hv : IsUnit v)
    {cur : Except Fault (Option N_Omino)} {κ : Option SetShape} (h : SimCur N cur κ) :
    SimCur N (AddIf combo dir v cur) (SetAddIf combo dir v κ) := by
  rcases h with ⟨rfl, rfl⟩ | ⟨s, σ, rfl, rfl, hI, hR⟩
  · left; exact ⟨rfl, rfl⟩
  · unfold AddIf SetAddIf
    simp only
    by_cases hc : (combo &&& dir != 0) = true
    · rw [if_pos hc, if_pos hc]
      rcases Add_sim hN hI hR hv with ⟨h1, h2⟩ | ⟨s', σ', h1, h2, hI', hR'⟩
      · rw [h1, h2]; left; exact ⟨rfl, rfl⟩
      · rw [h1, h2]; right; exact ⟨s', σ', rfl, rfl, hI', hR'⟩
    · rw [if_neg hc, if_neg hc]; right; exact ⟨s, σ, rfl, rfl, hI, hR⟩

theorem AddCombo_sim {N : Int} (hN : N ≤ 7) (combo : Nat) {s : N_Omino} {σ : SetShape}
    (hI : InvT N s) (hR : Rel s σ) :
    SimCur N (AddCombo combo s) (SetAddCombo combo σ) :=
  AddIf_sim hN _ _ unit_W (AddIf_sim hN _ _ unit_S (AddIf_sim hN _ _ unit_E
    (AddIf_sim hN _ _ unit_N (Or.inr ⟨s, σ, rfl, rfl, hI, hR⟩))))

theorem Rel_Follow {s : N_Omino} {σ : SetShape} (h : Rel s σ) (v : VECT) :
    Rel (s.Follow v) (σ.Follow v) := by
  obtain ⟨hpos, hleft, hcells⟩ := h
  refine ⟨?_, hleft, hcells⟩
  unfold SetShape.Follow N_Omino.Follow
  simp only
  rw [hpos]

theorem FollowIf_sim {recurse : List N_Omino → N_Omino → Except Fault (List N_Omino)}
    {recS : List (List POINT) → SetShape → Except Fault (List (List POINT))}
    (combo dir : Nat) (v : VECT) (s' : N_Omino) (σ' : SetShape)
    (hrec : (combo &&& dir != 0) = true → ∀ acc A, List.Forall₂ Same acc A →
      SimRes (recurse acc (s'.Follow v)) (recS A (σ'.Follow v)))
    {acc : Except Fault (List N_Omino)} {accS : Except Fault (List (List POINT))}
    (h : SimRes acc accS) :
    SimRes (FollowIf recurse combo dir v s' acc) (SetFollowIf recS combo dir v σ' accS) := by
  obtain ⟨l, L, rfl, rfl, hF⟩ := h
  unfold FollowIf SetFollowIf
  simp only
  by_cases hc : (combo &&& dir != 0) = true
  · rw [if_pos hc, if_pos hc]; exact hrec hc l L hF
  · rw [if_neg hc, if_neg hc]; exact ⟨l, L, rfl, rfl, hF⟩

theorem Loop_sim {N : Int} (hN : N ≤ 7)
    {recurse : List N_Omino → N_Omino → Except Fault (List N_Omino)}
    {recS : List (List POINT) → SetShape → Except Fault (List (List POINT))}
    {s : N_Omino} {σ : SetShape} (hs : s.SquaresLeft ≠ 0) (hI : InvT N s) (hR : Rel s σ)
    (hrec : ∀ t τ, Calls s t → Rel t τ → ∀ acc A, List.Forall₂ Same acc A →
      SimRes (recurse acc t) (recS A τ)) :
    ∀ (table : List DIR_COMB), (∀ dc ∈ table, dc ∈ kDirComb) →
    ∀ acc A, List.Forall₂ Same acc A →
      SimRes (GenerateLoop recurse s table acc) (SetLoop recS σ table A) := by
  intro table
  induction table with
  | nil => intro _ acc A h; exact ⟨acc, A, rfl, rfl, h⟩
  | cons dc rest ih =>
    intro hmem acc A h
    have hdc := hmem dc (List.mem_cons_self _ _)
    have ih' := ih (fun d hd => hmem d (List.mem_cons_of_mem _ hd))
    rw [GenerateLoop, SetLoop]
    rcases AddCombo_sim hN dc.combo hI hR with ⟨h1, h2⟩ | ⟨s', σ', h1, h2, _, hR'⟩
    · rw [h1, h2]; exact ih' acc A h
    · rw [h1, h2]
      simp only
      have step : ∀ d ∈ allDirs, (dc.combo &&& d.1 != 0) = true →
          ∀ acc A, List.Forall₂ Same acc A →
            SimRes (recurse acc (s'.Follow d.2)) (recS A (σ'.Follow d.2)) := by
        intro d hd hc acc A hF
        exact hrec _ _ ⟨hs, dc, hdc, s', h1, d, hd, hc, rfl⟩ (Rel_Follow hR' d.2) acc A hF
      have hf : SimRes (FollowCombo recurse dc.combo s' acc)
          (SetFollowCombo recS dc.combo σ' A) := by
        unfold FollowCombo SetFollowCombo
        apply FollowIf_sim _ _ _ _ _ (step (DIR_W, kVecWest) (by simp [allDirs]))
        apply FollowIf_sim _ _ _ _ _ (step (DIR_S, kVecSouth) (by simp [allDirs]))
        apply FollowIf_sim _ _ _ _ _ (step (DIR_E, kVecEast) (by simp [allDirs]))
        apply FollowIf_sim _ _ _ _ _ (step (DIR_N, kVecNorth) (by simp [allDirs]))
        exact ⟨acc, A, rfl, rfl, h⟩
      obtain ⟨l, L, e1, e2, hF⟩ := hf
      rw [e1, e2]
      exact ih' l L hF

theorem foldr_min_le (f : POINT → Int) (l : List POINT) (i : Int) :
    l.foldr (fun q m => min (f q) m) i ≤ i ∧
      ∀ p ∈ l, l.foldr (fun q m => min (f q) m) i ≤ f p := by
  induction l with
  | nil => exact ⟨le_refl _, fun p hp => by cases hp⟩
  | cons a rest ih =>
    simp only [List.foldr_cons, List.mem_cons]
    refine ⟨le_trans (min_le_right _ _) ih.1, ?_⟩
    rintro p (rfl | hp)
    · exact min_le_left _ _
    · exact le_trans (min_le_right _ _) (ih.2 p hp)

theorem le_foldr_min (f : POINT → Int) (l : List POINT) (i m : Int) (hi : m ≤ i)
    (hl : ∀ p ∈ l, m ≤ f p) : m ≤ l.foldr (fun q m => min (f q) m) i := by
  induction l with
  | nil => exact hi
  | cons a rest ih =>
    simp only [List.foldr_cons]
    exact le_min (hl a (List.mem_cons_self _ _))
      (ih (fun p hp => hl p (List.mem_cons_of_mem _ hp)))

theorem minX_eq (l : List POINT) (m : Int) (hle : ∀ p ∈ l, m ≤ p.x)
    (hex : ∃ p ∈ l, p.x = m) : minX l = m := by
  obtain ⟨p, hp, hpm⟩ := hex
  cases l with
  | nil => cases hp
  | cons a rest =>
    unfold minX
    have h1 := foldr_min_le (fun q => q.x) rest a.x
    have h2 := le_foldr_min (fun q => q.x) rest a.x m (hle a (List.mem_cons_self _ _))
      (fun q hq => hle q (List.mem_cons_of_mem _ hq))
    apply le_antisymm _ h2
    rw [← hpm]
    rcases List.mem_cons.mp hp with rfl | hp'
    · exact h1.1
    · exact h1.2 p hp'

theorem minY_eq (l : List POINT) (m : Int) (hle : ∀ p ∈ l, m ≤ p.y)
    (hex : ∃ p ∈ l, p.y = m) : minY l = m := by
  obtain ⟨p, hp, hpm⟩ := hex
  cases l with
  | nil => cases hp
  | cons a rest =>
    unfold minY
    have h1 := foldr_min_le (fun q => q.y) rest a.y
    have h2 := le_foldr_min (fun q => q.y) rest a.y m (hle a (List.mem_cons_self _ _))
      (fun q hq => hle q (List.mem_cons_of_mem _ hq))
    apply le_antisymm _ h2
    rw [← hpm]
    rcases List.mem_cons.mp hp with rfl | hp'
    · exact h1.1
    · exact h1.2 p hp'

theorem Canonical_same {s t : N_Omino} {σ : SetShape} (hT : s.Tight) (hR : Rel s σ)
    (hocc : ∀ p, t._grid.Occupied p ↔ s.Occ ⟨p.x + s._extent1.x, p.y + s._extent1.y⟩) :
    Same t (Canonical σ.cells) := by
  obtain ⟨_, _, hcells⟩ := hR
  obtain ⟨⟨p1, o1, e1⟩, _, ⟨p3, o3, e3⟩, _⟩ := hT
  have hx : minX σ.cells = s._extent1.x :=
    minX_eq _ _ (fun p hp => ((hcells p).mp hp).1.1) ⟨p1, (hcells p1).mpr o1, e1⟩
  have hy : minY σ.cells = s._extent1.y :=
    minY_eq _ _ (fun p hp => ((hcells p).mp hp).1.2.2.1) ⟨p3, (hcells p3).mpr o3, e3⟩
  intro p
  rw [hocc p, ← hcells]
  unfold Canonical
  rw [List.mem_map, hx, hy]
  constructor
  · intro h
    refine ⟨_, h, ?_⟩
    cases p
    simp
  · rintro ⟨q, hq, rfl⟩
    simp only [sub_add_cancel]
    exact hq

theorem Imp_sim {N : Int} (hN : N ≤ 7) : ∀ (fuel : Nat) (s : N_Omino) (σ : SetShape),
    InvT N s → Rel s σ → s._squaresLeft < fuel → ∀ acc A, List.Forall₂ Same acc A →
      SimRes (N_OminosGenerateImp fuel acc s) (SetImp fuel A σ) := by
  intro fuel
  induction fuel with
  | zero =>
    intro s σ hI _ hlt
    have := hI.1.left_nonneg
    simp only [Nat.cast_zero] at hlt
    omega
  | succ fuel ih =>
    intro s σ hI hR hlt acc A hF
    rw [N_OminosGenerateImp, SetImp]
    by_cases h0 : s.SquaresLeft = 0
    · have h0' : σ.left = 0 := by rw [hR.2.1]; exact h0
      rw [if_pos h0, if_pos h0']
      obtain ⟨t, ht, _, _, _, _, hocc⟩ := Normalize_cells hN hI.1
      rw [ht]
      simp only
      refine ⟨_, _, rfl, rfl, ?_⟩
      exact List.rel_append hF (List.Forall₂.cons (Canonical_same hI.2 hR hocc) List.Forall₂.nil)
    · have h0' : ¬ σ.left = 0 := by rw [hR.2.1]; exact h0
      rw [if_neg h0, if_neg h0']
      apply Loop_sim hN h0 hI hR ?_ kDirComb (fun _ h => h) acc A hF
      intro t τ hc hRt acc A hF
      have := Calls_left hc
      refine ih t τ (InvT_Calls hN hI hc) hRt ?_ acc A hF
      push_cast at hlt
      omega

theorem Rel_init (N : Int) : Rel ⟨⟨128⟩, ⟨0, 0⟩, ⟨0, 0⟩, ⟨0, 0⟩, N - 1⟩ (SetShape.init N) := by
  refine ⟨rfl, rfl, ?_⟩
  intro p
  unfold SetShape.init N_Omino.Occ N_Omino.inBox
  simp only [List.mem_singleton]
  constructor
  · rintro rfl
    exact ⟨⟨le_refl _, le_refl _, le_refl _, le_refl _⟩, by decide⟩
  · rintro ⟨⟨h1, h2, h3, h4⟩, _⟩
    cases p
    simp only at h1 h2 h3 h4
    simp only [POINT.mk.injEq]
    omega

theorem Search_sim (N : Int) (h1 : 1 ≤ N) (h7 : N ≤ 7) :
    SimRes (N_OminosSearch N) (SetSearch N) := by
  unfold N_OminosSearch SetSearch
  rw [init_eq]
  simp only
  apply Imp_sim h7 _ _ _ (InvT_init N h1 _ (init_eq N)) (Rel_init N) _ [] [] List.Forall₂.nil
  simp only
  omega

theorem forall2_left {α β : Type} {R : α → β → Prop} {l : List α} {L : List β}
    (h : List.Forall₂ R l L) : ∀ a ∈ l, ∃ b ∈ L, R a b := by
  induction h with
  | nil => intro a ha; cases ha
  | cons hab _ ih =>
    intro a ha
    rcases List.mem_cons.mp ha with rfl | ha'
    · exact ⟨_, List.mem_cons_self _ _, hab⟩
    · obtain ⟨b, hb, hr⟩ := ih a ha'
      exact ⟨b, List.mem_cons_of_mem _ hb, hr⟩

theorem forall2_right {α β : Type} {R : α → β → Prop} {l : List α} {L : List β}
    (h : List.Forall₂ R l L) : ∀ b ∈ L, ∃ a ∈ l, R a b := by
  induction h with
  | nil => intro b hb; cases hb
  | cons hab _ ih =>
    intro b hb
    rcases List.mem_cons.mp hb with rfl | hb'
    · exact ⟨_, List.mem_cons_self _ _, hab⟩
    · obtain ⟨a, ha, hr⟩ := ih b hb'
      exact ⟨a, List.mem_cons_of_mem _ ha, hr⟩

theorem uniqueFrom_key : ∀ (l : List N_Omino) (prev a : N_Omino), a ∈ prev :: l →
    ∃ b ∈ uniqueFrom prev l, b.key = a.key := by
  intro l
  induction l with
  | nil =>
    intro prev a ha
    simp only [List.mem_singleton] at ha
    subst ha
    exact ⟨a, by simp [uniqueFrom], rfl⟩
  | cons c rest ih =>
    intro prev a ha
    rw [uniqueFrom]
    by_cases he : prev.eq c = true
    · rw [if_pos he]
      have hk := (eq_iff_key prev c).mp he
      rcases List.mem_cons.mp ha with rfl | ha'
      · exact ih a a (List.mem_cons_self _ _)
      · rcases List.mem_cons.mp ha' with rfl | ha''
        · obtain ⟨b, hb, hbk⟩ := ih prev prev (List.mem_cons_self _ _)
          exact ⟨b, hb, by rw [hbk, hk]⟩
        · exact ih prev a (List.mem_cons_of_mem _ ha'')
    · rw [if_neg he]
      rcases List.mem_cons.mp ha with rfl | ha'
      · exact ⟨a, List.mem_cons_self _ _, rfl⟩
      · obtain ⟨b, hb, hbk⟩ := ih c a ha'
        exact ⟨b, List.mem_cons_of_mem _ hb, hbk⟩

theorem unique_key (l : List N_Omino) (a : N_Omino) (ha : a ∈ l) :
    ∃ b ∈ unique l, b.key = a.key := by
  cases l with
  | nil => cases ha
  | cons c rest => exact uniqueFrom_key rest c a ha

/-- C17. For every `N` in `1..7` the search of `N_OminosGenerate(N)` on the 8x8 wrap-around grid
and the same search on an unbounded grid (cells kept as a set of integer points, a collision
meaning that the exact point is in the set, each complete set translated to its minimum corner)
both return, and give the same shapes: the stored shapes correspond one to one, in order, before
`sort()` and `unique()`, and the final collection holds exactly the shapes of the unbounded
search. Moreover no point of a shape the search works on is congruent mod 8, in both
coordinates, to a different point that `Add` tests: `Get` is true at the tested point iff that
very point is a point of the shape. -/
theorem C17_wrap_grid_loses_nothing (N : Int) (h1 : 1 ≤ N) (h7 : N ≤ 7) :
    ∃ raw l outs, N_OminosSearch N = .ok raw ∧ N_OminosCollection N = .ok l ∧
      SetSearch N = .ok outs ∧
      List.Forall₂ (fun u C => ∀ p, u._grid.Occupied p ↔ p ∈ C) raw outs ∧
      (∀ s ∈ l, ∃ C ∈ outs, ∀ p, s._grid.Occupied p ↔ p ∈ C) ∧
      (∀ C ∈ outs, ∃ s ∈ l, ∀ p, s._grid.Occupied p ↔ p ∈ C) ∧
      (∀ w, Work N w → ∀ v, IsUnit v → ∀ p, w.Occ p →
        wrap p.x = wrap (w._pos.add v).x → wrap p.y = wrap (w._pos.add v).y →
        p = w._pos.add v) ∧
      (∀ w, Work N w → ∀ v, IsUnit v →
        (w._grid.Get (w._pos.add v) = .ok true ↔ w.Occ (w._pos.add v))) := by
  obtain ⟨raw, outs, hraw, houts, hF⟩ := Search_sim N h1 h7
  have hcol : N_OminosCollection N = .ok (unique (sort raw)) := by
    rw [Collection_eq_Search, hraw]
  refine ⟨raw, _, outs, hraw, hcol, houts, hF, ?_, ?_, ?_, ?_⟩
  · intro s hs
    exact forall2_left hF s (mem_unique_sort raw s hs)
  · intro C hC
    obtain ⟨u, hu, hsame⟩ := forall2_right hF C hC
    obtain ⟨b, hb, hk⟩ := unique_key (sort raw) u ((mem_sort raw u).mpr hu)
    refine ⟨b, hb, ?_⟩
    have hg : b._grid = u._grid := by
      unfold N_Omino.key at hk
      cases hbg : b._grid
      cases hug : u._grid
      rw [hbg, hug] at hk
      simp only at hk
      rw [hk]
    intro p
    rw [hg]
    exact hsame p
  · intro w hw v hv p hp hx hy
    exact box_no_alias h7 (Work_InvT h1 h7 hw).1 hv p hp.1 hx hy
  · intro w hw v hv
    have hI := (Work_InvT h1 h7 hw).1
    have hb := hI.box_small h7
    have hcur := hI.cursor.1
    have hu := unit_cases hv
    unfold N_Omino.inBox at hcur
    rw [Get_eq _ _ (by unfold POINT.add; simp only; omega)
      (by unfold POINT.add; simp only; omega)]
    simp only [Except.ok.injEq]
    exact bit_iff_Occ h7 hI hv

theorem C17_witness :
    ∃ raw l outs, N_OminosSearch 3 = .ok raw ∧ N_OminosCollection 3 = .ok l ∧
      SetSearch 3 = .ok outs ∧
      List.Forall₂ (fun u C => ∀ p, u._grid.Occupied p ↔ p ∈ C) raw outs ∧
      (∀ s ∈ l, ∃ C ∈ outs, ∀ p, s._grid.Occupied p ↔ p ∈ C) ∧
      (∀ C ∈ outs, ∃ s ∈ l, ∀ p, s._grid.Occupied p ↔ p ∈ C) ∧
      (∀ w, Work 3 w → ∀ v, IsUnit v → ∀ p, w.Occ p →
        wrap p.x = wrap (w._pos.add v).x → wrap p.y = wrap (w._pos.add v).y →
        p = w._pos.add v) ∧
      (∀ w, Work 3 w → ∀ v, IsUnit v →
        (w._grid.Get (w._pos.add v) = .ok true ↔ w.Occ (w._pos.add v))) :=
  C17_wrap_grid_loses_nothing 3 (by decide) (by decide)

/-! ### The calls of a run stay in range -/

theorem TranslateRowsTrace_mem (vec : VECT) : ∀ (rows : List Nat) (g : Grid8x8) (c : GridCall),
    c ∈ Grid8x8.TranslateRowsTrace vec rows g → c = .rightRotate8 vec.dx := by
  intro rows
  induction rows with
  | nil => intro g c h; cases h
  | cons i rest ih =>
    intro g c h
    rw [Grid8x8.TranslateRowsTrace] at h
    rcases List.mem_cons.mp h with h | h
    · exact h
    · cases hr : RightRotate8 (g.ui8 i) vec.dx with
      | error e => rw [hr] at h; cases h
      | ok r => rw [hr] at h; exact ih _ c h

theorem TranslateTrace_range (g : Grid8x8) (vec : VECT)
    (hv : 0 ≤ vec.dx ∧ vec.dx ≤ 6 ∧ 0 ≤ vec.dy ∧ vec.dy ≤ 6) :
    ∀ c ∈ g.TranslateTrace vec, c.InRange := by
  intro c hc
  unfold Grid8x8.TranslateTrace at hc
  rcases List.mem_cons.mp hc with h | h
  · rw [h]; exact hv
  · rcases List.mem_append.mp h with h | h
    · rw [TranslateRowsTrace_mem vec _ g c h]
      exact ⟨hv.1, by omega⟩
    · cases hr : Grid8x8.TranslateRows vec [0, 1, 2, 3, 4, 5, 6, 7] g with
      | error e => rw [hr] at h; cases h
      | ok g1 =>
        rw [hr] at h
        simp only [List.mem_singleton] at h
        rw [h]
        exact ⟨by omega, by omega⟩

theorem AddTrace_range (s : N_Omino) (v : VECT)
    (hp : -6 ≤ (s._pos.add v).x ∧ (s._pos.add v).x ≤ 6 ∧
      -6 ≤ (s._pos.add v).y ∧ (s._pos.add v).y ≤ 6) :
    ∀ c ∈ s.AddTrace v, c.InRange := by
  intro c hc
  have hget : (GridCall.get (s._pos.add v)).InRange := hp
  have hset : (GridCall.set (s._pos.add v)).InRange := hp
  unfold N_Omino.AddTrace at hc
  simp only at hc
  cases hg : s._grid.Get (s._pos.add v) with
  | error e =>
    rw [hg] at hc
    simp only [List.mem_singleton] at hc
    rw [hc]; exact hget
  | ok occupied =>
    rw [hg] at hc
    simp only at hc
    by_cases hb : (occupied || decide (s._squaresLeft < 1)) = true
    · rw [if_pos hb] at hc
      simp only [List.mem_singleton] at hc
      rw [hc]; exact hget
    · rw [if_neg hb] at hc
      simp only [List.mem_cons, List.mem_singleton, List.not_mem_nil, or_false] at hc
      rcases hc with hc | hc
      · rw [hc]; exact hget
      · rw [hc]; exact hset

theorem AddIfTrace_range {N : Int} {s : N_Omino} {combo : Nat} {dirs : List (Nat × VECT)}
    (hpos : -5 ≤ s._pos.x ∧ s._pos.x ≤ 5 ∧ -5 ≤ s._pos.y ∧ s._pos.y ≤ 5)
    (dir : Nat) {v : VECT} (hv : IsUnit v) {cur : Except Fault (Option N_Omino)}
    (h : Mid N s combo dirs cur) :
    ∀ c ∈ AddIfTrace combo dir v cur, c.InRange := by
  intro c hc
  rcases h with h | ⟨s', h, _, hp, _⟩
  · rw [h] at hc; cases hc
  · rw [h] at hc
    unfold AddIfTrace at hc
    simp only at hc
    by_cases hd : (combo &&& dir != 0) = true
    · rw [if_pos hd] at hc
      have hu := unit_cases hv
      refine AddTrace_range s' v ?_ c hc
      rw [hp]
      unfold POINT.add
      simp only
      omega
    · rw [if_neg hd] at hc; cases hc

theorem Mid_start {N : Int} {s : N_Omino} (combo : Nat) (hI : Inv N s) :
    Mid N s combo [] (.ok (some s)) :=
  Or.inr ⟨s, rfl, hI, rfl, le_refl _, fun d hd => by cases hd⟩

theorem cursor_small {N : Int} (hN : N ≤ 7) {s : N_Omino} (hI : Inv N s)
    (hleft : s.SquaresLeft ≠ 0) :
    -5 ≤ s._pos.x ∧ s._pos.x ≤ 5 ∧ -5 ≤ s._pos.y ∧ s._pos.y ≤ 5 := by
  have h0 := hI.left_nonneg
  have h1 := hI.origin
  have h2 := hI.size
  have h3 := hI.cursor.1
  unfold N_Omino.inBox at h3
  unfold N_Omino.SquaresLeft at hleft
  omega

theorem AddComboTrace_range {N : Int} (hN : N ≤ 7) {s : N_Omino} (combo : Nat) (hI : Inv N s)
    (hleft : s.SquaresLeft ≠ 0) :
    ∀ c ∈ AddComboTrace combo s, c.InRange := by
  have hpos := cursor_small hN hI hleft
  have m0 := Mid_start combo hI
  have m1 := Mid_step hN DIR_N unit_N m0
  have m2 := Mid_step hN DIR_E unit_E m1
  have m3 := Mid_step hN DIR_S unit_S m2
  intro c hc
  unfold AddComboTrace at hc
  rcases List.mem_append.mp hc with h | h
  · exact AddIfTrace_range hpos DIR_N unit_N m0 c h
  · rcases List.mem_append.mp h with h | h
    · exact AddIfTrace_range hpos DIR_E unit_E m1 c h
    · rcases List.mem_append.mp h with h | h
      · exact AddIfTrace_range hpos DIR_S unit_S m2 c h
      · exact AddIfTrace_range hpos DIR_W unit_W m3 c h

theorem FollowIfTrace_range {recurseTrace : List N_Omino → N_Omino → List GridCall}
    (combo dir : Nat) (v : VECT) (s' : N_Omino)
    (hrec : (combo &&& dir != 0) = true →
      ∀ acc, ∀ c ∈ recurseTrace acc (s'.Follow v), c.InRange)
    (acc : Except Fault (List N_Omino)) :
    ∀ c ∈ FollowIfTrace recurseTrace combo dir v s' acc, c.InRange := by
  intro c hc
  unfold FollowIfTrace at hc
  cases acc with
  | error e => cases hc
  | ok l =>
    simp only at hc
    by_cases hd : (combo &&& dir != 0) = true
    · rw [if_pos hd] at hc; exact hrec hd l c hc
    · rw [if_neg hd] at hc; cases hc

theorem GenerateLoopTrace_range {N : Int} (hN : N ≤ 7)
    {recurse : List N_Omino → N_Omino → Except Fault (List N_Omino)}
    {recurseTrace : List N_Omino → N_Omino → List GridCall}
    {s : N_Omino} (hs : s.SquaresLeft ≠ 0) (hI : Inv N s)
    (hrec : ∀ t, Calls s t → ∀ acc, ∀ c ∈ recurseTrace acc t, c.InRange) :
    ∀ (table : List DIR_COMB), (∀ dc ∈ table, dc ∈ kDirComb) →
    ∀ (acc : List N_Omino), ∀ c ∈ GenerateLoopTrace recurse recurseTrace s table acc,
      c.InRange := by
  intro table
  induction table with
  | nil => intro _ acc c hc; cases hc
  | cons dc rest ih =>
    intro hmem acc c hc
    have hdc := hmem dc (List.mem_cons_self _ _)
    have ih' := ih (fun d hd => hmem d (List.mem_cons_of_mem _ hd))
    rw [GenerateLoopTrace] at hc
    rcases List.mem_append.mp hc with h | h
    · exact AddComboTrace_range hN dc.combo hI hs c h
    · cases hA : AddCombo dc.combo s with
      | error e => rw [hA] at h; cases h
      | ok o =>
        cases o with
        | none => rw [hA] at h; exact ih' acc c h
        | some s' =>
          rw [hA] at h
          simp only at h
          have step : ∀ d ∈ allDirs, (dc.combo &&& d.1 != 0) = true →
              ∀ acc, ∀ c ∈ recurseTrace acc (s'.Follow d.2), c.InRange :=
            fun d hd hc => hrec _ ⟨hs, dc, hdc, s', hA, d, hd, hc, rfl⟩
          rcases List.mem_append.mp h with h | h
          · unfold FollowComboTrace at h
            rcases List.mem_append.mp h with h | h
            · exact FollowIfTrace_range _ _ _ _
                (step (DIR_N, kVecNorth) (by simp [allDirs])) _ c h
            · rcases List.mem_append.mp h with h | h
              · exact FollowIfTrace_range _ _ _ _
                  (step (DIR_E, kVecEast) (by simp [allDirs])) _ c h
              · rcases List.mem_append.mp h with h | h
                · exact FollowIfTrace_range _ _ _ _
                    (step (DIR_S, kVecSouth) (by simp [allDirs])) _ c h
                · exact FollowIfTrace_range _ _ _ _
                    (step (DIR_W, kVecWest) (by simp [allDirs])) _ c h
          · cases hF : FollowCombo recurse dc.combo s' acc with
            | error e => rw [hF] at h; cases h
            | ok acc1 => rw [hF] at h; exact ih' acc1 c h

theorem NormalizeTrace_range {N : Int} (hN : N ≤ 7) {s : N_Omino} (hI : Inv N s) :
    ∀ c ∈ s.NormalizeTrace, c.InRange := by
  have hb := hI.box_small hN
  have ho := hI.origin
  exact TranslateTrace_range _ _ ⟨by simp only; omega, by simp only; omega,
    by simp only; omega, by simp only; omega⟩

theorem ImpTrace_range {N : Int} (hN : N ≤ 7) : ∀ (fuel : Nat) (acc : List N_Omino)
    (s : N_Omino), InvT N s → ∀ c ∈ N_OminosGenerateImpTrace fuel acc s, c.InRange := by
  intro fuel
  induction fuel with
  | zero => intro acc s _ c hc; cases hc
  | succ fuel ih =>
    intro acc s hI c hc
    rw [N_OminosGenerateImpTrace] at hc
    by_cases h0 : s.SquaresLeft = 0
    · rw [if_pos h0] at hc
      exact NormalizeTrace_range hN hI.1 c hc
    · rw [if_neg h0] at hc
      exact GenerateLoopTrace_range hN h0 hI.1
        (fun t ht acc' => ih acc' t (InvT_Calls hN hI ht)) kDirComb (fun _ h => h) acc c hc

theorem DrawRowFromTrace_range (s : N_Omino) (row : Int) (hrow : 0 ≤ row ∧ row ≤ 6) :
    ∀ (n : Nat) (i : Int), 0 ≤ i → i + n ≤ 7 →
      ∀ c ∈ s.DrawRowFromTrace row n i, c.InRange := by
  intro n
  induction n with
  | zero => intro i _ _ c hc; cases hc
  | succ n ih =>
    intro i h0 h7 c hc
    rw [N_Omino.DrawRowFromTrace] at hc
    push_cast at h7
    rcases List.mem_cons.mp hc with h | h
    · rw [h]
      exact ⟨by simp only; omega, by simp only; omega, by simp only; omega,
        by simp only; omega⟩
    · cases hg : s._grid.Get ⟨i, row⟩ with
      | error e => rw [hg] at h; cases h
      | ok b => rw [hg] at h; exact ih (i + 1) (by omega) (by omega) c h

theorem DrawFromTrace_range (s : N_Omino) (hx : s._extent1.x = 0)
    (hx2 : 0 ≤ s._extent2.x ∧ s._extent2.x ≤ 6) :
    ∀ (n : Nat) (i : Int), 0 ≤ i → i + n ≤ 7 → ∀ c ∈ s.DrawFromTrace n i, c.InRange := by
  intro n
  induction n with
  | zero => intro i _ _ c hc; cases hc
  | succ n ih =>
    intro i h0 h7 c hc
    rw [N_Omino.DrawFromTrace] at hc
    push_cast at h7
    rcases List.mem_append.mp hc with h | h
    · unfold N_Omino.DrawRowTrace at h
      exact DrawRowFromTrace_range s i ⟨h0, by omega⟩ _ _ (by omega)
        (by rw [hx, Int.toNat_of_nonneg (by omega)]; omega) c h
    · cases hr : s.DrawRow i with
      | error e => rw [hr] at h; cases h
      | ok line => rw [hr] at h; exact ih (i + 1) (by omega) (by omega) c h

theorem DrawTrace_range {N : Int} {s : N_Omino} (hF : Final N s) :
    ∀ c ∈ s.DrawTrace, c.InRange := by
  have he := hF.extent2
  have hx : s._extent1.x = 0 := by rw [hF.extent1]
  have hy : s._extent1.y = 0 := by rw [hF.extent1]
  unfold N_Omino.DrawTrace
  exact DrawFromTrace_range s hx ⟨he.1, he.2.1⟩ _ _ (by omega)
    (by rw [hy, Int.toNat_of_nonneg (by omega)]; omega)

theorem N_OminosDrawTrace_range {N : Int} : ∀ (l : List N_Omino), (∀ s ∈ l, Final N s) →
    ∀ c ∈ N_OminosDrawTrace l, c.InRange := by
  intro l
  induction l with
  | nil => intro _ c hc; cases hc
  | cons s rest ih =>
    intro hl c hc
    rw [N_OminosDrawTrace] at hc
    rcases List.mem_append.mp hc with h | h
    · exact DrawTrace_range (hl s (List.mem_cons_self _ _)) c h
    · cases hd : s.Draw with
      | error e => rw [hd] at h; cases h
      | ok d =>
        rw [hd] at h
        exact ih (fun t ht => hl t (List.mem_cons_of_mem _ ht)) c h

theorem GenerateTrace_range (N : Int) (h1 : 1 ≤ N) (h7 : N ≤ 7) :
    ∀ c ∈ N_OminosGenerateTrace N, c.InRange := by
  intro c hc
  unfold N_OminosGenerateTrace at hc
  rw [if_pos ⟨h1, h7⟩] at hc
  rcases List.mem_append.mp hc with h | h
  · unfold N_OminosCollectionTrace at h
    rcases List.mem_append.mp h with h | h
    · unfold N_Omino.initTrace at h
      simp only [List.mem_singleton] at h
      rw [h]
      exact ⟨by decide, by decide, by decide, by decide⟩
    · rw [init_eq] at h
      exact ImpTrace_range h7 _ _ _ (InvT_init N h1 _ (init_eq N)) c h
  · obtain ⟨raw, hraw, hF⟩ := Collection_spec N h1 h7
    rw [hraw] at h
    exact N_OminosDrawTrace_range _ (fun s hs => hF s (mem_unique_sort raw s hs)) c h

/-- C21. For every `N` in `1..7` the run of `N_OminosGenerate(N)` returns without a fault, and
every call it makes is in range: every point passed to `Grid8x8::Get` or `Grid8x8::Set` has
both coordinates in `-6..6`, so that `Grid8x8::Normalize(int)` gives a row index and a bit
index in `0..7`; every `Translate` (issued by `N_Omino::Normalize`) has `0 <= dx <= 6` and
`0 <= dy <= 6`; `RightRotate8` is called with `rot` in `0..7` and `LeftRotate64` with `rot`
in `0..63`. -/
theorem C21_calls_in_range (N : Int) (h1 : 1 ≤ N) (h7 : N ≤ 7) :
    (∃ r, N_OminosGenerate N = .ok r) ∧
    (∀ pt, (.get pt ∈ N_OminosGenerateTrace N ∨ .set pt ∈ N_OminosGenerateTrace N) →
      (-6 ≤ pt.x ∧ pt.x ≤ 6 ∧ -6 ≤ pt.y ∧ pt.y ≤ 6) ∧
      (0 ≤ Grid8x8.Normalize pt.x ∧ Grid8x8.Normalize pt.x ≤ 7) ∧
      (0 ≤ Grid8x8.Normalize pt.y ∧ Grid8x8.Normalize pt.y ≤ 7)) ∧
    (∀ vec, .translate vec ∈ N_OminosGenerateTrace N →
      0 ≤ vec.dx ∧ vec.dx ≤ 6 ∧ 0 ≤ vec.dy ∧ vec.dy ≤ 6) ∧
    (∀ rot, .rightRotate8 rot ∈ N_OminosGenerateTrace N → 0 ≤ rot ∧ rot ≤ 7) ∧
    (∀ rot, .leftRotate64 rot ∈ N_OminosGenerateTrace N → 0 ≤ rot ∧ rot ≤ 63) := by
  have hall := GenerateTrace_range N h1 h7
  refine ⟨?_, ?_, fun vec h => hall _ h, fun rot h => hall _ h, fun rot h => hall _ h⟩
  · obtain ⟨l, drawn, _, _, hg⟩ := Generate_in_range N h1 h7
    exact ⟨_, hg⟩
  · intro pt hpt
    have hr : -6 ≤ pt.x ∧ pt.x ≤ 6 ∧ -6 ≤ pt.y ∧ pt.y ≤ 6 := by
      rcases hpt with h | h
      · exact hall _ h
      · exact hall _ h
    have nx := Normalize_range pt.x (by omega)
    have ny := Normalize_range pt.y (by omega)
    exact ⟨hr, ⟨nx.1, by omega⟩, ⟨ny.1, by omega⟩⟩

theorem C21_witness :
    (∃ r, N_OminosGenerate 7 = .ok r) ∧
    (∀ pt, (.get pt ∈ N_OminosGenerateTrace 7 ∨ .set pt ∈ N_OminosGenerateTrace 7) →
      (-6 ≤ pt.x ∧ pt.x ≤ 6 ∧ -6 ≤ pt.y ∧ pt.y ≤ 6) ∧
      (0 ≤ Grid8x8.Normalize pt.x ∧ Grid8x8.Normalize pt.x ≤ 7) ∧
      (0 ≤ Grid8x8.Normalize pt.y ∧ Grid8x8.Normalize pt.y ≤ 7)) ∧
    (∀ vec, .translate vec ∈ N_OminosGenerateTrace 7 →
      0 ≤ vec.dx ∧ vec.dx ≤ 6 ∧ 0 ≤ vec.dy ∧ vec.dy ≤ 6) ∧
    (∀ rot, .rightRotate8 rot ∈ N_OminosGenerateTrace 7 → 0 ≤ rot ∧ rot ≤ 7) ∧
    (∀ rot, .leftRotate64 rot ∈ N_OminosGenerateTrace 7 → 0 ≤ rot ∧ rot ≤ 63) :=
  C21_calls_in_range 7 (by decide) (by decide)

/-! ### The table of direction combinations -/

/-- C22. The table `kDirComb` has 14 entries (and `kNumDirComb` is 14); their direction sets
are, in order, N, E, E+N, S, S+N, S+E, S+E+N, W+N, W+E, W+E+N, W+S, W+S+N, W+S+E, W+S+E+N;
they are pairwise different and are exactly the non-empty subsets of {N, E, S, W} other than
{W} alone (no entry has a bit outside the four directions); and the `squares` field of each
entry is the number of directions in its `combo`. -/
theorem C22_kDirComb_table :
    kDirComb.length = 14 ∧ kNumDirComb = 14 ∧
    kDirComb.map (fun dc => dirSet dc.combo) =
      [[DIR_N], [DIR_E], [DIR_N, DIR_E], [DIR_S], [DIR_N, DIR_S], [DIR_E, DIR_S],
       [DIR_N, DIR_E, DIR_S], [DIR_N, DIR_W], [DIR_E, DIR_W], [DIR_N, DIR_E, DIR_W],
       [DIR_S, DIR_W], [DIR_N, DIR_S, DIR_W], [DIR_E, DIR_S, DIR_W],
       [DIR_N, DIR_E, DIR_S, DIR_W]] ∧
    (kDirComb.map (fun dc => dirSet dc.combo)).Nodup ∧
    (kDirComb.map (fun dc => dc.combo)).Nodup ∧
    (∀ dc ∈ kDirComb, dc.combo &&& (DIR_N ||| DIR_E ||| DIR_S ||| DIR_W) = dc.combo) ∧
    (∀ S ∈ [DIR_N, DIR_E, DIR_S, DIR_W].sublists,
      (S ∈ kDirComb.map (fun dc => dirSet dc.combo) ↔ S ≠ [] ∧ S ≠ [DIR_W])) ∧
    (∀ dc ∈ kDirComb, dc.squares = (dirSet dc.combo).length) := by
  refine ⟨by decide, by decide, by decide, by decide, by decide, by decide, by decide,
    by decide⟩

end NOminos
